import Mathlib

/-!
# SingleLinkedList<Type>: a heap model of single-linked-list.h

The container of `single-linked-list.h` is a chain of `Node`s reached through raw
pointers, so the embedding keeps the pointers: a `Heap` is an address space of cells,
a pointer is an `Option Nat` (`none` is `nullptr`), and every member function is a
function on the heap and on the list object `{head_, size_}`.

* `new Node(..)` takes the next unused address and fails (an exception) when the free store
  of the heap is used up; `delete` marks the cell as dead, so that a read through a dangling
  pointer is visible as a fault. Addresses are not handed out twice.
* The sentinel `head_` is a `Node` like any other; the list object records its address,
  which is what `&head_` denotes in the source. The sentinel is a member of the list object:
  its cell is placed with the object and is not taken from the free store.
* `size_` is a `size_t`: `++size_` and `--size_` are computed modulo `2 ^ 64`.
* Loops (`Clear`, `Assign`, a traversal) carry fuel; the theorems show that the fuel the
  callers pass is enough.
* The `operator==` and `operator<` of the element type are parameters `eq` and `lt` of the
  comparison operators; `std::equal` and `std::lexicographical_compare` are the loops over
  two forward-iterator ranges that the C++ standard describes.
-/

namespace SingleLinked

/-! ## Machine model -/

/-- Modulus of `size_t` arithmetic. -/
def SIZE_MOD : Nat := 2 ^ 64

/-- Number of addresses a 64-bit pointer can hold besides `nullptr`. -/
def ADDR_LIMIT : Nat := 2 ^ 64 - 1

/-- The `struct Node`: one element and the pointer to the next node. -/
structure Node (α : Type) where
  value : α
  next_node : Option Nat
deriving DecidableEq

/-- The address space: cell `p` is `some n` while a node lives at address `p`, `none` after
it was deleted. Addresses from `cells.length` on were never used; `limit - cells.length` is
the number of nodes the free store can still hand out, after which `new` fails. -/
structure Heap (α : Type) where
  cells : List (Option (Node α))
  limit : Nat
deriving DecidableEq

variable {α : Type} {ι : Type}

/-- Read through a pointer: `none` when no node lives at `p`. -/
def Heap.read (h : Heap α) (p : Nat) : Option (Node α) :=
  (h.cells[p]?).getD none

/-- The expression `new Node(value, next)`: the new heap and the address of the node, or
`none` when the allocation fails. -/
def Heap.new_Node (h : Heap α) (value : α) (next : Option Nat) : Option (Heap α × Nat) :=
  if h.cells.length < h.limit then
    some ({ h with cells := h.cells ++ [some ⟨value, next⟩] }, h.cells.length)
  else none

/-- The assignment `p->next_node = next`; `none` when no node lives at `p`. -/
def Heap.set_next (h : Heap α) (p : Nat) (next : Option Nat) : Option (Heap α) :=
  match h.read p with
  | none => none
  | some n => some { h with cells := h.cells.set p (some { n with next_node := next }) }

/-- The statement `delete p`; `none` when no node lives at `p`. -/
def Heap.delete (h : Heap α) (p : Nat) : Option (Heap α) :=
  match h.read p with
  | none => none
  | some _ => some { h with cells := h.cells.set p none }

/-- Storage for an object that has the node `n` as a member, as a list object has its
sentinel: the next unused address. The storage of an object is not taken from the free store,
so the room of `new`, `limit - cells.length`, stays as it is, unless every address of the
machine is spoken for. `none` when the machine has no address left. -/
def Heap.place (h : Heap α) (n : Node α) : Option (Heap α × Nat) :=
  if h.cells.length < ADDR_LIMIT then
    some ({ cells := h.cells ++ [some n], limit := min (h.limit + 1) ADDR_LIMIT },
      h.cells.length)
  else none

/-! ## BasicIterator -/

/-- The class `BasicIterator<ValueType>`: the pointer `node_`. `Iterator` and `ConstIterator`
differ only in the constness of the reference they hand out. -/
structure BasicIterator where
  node_ : Option Nat
deriving DecidableEq

/-- The comparison `operator==` of two iterators. -/
def BasicIterator.eq (a b : BasicIterator) : Bool :=
  decide (a.node_ = b.node_)

/-- The comparison `operator!=` of two iterators. -/
def BasicIterator.ne (a b : BasicIterator) : Bool :=
  decide (a.node_ ≠ b.node_)

/-- The increment `operator++`: `assert(node_ != nullptr); node_ = node_->next_node`. -/
def BasicIterator.incr (h : Heap α) (it : BasicIterator) : Option BasicIterator :=
  match it.node_ with
  | none => none
  | some p =>
    match h.read p with
    | none => none
    | some n => some ⟨n.next_node⟩

/-- The dereference `operator*`: `assert(node_ != nullptr); return node_->value`. -/
def BasicIterator.deref (h : Heap α) (it : BasicIterator) : Option α :=
  match it.node_ with
  | none => none
  | some p =>
    match h.read p with
    | none => none
    | some n => some n.value

/-- What the template parameter `InputIterator` of `Assign` has to provide. -/
structure InputIterator (α : Type) (ι : Type) where
  deref : Heap α → ι → Option α
  incr : Heap α → ι → Option ι
  eq : ι → ι → Bool

/-- Iterators of a `std::initializer_list` holding `values`: positions in the array. -/
def array_iterator (values : List α) : InputIterator α Nat where
  deref := fun _ i => values[i]?
  incr := fun _ i => if i < values.length then some (i + 1) else none
  eq := fun i j => decide (i = j)

/-- Iterators of a `SingleLinkedList`. -/
def list_iterator : InputIterator α BasicIterator where
  deref := BasicIterator.deref
  incr := BasicIterator.incr
  eq := BasicIterator.eq

/-! ## SingleLinkedList -/

/-- The list object: `head_` is the address of the sentinel node, `size_` the counter. -/
structure SingleLinkedList where
  head_ : Nat
  size_ : Nat
deriving DecidableEq

/-- How a call ends: it returns `r` in heap `h`; or an exception leaves it in heap `h`, with
`this` the list object the call was made on as it is at that moment (for a constructor the
object under construction); or it does not complete (a failed `assert`, a read through a
null or dangling pointer, no address left for an object, or a loop that used up its fuel). -/
inductive Outcome (α : Type) (ρ : Type) where
  | ok (h : Heap α) (r : ρ)
  | thrown (h : Heap α) (this : SingleLinkedList)
  | fault

/-- The member `cend()`: `ConstIterator(nullptr)`. -/
def SingleLinkedList.cend (_l : SingleLinkedList) : BasicIterator := ⟨none⟩

/-- The member `end()`. -/
def SingleLinkedList.end (l : SingleLinkedList) : BasicIterator := l.cend

namespace SingleLinkedList

/-- The member `cbegin()`: `ConstIterator(head_.next_node)`. -/
def cbegin (h : Heap α) (l : SingleLinkedList) : Option BasicIterator :=
  match h.read l.head_ with
  | none => none
  | some hd => some ⟨hd.next_node⟩

/-- The member `begin()`. -/
def begin (h : Heap α) (l : SingleLinkedList) : Option BasicIterator := l.cbegin h

/-- The member `before_begin()`: `Iterator(&head_)`. -/
def before_begin (l : SingleLinkedList) : BasicIterator := ⟨some l.head_⟩

/-- The member `GetSize()`. -/
def GetSize (l : SingleLinkedList) : Nat := l.size_

/-- The member `IsEmpty()`. -/
def IsEmpty (l : SingleLinkedList) : Bool := decide (l.size_ = 0)

/-- The default constructor: `head_({}), size_(0u)`, on the storage of the new object. It
allocates nothing and cannot throw. -/
def default_ctor [Inhabited α] (h : Heap α) : Outcome α SingleLinkedList :=
  match h.place ⟨(default : α), none⟩ with
  | none => .fault
  | some (h1, a) => .ok h1 ⟨a, 0⟩

/-- The member `swap(other)`: exchanges `size_` and `head_.next_node`; returns the two
objects, `*this` first. -/
def swap (h : Heap α) (l other : SingleLinkedList) :
    Outcome α (SingleLinkedList × SingleLinkedList) :=
  match h.read l.head_ with
  | none => .fault
  | some a =>
    match h.read other.head_ with
    | none => .fault
    | some b =>
      match h.set_next l.head_ b.next_node with
      | none => .fault
      | some h1 =>
        match h1.set_next other.head_ a.next_node with
        | none => .fault
        | some h2 => .ok h2 (⟨l.head_, other.size_⟩, ⟨other.head_, l.size_⟩)

/-- The member `PushFront(value)`. -/
def PushFront (h : Heap α) (l : SingleLinkedList) (value : α) : Outcome α SingleLinkedList :=
  match h.read l.head_ with
  | none => .fault
  | some hd =>
    match h.new_Node value hd.next_node with
    | none => .thrown h l
    | some (h1, new_node_ptr) =>
      match h1.set_next l.head_ (some new_node_ptr) with
      | none => .fault
      | some h2 => .ok h2 { l with size_ := (l.size_ + 1) % SIZE_MOD }

/-- The member `InsertAfter(pos, value)`; returns the list object and the iterator. The
first statement of the source, `assert(pos.node_ != nullptr_t)`, names the type `nullptr_t`
where the value `nullptr` is meant: it cannot be compiled while assertions are on, so the
function runs only with assertions off, where the statement is empty and checks nothing.
In `new Node(value, (++pos).node_)` the storage is taken first: the expression throws when
the free store is used up, before `++pos` is evaluated; then comes `++pos`, then the node,
then the write of `it.node_->next_node`. -/
def InsertAfter (h : Heap α) (l : SingleLinkedList) (pos : BasicIterator) (value : α) :
    Outcome α (SingleLinkedList × BasicIterator) :=
  if h.cells.length < h.limit then
    match pos.incr h with
    | none => .fault
    | some pos1 =>
      match h.new_Node value pos1.node_ with
      | none => .thrown h l
      | some (h1, new_node_ptr) =>
        match pos.node_ with
        | none => .fault
        | some p =>
          match h1.set_next p (some new_node_ptr) with
          | none => .fault
          | some h2 =>
            .ok h2 ({ l with size_ := (l.size_ + 1) % SIZE_MOD }, ⟨some new_node_ptr⟩)
  else .thrown h l

/-- The member `PopFront()`. -/
def PopFront (h : Heap α) (l : SingleLinkedList) : Outcome α SingleLinkedList :=
  if l.IsEmpty then .ok h l
  else
    match h.read l.head_ with
    | none => .fault
    | some hd =>
      match hd.next_node with
      | none => .fault
      | some first =>
        match h.read first with
        | none => .fault
        | some n =>
          match h.delete first with
          | none => .fault
          | some h1 =>
            match h1.set_next l.head_ n.next_node with
            | none => .fault
            | some h2 => .ok h2 { l with size_ := (l.size_ + (SIZE_MOD - 1)) % SIZE_MOD }

/-- The member `EraseAfter(pos)`; returns the list object and the iterator. -/
def EraseAfter (h : Heap α) (l : SingleLinkedList) (pos : BasicIterator) :
    Outcome α (SingleLinkedList × BasicIterator) :=
  if l.IsEmpty then .ok h (l, l.end)
  else
    match pos.node_ with
    | none => .ok h (l, l.end)
    | some p =>
      match h.read p with
      | none => .fault
      | some pn =>
        match pn.next_node with
        | none => .ok h (l, l.end)
        | some removing_node_ptr =>
          match h.read removing_node_ptr with
          | none => .fault
          | some rn =>
            match h.set_next p rn.next_node with
            | none => .fault
            | some h1 =>
              match h1.delete removing_node_ptr with
              | none => .fault
              | some h2 =>
                match (BasicIterator.mk (some p)).incr h2 with
                | none => .fault
                | some it1 =>
                  .ok h2 ({ l with size_ := (l.size_ + (SIZE_MOD - 1)) % SIZE_MOD }, it1)

/-- The `while` loop of `Clear()`, for the sentinel at address `head`. -/
def Clear.loop (head : Nat) : Nat → Heap α → Outcome α Unit
  | 0, _ => .fault
  | fuel + 1, h =>
    match h.read head with
    | none => .fault
    | some hd =>
      match hd.next_node with
      | none => .ok h ()
      | some first =>
        match h.read first with
        | none => .fault
        | some n =>
          match h.delete first with
          | none => .fault
          | some h1 =>
            match h1.set_next head n.next_node with
            | none => .fault
            | some h2 => Clear.loop head fuel h2

/-- The member `Clear()`. Every round of the loop deletes a live cell, so the loop makes at
most `cells.length` rounds. -/
def Clear (h : Heap α) (l : SingleLinkedList) : Outcome α SingleLinkedList :=
  match Clear.loop l.head_ (h.cells.length + 1) h with
  | .ok h1 _ => .ok h1 { l with size_ := 0 }
  | .thrown h1 t => .thrown h1 t
  | .fault => .fault

/-- The destructor `~SingleLinkedList()`: `Clear()`, then the storage of the object (of the
sentinel) is given back. -/
def dtor (h : Heap α) (l : SingleLinkedList) : Outcome α Unit :=
  match Clear h l with
  | .ok h1 _ =>
    match h1.delete l.head_ with
    | none => .fault
    | some h2 => .ok h2 ()
  | .thrown h1 t => .thrown h1 t
  | .fault => .fault

/-- The `while (from != to)` loop of `Assign`: `tmp` is the list under construction and
`ptr_to_next_node_field` the address of the node whose link is written next. -/
def Assign.loop (I : InputIterator α ι) (to_ : ι) :
    Nat → Heap α → SingleLinkedList → Nat → ι → Outcome α SingleLinkedList
  | 0, _, _, _, _ => .fault
  | fuel + 1, h, tmp, ptr_to_next_node_field, from_ =>
    if I.eq from_ to_ then .ok h tmp
    else
      match I.deref h from_ with
      | none => .fault
      | some x =>
        match h.new_Node x none with
        | none => .thrown h tmp
        | some (h1, new_node) =>
          match h1.set_next ptr_to_next_node_field (some new_node) with
          | none => .fault
          | some h2 =>
            match I.incr h2 from_ with
            | none => .fault
            | some from1 =>
              Assign.loop I to_ fuel h2 { tmp with size_ := (tmp.size_ + 1) % SIZE_MOD }
                new_node from1

/-- The member template `Assign(from, to)`: builds `tmp`, swaps it with `*this`, and `tmp`
is destroyed on the way out (also when an exception passes through). -/
def Assign [Inhabited α] (I : InputIterator α ι) (fuel : Nat) (h : Heap α)
    (l : SingleLinkedList) (from_ to_ : ι) : Outcome α SingleLinkedList :=
  match default_ctor h with
  | .fault => .fault
  | .thrown h0 t => .thrown h0 t
  | .ok h0 tmp =>
    match Assign.loop I to_ fuel h0 tmp tmp.head_ from_ with
    | .fault => .fault
    | .thrown h1 tmp1 =>
      match dtor h1 tmp1 with
      | .ok h2 _ => .thrown h2 l
      | _ => .fault
    | .ok h1 tmp1 =>
      match swap h1 l tmp1 with
      | .ok h2 (l2, tmp2) =>
        match dtor h2 tmp2 with
        | .ok h3 _ => .ok h3 l2
        | _ => .fault
      | _ => .fault

/-- The constructor from a `std::initializer_list`, on the storage of the new object. It
has no member initialisers: `head_` gets the default member values (no link), `size_` starts
with whatever the storage held, here `junk`. When `Assign` throws, the storage is given back
and the exception goes on. -/
def init_ctor [Inhabited α] (h : Heap α) (junk : Nat) (values : List α) :
    Outcome α SingleLinkedList :=
  match h.place ⟨(default : α), none⟩ with
  | none => .fault
  | some (h0, a) =>
    match Assign (array_iterator values) (values.length + 1) h0 ⟨a, junk⟩ 0 values.length with
    | .ok h1 l => .ok h1 l
    | .thrown h1 l =>
      match h1.delete a with
      | none => .fault
      | some h2 => .thrown h2 l
    | .fault => .fault

/-- The copy constructor; like `init_ctor` it starts from a default `head_` and an
indeterminate `size_`. -/
def copy_ctor [Inhabited α] (h : Heap α) (junk : Nat) (other : SingleLinkedList) :
    Outcome α SingleLinkedList :=
  match h.place ⟨(default : α), none⟩ with
  | none => .fault
  | some (h0, a) =>
    match other.cbegin h0 with
    | none => .fault
    | some b =>
      match Assign list_iterator (h.cells.length + 1) h0 ⟨a, junk⟩ b other.cend with
      | .ok h1 l => .ok h1 l
      | .thrown h1 l =>
        match h1.delete a with
        | none => .fault
        | some h2 => .thrown h2 l
      | .fault => .fault

end SingleLinkedList

/-! ## Observing a list -/

/-- The loop `for (it = first; it != last; ++it) out.push_back(*it)`. -/
def traverse (h : Heap α) : Nat → BasicIterator → BasicIterator → Option (List α)
  | 0, _, _ => none
  | fuel + 1, it, last =>
    if it.eq last then some []
    else
      match it.deref h with
      | none => none
      | some v =>
        match it.incr h with
        | none => none
        | some it1 =>
          match traverse h fuel it1 last with
          | none => none
          | some vs => some (v :: vs)

/-- The elements visited from `begin()` to `end()`. -/
def SingleLinkedList.elements (h : Heap α) (l : SingleLinkedList) : Option (List α) :=
  match l.begin h with
  | none => none
  | some b => traverse h (h.cells.length + 1) b l.end

/-- The iterator reached from `it` by `k` increments. -/
def advance (h : Heap α) : Nat → BasicIterator → Option BasicIterator
  | 0, it => some it
  | k + 1, it =>
    match it.incr h with
    | none => none
    | some it1 => advance h k it1

/-! ## Well-formed lists -/

/-- A segment of a chain: following the links from pointer `p` visits the nodes `ns` (address
and element) in this order and then arrives at the pointer `e`. -/
def Seg (h : Heap α) : Option Nat → List (Nat × α) → Option Nat → Prop
  | p, [], e => p = e
  | p, (q, v) :: rest, e => p = some q ∧ ∃ nx, h.read q = some ⟨v, nx⟩ ∧ Seg h nx rest e

/-- The list object `l` owns the nodes `ns`: the chain from the sentinel runs through
exactly these nodes to `nullptr`, the sentinel and the nodes are distinct, and `size_` counts
the nodes. -/
def Repr (h : Heap α) (l : SingleLinkedList) (ns : List (Nat × α)) : Prop :=
  (∃ hv, Seg h (some l.head_) ((l.head_, hv) :: ns) none) ∧
    (l.head_ :: ns.map Prod.fst).Nodup ∧ l.size_ = ns.length

/-- The heap respects the machine: no more cells than `limit`, and `limit` within the range
of a pointer. -/
def HeapOK (h : Heap α) : Prop :=
  h.cells.length ≤ h.limit ∧ h.limit ≤ ADDR_LIMIT

/-- A well-formed list in a well-formed heap. -/
def WF (h : Heap α) (l : SingleLinkedList) : Prop :=
  HeapOK h ∧ ∃ ns, Repr h l ns

/-- The range from `from_` to `to_` holds the elements `xs`, and reading it depends only on
the cells below `bound` as they are in `h0`: in every heap that agrees with `h0` there, the
iterator dereferences to the next element and increments along the range. -/
def Yields (I : InputIterator α ι) (to_ : ι) (h0 : Heap α) (bound : Nat) : ι → List α → Prop
  | from_, [] => I.eq from_ to_ = true
  | from_, x :: rest =>
    I.eq from_ to_ = false ∧
      ∃ from1, (∀ h : Heap α, (∀ q, q < bound → h.read q = h0.read q) →
          I.deref h from_ = some x ∧ I.incr h from_ = some from1) ∧
        Yields I to_ h0 bound from1 rest

/-! ## Sequences of calls -/

/-- The mutating member functions of the list. -/
inductive Op (α : Type) where
  | PushFront (value : α)
  | InsertAfter (pos : BasicIterator) (value : α)
  | PopFront
  | EraseAfter (pos : BasicIterator)
  | Clear

/-- The cursor `pos` references a node of the list `l`, the sentinel or a real node: it is
not the end cursor and it is reached from `before_begin()` by some number of increments. -/
def InList (h : Heap α) (l : SingleLinkedList) (pos : BasicIterator) : Prop :=
  pos.node_ ≠ none ∧ ∃ i, advance h i l.before_begin = some pos

/-- The cursor arguments of a call are cursors into the list `l`: a node of `l` for
`InsertAfter`, a node of `l` or the end cursor for `EraseAfter`. -/
def Op.admissible (h : Heap α) (l : SingleLinkedList) : Op α → Prop
  | .InsertAfter pos _ => InList h l pos
  | .EraseAfter pos => InList h l pos ∨ pos = l.end
  | _ => True

/-- The call `op` on the list `l`; a returned iterator is dropped. -/
def Op.run (h : Heap α) (l : SingleLinkedList) : Op α → Outcome α SingleLinkedList
  | .PushFront value => l.PushFront h value
  | .InsertAfter pos value =>
    match l.InsertAfter h pos value with
    | .ok h1 r => .ok h1 r.1
    | .thrown h1 t => .thrown h1 t
    | .fault => .fault
  | .PopFront => l.PopFront h
  | .EraseAfter pos =>
    match l.EraseAfter h pos with
    | .ok h1 r => .ok h1 r.1
    | .thrown h1 t => .thrown h1 t
    | .fault => .fault
  | .Clear => l.Clear h

/-- The list `l` in heap `h` becomes `l1` in heap `h1` by a finite sequence of calls that
return. -/
inductive Mutates (h : Heap α) (l : SingleLinkedList) :
    Heap α → SingleLinkedList → Prop where
  | refl : Mutates h l h l
  | step {h1 h2 : Heap α} {l1 l2 : SingleLinkedList} (op : Op α) :
      Mutates h l h1 l1 → op.admissible h1 l1 → op.run h1 l1 = .ok h2 l2 → Mutates h l h2 l2

/-- The list `l` in heap `h` is the result of a constructor. -/
inductive Constructed [Inhabited α] : Heap α → SingleLinkedList → Prop where
  | default_ctor (h0 : Heap α) {h : Heap α} {l : SingleLinkedList} :
      HeapOK h0 → SingleLinkedList.default_ctor h0 = .ok h l → Constructed h l
  | init_ctor (h0 : Heap α) {h : Heap α} {l : SingleLinkedList} (junk : Nat)
      (values : List α) :
      HeapOK h0 → SingleLinkedList.init_ctor h0 junk values = .ok h l → Constructed h l
  | copy_ctor (h0 : Heap α) {h : Heap α} {l : SingleLinkedList} (junk : Nat)
      (other : SingleLinkedList) :
      WF h0 other → SingleLinkedList.copy_ctor h0 junk other = .ok h l → Constructed h l

/-- The states a constructed list can get into. -/
def Reachable [Inhabited α] (h : Heap α) (l : SingleLinkedList) : Prop :=
  ∃ h0 l0, Constructed h0 l0 ∧ Mutates h0 l0 h l

/-! ## Example states -/

/-- A heap with no cell in use and a free store with room for sixteen nodes. -/
def heap0 : Heap Nat := ⟨[], 16⟩

/-- The heap after `SingleLinkedList<int> l{1, 2, 3}` was constructed in `heap0`: the sentinel
is cell 0, cell 1 held the sentinel of the temporary of `Assign`, cells 2 to 4 hold 1, 2, 3. -/
def heap123 : Heap Nat :=
  ⟨[some ⟨0, some 2⟩, none, some ⟨1, some 3⟩, some ⟨2, some 4⟩, some ⟨3, none⟩], 18⟩

/-- The list object of `l{1, 2, 3}` in `heap123`. -/
def list123 : SingleLinkedList := ⟨0, 3⟩

/-- The heap after `SingleLinkedList<int> l; l.PushFront(5)` in `heap0`. -/
def heap5 : Heap Nat := ⟨[some ⟨0, some 1⟩, some ⟨5, none⟩], 17⟩

/-- The list object of that list. -/
def list5 : SingleLinkedList := ⟨0, 1⟩

/-- The heap after `SingleLinkedList<int> l;` in `heap0`. -/
def heapE : Heap Nat := ⟨[some ⟨0, none⟩], 17⟩

/-- The list object of the empty list in `heapE`. -/
def listE : SingleLinkedList := ⟨0, 0⟩

/-- The heap after these calls on `l{1, 2, 3}` of `heap123`: `l.Clear()`, `l.PushFront(5)`,
`l.InsertAfter(l.begin(), 9)`, `l.PushFront(6)`, `l.PopFront()`,
`l.EraseAfter(l.before_begin())`, `l.InsertAfter(l.before_begin(), 4)`. The list is `{4, 9}`:
the sentinel is cell 0, cell 8 holds 4 and cell 6 holds 9; the other cells are deleted. -/
def heap49 : Heap Nat :=
  ⟨[some ⟨0, some 8⟩, none, none, none, none, none, some ⟨9, none⟩, none, some ⟨4, some 6⟩], 18⟩

/-- The list object of `{4, 9}` in `heap49`. -/
def list49 : SingleLinkedList := ⟨0, 2⟩

/-! ## Assignment, swap and the comparison operators -/

/-- The copy assignment `operator=`: `this != &rhs` compares the addresses of the two
objects, which the addresses of their sentinels stand for; `tmp` is the copy of `rhs`, it is
swapped with `*this` and destroyed on the way out. `junk` is the indeterminate `size_` the
copy constructor starts from. -/
def SingleLinkedList.operator_assign [Inhabited α] (h : Heap α) (junk : Nat)
    (l rhs : SingleLinkedList) : Outcome α SingleLinkedList :=
  if l.head_ ≠ rhs.head_ then
    match SingleLinkedList.copy_ctor h junk rhs with
    | .fault => .fault
    | .thrown h1 _ => .thrown h1 l
    | .ok h1 tmp =>
      match l.swap h1 tmp with
      | .ok h2 (l2, tmp2) =>
        match tmp2.dtor h2 with
        | .ok h3 _ => .ok h3 l2
        | _ => .fault
      | _ => .fault
  else .ok h l

/-! ### An element type whose copy can throw

The allocating member functions once more, for an element type `Type` whose copy constructor
may throw: `copy_ok value` tells whether copying `value` succeeds. Only the expression
`new Node(value, next)` differs; with `copy_ok` always true these are the functions above. -/

namespace Throwing

/-- The expression `new Node(value, next)`: storage is taken from the free store, then the
element is copied into it; when the copy throws, the storage is given back and the exception
leaves the expression, as it does when there is no storage. -/
def new_Node (copy_ok : α → Bool) (h : Heap α) (value : α) (next : Option Nat) :
    Option (Heap α × Nat) :=
  if copy_ok value then h.new_Node value next else none

/-- The member `PushFront(value)`. -/
def PushFront (copy_ok : α → Bool) (h : Heap α) (l : SingleLinkedList) (value : α) :
    Outcome α SingleLinkedList :=
  match h.read l.head_ with
  | none => .fault
  | some hd =>
    match new_Node copy_ok h value hd.next_node with
    | none => .thrown h l
    | some (h1, new_node_ptr) =>
      match h1.set_next l.head_ (some new_node_ptr) with
      | none => .fault
      | some h2 => .ok h2 { l with size_ := (l.size_ + 1) % SIZE_MOD }

/-- The member `InsertAfter(pos, value)`: storage first, then `++pos`, then the copy of the
element, then the write of the link. -/
def InsertAfter (copy_ok : α → Bool) (h : Heap α) (l : SingleLinkedList)
    (pos : BasicIterator) (value : α) : Outcome α (SingleLinkedList × BasicIterator) :=
  if h.cells.length < h.limit then
    match pos.incr h with
    | none => .fault
    | some pos1 =>
      match new_Node copy_ok h value pos1.node_ with
      | none => .thrown h l
      | some (h1, new_node_ptr) =>
        match pos.node_ with
        | none => .fault
        | some p =>
          match h1.set_next p (some new_node_ptr) with
          | none => .fault
          | some h2 =>
            .ok h2 ({ l with size_ := (l.size_ + 1) % SIZE_MOD }, ⟨some new_node_ptr⟩)
  else .thrown h l

/-- The loop of `Assign`. -/
def Assign.loop (copy_ok : α → Bool) (I : InputIterator α ι) (to_ : ι) :
    Nat → Heap α → SingleLinkedList → Nat → ι → Outcome α SingleLinkedList
  | 0, _, _, _, _ => .fault
  | fuel + 1, h, tmp, node_ptr, from_ =>
    if I.eq from_ to_ then .ok h tmp
    else
      match I.deref h from_ with
      | none => .fault
      | some x =>
        match new_Node copy_ok h x none with
        | none => .thrown h tmp
        | some (h1, new_node) =>
          match h1.set_next node_ptr (some new_node) with
          | none => .fault
          | some h2 =>
            match I.incr h2 from_ with
            | none => .fault
            | some from1 =>
              loop copy_ok I to_ fuel h2 { tmp with size_ := (tmp.size_ + 1) % SIZE_MOD }
                new_node from1

/-- The private member template `Assign(from, to)`. -/
def Assign [Inhabited α] (copy_ok : α → Bool) (I : InputIterator α ι) (fuel : Nat)
    (h : Heap α) (l : SingleLinkedList) (from_ to_ : ι) : Outcome α SingleLinkedList :=
  match SingleLinkedList.default_ctor h with
  | .fault => .fault
  | .thrown h0 t => .thrown h0 t
  | .ok h0 tmp =>
    match Assign.loop copy_ok I to_ fuel h0 tmp tmp.head_ from_ with
    | .fault => .fault
    | .thrown h1 tmp1 =>
      match tmp1.dtor h1 with
      | .ok h2 _ => .thrown h2 l
      | _ => .fault
    | .ok h1 tmp1 =>
      match l.swap h1 tmp1 with
      | .ok h2 (l2, tmp2) =>
        match tmp2.dtor h2 with
        | .ok h3 _ => .ok h3 l2
        | _ => .fault
      | _ => .fault

/-- The copy constructor. -/
def copy_ctor [Inhabited α] (copy_ok : α → Bool) (h : Heap α) (junk : Nat)
    (other : SingleLinkedList) : Outcome α SingleLinkedList :=
  match h.place ⟨(default : α), none⟩ with
  | none => .fault
  | some (h0, a) =>
    match other.cbegin h0 with
    | none => .fault
    | some b =>
      match Assign copy_ok list_iterator (h.cells.length + 1) h0 ⟨a, junk⟩ b other.cend with
      | .ok h1 l => .ok h1 l
      | .thrown h1 l =>
        match h1.delete a with
        | none => .fault
        | some h2 => .thrown h2 l
      | .fault => .fault

/-- The copy assignment `operator=`. -/
def operator_assign [Inhabited α] (copy_ok : α → Bool) (h : Heap α) (junk : Nat)
    (l rhs : SingleLinkedList) : Outcome α SingleLinkedList :=
  if l.head_ ≠ rhs.head_ then
    match copy_ctor copy_ok h junk rhs with
    | .fault => .fault
    | .thrown h1 _ => .thrown h1 l
    | .ok h1 tmp =>
      match l.swap h1 tmp with
      | .ok h2 (l2, tmp2) =>
        match tmp2.dtor h2 with
        | .ok h3 _ => .ok h3 l2
        | _ => .fault
      | _ => .fault
  else .ok h l

end Throwing

/-- The free function `swap(lhs, rhs)`: `lhs.swap(rhs)`. -/
def swap (h : Heap α) (lhs rhs : SingleLinkedList) :
    Outcome α (SingleLinkedList × SingleLinkedList) :=
  lhs.swap h rhs

/-- The library algorithm `std::equal(first1, last1, first2, last2)` on forward iterators,
with `eq` the `operator==` of the element type: both ranges are walked in step, a pair of
unequal elements ends the walk with `false`, and at the end of one range the result tells
whether both have ended. -/
def equal (eq : α → α → Bool) (h : Heap α) :
    Nat → BasicIterator → BasicIterator → BasicIterator → BasicIterator → Option Bool
  | 0, _, _, _, _ => none
  | fuel + 1, first1, last1, first2, last2 =>
    if first1.ne last1 && first2.ne last2 then
      match first1.deref h with
      | none => none
      | some x =>
        match first2.deref h with
        | none => none
        | some y =>
          if eq x y then
            match first1.incr h with
            | none => none
            | some next1 =>
              match first2.incr h with
              | none => none
              | some next2 => equal eq h fuel next1 last1 next2 last2
          else some false
    else some (first1.eq last1 && first2.eq last2)

/-- The library algorithm `std::lexicographical_compare(first1, last1, first2, last2)`, with
`lt` the `operator<` of the element type: the first pair of elements of which one is less
than the other decides, and without such a pair the first range is less when it ends before
the second. -/
def lexicographical_compare (lt : α → α → Bool) (h : Heap α) :
    Nat → BasicIterator → BasicIterator → BasicIterator → BasicIterator → Option Bool
  | 0, _, _, _, _ => none
  | fuel + 1, first1, last1, first2, last2 =>
    if first1.ne last1 && first2.ne last2 then
      match first1.deref h with
      | none => none
      | some x =>
        match first2.deref h with
        | none => none
        | some y =>
          if lt x y then some true
          else if lt y x then some false
          else
            match first1.incr h with
            | none => none
            | some next1 =>
              match first2.incr h with
              | none => none
              | some next2 => lexicographical_compare lt h fuel next1 last1 next2 last2
    else some (first1.eq last1 && first2.ne last2)

/-- The free `operator==` of two lists: `std::equal` over `cbegin()`, `cend()` of both. -/
def operator_eq (eq : α → α → Bool) (h : Heap α) (lhs rhs : SingleLinkedList) : Option Bool :=
  match lhs.cbegin h with
  | none => none
  | some b1 =>
    match rhs.cbegin h with
    | none => none
    | some b2 => equal eq h (h.cells.length + 1) b1 lhs.cend b2 rhs.cend

/-- The free `operator!=`: `!(lhs == rhs)`. -/
def operator_ne (eq : α → α → Bool) (h : Heap α) (lhs rhs : SingleLinkedList) : Option Bool :=
  (operator_eq eq h lhs rhs).map (fun r => !r)

/-- The free `operator<`: `std::lexicographical_compare` over `cbegin()`, `cend()` of both. -/
def operator_lt (lt : α → α → Bool) (h : Heap α) (lhs rhs : SingleLinkedList) : Option Bool :=
  match lhs.cbegin h with
  | none => none
  | some b1 =>
    match rhs.cbegin h with
    | none => none
    | some b2 => lexicographical_compare lt h (h.cells.length + 1) b1 lhs.cend b2 rhs.cend

/-- The free `operator<=`: `!(rhs < lhs)`. -/
def operator_le (lt : α → α → Bool) (h : Heap α) (lhs rhs : SingleLinkedList) : Option Bool :=
  (operator_lt lt h rhs lhs).map (fun r => !r)

/-- The free `operator>`: `rhs < lhs`. -/
def operator_gt (lt : α → α → Bool) (h : Heap α) (lhs rhs : SingleLinkedList) : Option Bool :=
  operator_lt lt h rhs lhs

/-- The free `operator>=`: `!(rhs > lhs)`. -/
def operator_ge (lt : α → α → Bool) (h : Heap α) (lhs rhs : SingleLinkedList) : Option Bool :=
  (operator_gt lt h rhs lhs).map (fun r => !r)

/-! ## Two lists, and the order of sequences -/

/-- Two distinct list objects in one heap: both own their nodes, and no cell belongs to
both. -/
def Apart (h : Heap α) (a b : SingleLinkedList) : Prop :=
  ∃ nsa nsb, Repr h a nsa ∧ Repr h b nsb ∧
    ∀ q ∈ a.head_ :: nsa.map Prod.fst, q ∉ b.head_ :: nsb.map Prod.fst

/-- Element-wise equality of two sequences under `eq`: the same length and equal elements at
every position. -/
def seq_equal (eq : α → α → Bool) : List α → List α → Bool
  | [], [] => true
  | x :: xs, y :: ys => eq x y && seq_equal eq xs ys
  | _, _ => false

/-- The lexicographic comparison of two sequences under `lt`, computed from the front. -/
def seq_less (lt : α → α → Bool) : List α → List α → Bool
  | _, [] => false
  | [], _ :: _ => true
  | x :: xs, y :: ys => if lt x y then true else if lt y x then false else seq_less lt xs ys

/-- Strictly lexicographically smaller, in the words of the specification: there is a
position `i` before which neither sequence has an element less than the other's, and at `i`
either the element of `La` is less than that of `Lb` (the first position where they differ),
or `La` has ended and `Lb` has not (a proper prefix). -/
def LexLess (lt : α → α → Bool) (La Lb : List α) : Prop :=
  ∃ i, (∀ j, j < i → ∃ x y, La[j]? = some x ∧ Lb[j]? = some y ∧
          lt x y = false ∧ lt y x = false) ∧
    ((∃ x y, La[i]? = some x ∧ Lb[i]? = some y ∧ lt x y = true) ∨
      (i = La.length ∧ i < Lb.length))

/-- Two lists in one heap: `{1, 2, 3}` with the sentinel in cell 0 as in `heap123`, and
`{1, 2, 4}` with the sentinel in cell 5. -/
def heapAB : Heap Nat :=
  ⟨[some ⟨0, some 2⟩, none, some ⟨1, some 3⟩, some ⟨2, some 4⟩, some ⟨3, none⟩,
    some ⟨0, some 6⟩, some ⟨1, some 7⟩, some ⟨2, some 8⟩, some ⟨4, none⟩], 32⟩

/-- The list object of `{1, 2, 4}` in `heapAB`. -/
def list124 : SingleLinkedList := ⟨5, 3⟩

/-- The cells of `heapAB` with a free store that is used up. -/
def heapFull : Heap Nat := ⟨heapAB.cells, 9⟩

/-- The `operator<` of the element type of the examples. -/
def nat_lt (x y : Nat) : Bool := decide (x < y)

/-- The `operator==` of the element type of the examples. -/
def nat_eq (x y : Nat) : Bool := decide (x = y)

/-! ## The heap primitives -/

theorem read_lt {h : Heap α} {p : Nat} {n : Node α} (hr : h.read p = some n) :
    p < h.cells.length := by
  by_contra hlt
  have : h.cells[p]? = none := List.getElem?_eq_none (by omega)
  simp [Heap.read, this] at hr

theorem new_Node_spec {h : Heap α} (v : α) (nx : Option Nat) (hroom : h.cells.length < h.limit) :
    ∃ h1, h.new_Node v nx = some (h1, h.cells.length) ∧ h1.limit = h.limit ∧
      h1.cells.length = h.cells.length + 1 ∧ h1.read h.cells.length = some ⟨v, nx⟩ ∧
      ∀ q, q ≠ h.cells.length → h1.read q = h.read q := by
  refine ⟨⟨h.cells ++ [some ⟨v, nx⟩], h.limit⟩, ?_, rfl, ?_, ?_, ?_⟩
  · simp [Heap.new_Node, hroom]
  · simp
  · simp [Heap.read]
  · intro q hq
    simp only [Heap.read]
    rcases Nat.lt_or_gt_of_ne hq with hlt | hgt
    · rw [List.getElem?_append_left hlt]
    · rw [List.getElem?_eq_none (by simp; omega), List.getElem?_eq_none (by omega)]

theorem new_Node_full {h : Heap α} (v : α) (nx : Option Nat) (hfull : ¬ h.cells.length < h.limit) :
    h.new_Node v nx = none := by
  simp [Heap.new_Node, hfull]

theorem read_ge {h : Heap α} {p : Nat} (hp : h.cells.length ≤ p) : h.read p = none := by
  simp [Heap.read, List.getElem?_eq_none hp]

theorem place_spec {h : Heap α} (n : Node α) (haddr : h.cells.length < ADDR_LIMIT) :
    ∃ h1, h.place n = some (h1, h.cells.length) ∧ h1.limit = min (h.limit + 1) ADDR_LIMIT ∧
      h1.cells.length = h.cells.length + 1 ∧ h1.read h.cells.length = some n ∧
      ∀ q, q ≠ h.cells.length → h1.read q = h.read q := by
  refine ⟨⟨h.cells ++ [some n], min (h.limit + 1) ADDR_LIMIT⟩, ?_, rfl, ?_, ?_, ?_⟩
  · simp [Heap.place, haddr]
  · simp
  · simp [Heap.read]
  · intro q hq
    simp only [Heap.read]
    rcases Nat.lt_or_gt_of_ne hq with hlt | hgt
    · rw [List.getElem?_append_left hlt]
    · rw [List.getElem?_eq_none (by simp; omega), List.getElem?_eq_none (by omega)]

theorem place_full {h : Heap α} (n : Node α) (hfull : ¬ h.cells.length < ADDR_LIMIT) :
    h.place n = none := by
  simp [Heap.place, hfull]

theorem set_next_spec {h : Heap α} {p : Nat} {n : Node α} (nx : Option Nat)
    (hr : h.read p = some n) :
    ∃ h1, h.set_next p nx = some h1 ∧ h1.limit = h.limit ∧
      h1.cells.length = h.cells.length ∧ h1.read p = some ⟨n.value, nx⟩ ∧
      ∀ q, q ≠ p → h1.read q = h.read q := by
  have hlt := read_lt hr
  refine ⟨⟨h.cells.set p (some ⟨n.value, nx⟩), h.limit⟩, ?_, rfl, ?_, ?_, ?_⟩
  · simp [Heap.set_next, hr]
  · simp
  · simp [Heap.read, hlt]
  · intro q hq
    simp only [Heap.read]
    rw [List.getElem?_set_ne (Ne.symm hq)]

theorem delete_spec {h : Heap α} {p : Nat} {n : Node α} (hr : h.read p = some n) :
    ∃ h1, h.delete p = some h1 ∧ h1.limit = h.limit ∧
      h1.cells.length = h.cells.length ∧ h1.read p = none ∧
      ∀ q, q ≠ p → h1.read q = h.read q := by
  have hlt := read_lt hr
  refine ⟨⟨h.cells.set p none, h.limit⟩, ?_, rfl, ?_, ?_, ?_⟩
  · simp [Heap.delete, hr]
  · simp
  · simp [Heap.read, hlt]
  · intro q hq
    simp only [Heap.read]
    rw [List.getElem?_set_ne (Ne.symm hq)]

theorem heap_ext {h1 h2 : Heap α} (hlim : h1.limit = h2.limit)
    (hlen : h1.cells.length = h2.cells.length) (hrd : ∀ q, h1.read q = h2.read q) :
    h1 = h2 := by
  cases h1 with
  | mk c1 l1 =>
    cases h2 with
    | mk c2 l2 =>
      simp only at hlim hlen
      subst hlim
      congr 1
      apply List.ext_getElem? 
      intro q
      have hq := hrd q
      simp only [Heap.read] at hq
      by_cases hlt : q < c1.length
      · have h1 : c1[q]? = some c1[q] := List.getElem?_eq_getElem hlt
        have h2 : c2[q]? = some (c2[q]) := List.getElem?_eq_getElem (by omega)
        rw [h1, h2] at hq
        rw [h1, h2]
        simpa using hq
      · rw [List.getElem?_eq_none (by omega), List.getElem?_eq_none (by omega)]

/-! ## Chains -/

theorem seg_frame {h h1 : Heap α} :
    ∀ (ns : List (Nat × α)) (p e : Option Nat),
      (∀ q ∈ ns.map Prod.fst, h1.read q = h.read q) → Seg h p ns e → Seg h1 p ns e := by
  intro ns
  induction ns with
  | nil => intro p e _ hs; exact hs
  | cons x rest ih =>
    intro p e hfr hs
    obtain ⟨q, v⟩ := x
    obtain ⟨hp, nx, hr, hrest⟩ := hs
    refine ⟨hp, nx, ?_, ih nx e (fun q1 hq1 => hfr q1 (by simp at hq1 ⊢; exact Or.inr hq1)) hrest⟩
    rw [hfr q (by simp)]
    exact hr

theorem seg_append {h : Heap α} :
    ∀ (xs ys : List (Nat × α)) (p e : Option Nat),
      Seg h p (xs ++ ys) e ↔ ∃ m, Seg h p xs m ∧ Seg h m ys e := by
  intro xs
  induction xs with
  | nil =>
    intro ys p e
    constructor
    · intro hs; exact ⟨p, rfl, hs⟩
    · rintro ⟨m, hm, hs⟩
      have hpm : p = m := hm
      subst hpm
      exact hs
  | cons x rest ih =>
    intro ys p e
    obtain ⟨q, v⟩ := x
    constructor
    · rintro ⟨hp, nx, hr, hrest⟩
      obtain ⟨m, h1, h2⟩ := (ih ys nx e).1 hrest
      exact ⟨m, ⟨hp, nx, hr, h1⟩, h2⟩
    · rintro ⟨m, ⟨hp, nx, hr, h1⟩, h2⟩
      exact ⟨hp, nx, hr, (ih ys nx e).2 ⟨m, h1, h2⟩⟩

theorem seg_addr_lt {h : Heap α} :
    ∀ (ns : List (Nat × α)) (p e : Option Nat),
      Seg h p ns e → ∀ q ∈ ns.map Prod.fst, q < h.cells.length := by
  intro ns
  induction ns with
  | nil => intro p e _ q hq; simp at hq
  | cons x rest ih =>
    intro p e hs q hq
    obtain ⟨a, v⟩ := x
    obtain ⟨_, nx, hr, hrest⟩ := hs
    simp only [List.map_cons, List.mem_cons] at hq
    rcases hq with hq | hq
    · subst hq; exact read_lt hr
    · exact ih nx e hrest q hq

theorem nodup_length_le (n : Nat) (l : List Nat) (hnd : l.Nodup) (hlt : ∀ q ∈ l, q < n) :
    l.length ≤ n := by
  have h1 : l.toFinset.card = l.length := List.toFinset_card_of_nodup hnd
  have h2 : l.toFinset ⊆ Finset.range n := by
    intro q hq
    simp only [List.mem_toFinset] at hq
    simpa using hlt q hq
  have h3 := Finset.card_le_card h2
  simp only [Finset.card_range] at h3
  omega

theorem seg_traverse {h : Heap α} :
    ∀ (ns : List (Nat × α)) (p : Option Nat) (fuel : Nat),
      Seg h p ns none → ns.length < fuel →
      traverse h fuel ⟨p⟩ ⟨none⟩ = some (ns.map Prod.snd) := by
  intro ns
  induction ns with
  | nil =>
    intro p fuel hs hf
    have hp : p = none := hs
    subst hp
    cases fuel with
    | zero => simp at hf
    | succ k => simp [traverse, BasicIterator.eq]
  | cons x rest ih =>
    intro p fuel hs hf
    obtain ⟨a, v⟩ := x
    obtain ⟨hp, nx, hr, hrest⟩ := hs
    subst hp
    cases fuel with
    | zero => simp at hf
    | succ k =>
      have hk : rest.length < k := by simpa using hf
      simp [traverse, BasicIterator.eq, BasicIterator.deref, BasicIterator.incr, hr,
        ih nx k hrest hk]

theorem seg_advance {h : Heap α} :
    ∀ (ns : List (Nat × α)) (p : Option Nat) (i : Nat),
      Seg h p ns none → i ≤ ns.length →
      advance h i ⟨p⟩ = some ⟨(ns.map Prod.fst)[i]?⟩ := by
  intro ns
  induction ns with
  | nil =>
    intro p i hs hi
    have hp : p = none := hs
    subst hp
    have hi0 : i = 0 := by simpa using hi
    subst hi0
    simp [advance]
  | cons x rest ih =>
    intro p i hs hi
    obtain ⟨a, v⟩ := x
    obtain ⟨hp, nx, hr, hrest⟩ := hs
    subst hp
    cases i with
    | zero => simp [advance]
    | succ k =>
      have hk : k ≤ rest.length := by simpa using hi
      simp [advance, BasicIterator.incr, hr, ih nx k hrest hk]

theorem seg_advance_none {h : Heap α} :
    ∀ (ns : List (Nat × α)) (p : Option Nat) (i : Nat),
      Seg h p ns none → ns.length < i → advance h i ⟨p⟩ = none := by
  intro ns
  induction ns with
  | nil =>
    intro p i hs hi
    have hp : p = none := hs
    subst hp
    cases i with
    | zero => simp at hi
    | succ k => simp [advance, BasicIterator.incr]
  | cons x rest ih =>
    intro p i hs hi
    obtain ⟨a, v⟩ := x
    obtain ⟨hp, nx, hr, hrest⟩ := hs
    subst hp
    cases i with
    | zero => simp at hi
    | succ k =>
      have hk : rest.length < k := by simpa using hi
      simp [advance, BasicIterator.incr, hr, ih nx k hrest hk]

theorem seg_insert {h h2 : Heap α} (p a : Nat) (pv v : α)
    (hp2 : h2.read p = some ⟨pv, some a⟩)
    (ha2 : ∀ nx, h.read p = some ⟨pv, nx⟩ → h2.read a = some ⟨v, nx⟩)
    (hfr : ∀ q, q ≠ p → q ≠ a → h2.read q = h.read q) :
    ∀ (F : List (Nat × α)) (s : Option Nat) (i : Nat),
      Seg h s F none → (F.map Prod.fst).Nodup → a ∉ F.map Prod.fst → F[i]? = some (p, pv) →
      Seg h2 s (F.take (i + 1) ++ (a, v) :: F.drop (i + 1)) none := by
  intro F
  induction F with
  | nil => intro s i _ _ _ hi; simp at hi
  | cons x rest ih =>
    intro s i hs hnd hna hi
    obtain ⟨q, w⟩ := x
    obtain ⟨hsq, nx, hr, hrest⟩ := hs
    simp only [List.map_cons, List.nodup_cons, List.mem_cons, not_or] at hnd hna
    cases i with
    | zero =>
      simp only [List.getElem?_cons_zero, Option.some.injEq, Prod.mk.injEq] at hi
      obtain ⟨hqp, hwv⟩ := hi
      subst hqp; subst hwv
      simp only [zero_add, List.take_succ_cons, List.take_zero, List.drop_succ_cons,
        List.drop_zero, List.singleton_append]
      refine ⟨hsq, some a, hp2, rfl, nx, ha2 nx hr, ?_⟩
      apply seg_frame rest nx none _ hrest
      intro q1 hq1
      apply hfr
      · intro heq; subst heq; exact hnd.1 hq1
      · intro heq; subst heq; exact hna.2 hq1
    | succ k =>
      simp only [List.getElem?_cons_succ] at hi
      have hpmem : p ∈ rest.map Prod.fst := by
        have := List.getElem?_mem hi
        exact List.mem_map.2 ⟨(p, pv), this, rfl⟩
      simp only [List.take_succ_cons, List.drop_succ_cons, List.cons_append]
      refine ⟨hsq, nx, ?_, ih nx k hrest hnd.2 hna.2 hi⟩
      rw [hfr q (by intro heq; subst heq; exact hnd.1 hpmem) (by intro heq; exact hna.1 heq.symm)]
      exact hr

theorem seg_erase {h h2 : Heap α} (p r : Nat) (pv rv : α)
    (hp2 : ∀ rnx, h.read r = some ⟨rv, rnx⟩ → h2.read p = some ⟨pv, rnx⟩)
    (hfr : ∀ q, q ≠ p → q ≠ r → h2.read q = h.read q) :
    ∀ (F : List (Nat × α)) (s : Option Nat) (i : Nat),
      Seg h s F none → (F.map Prod.fst).Nodup → F[i]? = some (p, pv) →
      F[i + 1]? = some (r, rv) →
      Seg h2 s (F.take (i + 1) ++ F.drop (i + 2)) none := by
  intro F
  induction F with
  | nil => intro s i _ _ hi; simp at hi
  | cons x rest ih =>
    intro s i hs hnd hi hi1
    obtain ⟨q, w⟩ := x
    obtain ⟨hsq, nx, hr, hrest⟩ := hs
    simp only [List.map_cons, List.nodup_cons] at hnd
    simp only [List.getElem?_cons_succ] at hi1
    cases i with
    | zero =>
      simp only [List.getElem?_cons_zero, Option.some.injEq, Prod.mk.injEq] at hi
      obtain ⟨hqp, hwv⟩ := hi
      subst hqp; subst hwv
      cases rest with
      | nil => simp at hi1
      | cons y rest2 =>
        simp only [List.getElem?_cons_zero, Option.some.injEq] at hi1
        subst hi1
        obtain ⟨hnx, rnx, hrr, hrest2⟩ := hrest
        simp only [List.map_cons, List.nodup_cons, List.mem_cons, not_or] at hnd
        simp only [zero_add, List.take_succ_cons, List.take_zero, List.drop_succ_cons,
          List.drop_zero, List.singleton_append]
        refine ⟨hsq, rnx, hp2 rnx hrr, ?_⟩
        apply seg_frame rest2 rnx none _ hrest2
        intro q1 hq1
        apply hfr
        · intro heq; subst heq; exact hnd.1.2 hq1
        · intro heq; subst heq; exact hnd.2.1 hq1
    | succ k =>
      simp only [List.getElem?_cons_succ] at hi
      have hpmem : p ∈ rest.map Prod.fst :=
        List.mem_map.2 ⟨(p, pv), List.getElem?_mem hi, rfl⟩
      have hrmem : r ∈ rest.map Prod.fst :=
        List.mem_map.2 ⟨(r, rv), List.getElem?_mem hi1, rfl⟩
      simp only [List.take_succ_cons, List.drop_succ_cons, List.cons_append]
      refine ⟨hsq, nx, ?_, ih nx k hrest hnd.2 hi hi1⟩
      rw [hfr q (by intro heq; subst heq; exact hnd.1 hpmem)
        (by intro heq; subst heq; exact hnd.1 hrmem)]
      exact hr

/-! ## Well-formed lists: size and traversal -/

theorem repr_length_lt {h : Heap α} {l : SingleLinkedList} {ns : List (Nat × α)}
    (hrep : Repr h l ns) : ns.length < h.cells.length := by
  obtain ⟨⟨hv, hseg⟩, hnd, _⟩ := hrep
  have hlt := seg_addr_lt _ _ _ hseg
  have := nodup_length_le h.cells.length (l.head_ :: ns.map Prod.fst) hnd
    (by simpa using hlt)
  simpa using this

theorem repr_size_lt {h : Heap α} {l : SingleLinkedList} {ns : List (Nat × α)}
    (hok : HeapOK h) (hrep : Repr h l ns) : l.size_ + 1 < SIZE_MOD := by
  have h1 := repr_length_lt hrep
  have h2 := hrep.2.2
  obtain ⟨h3, h4⟩ := hok
  simp only [ADDR_LIMIT] at h4
  simp only [SIZE_MOD]
  omega

theorem repr_elements {h : Heap α} {l : SingleLinkedList} {ns : List (Nat × α)}
    (hrep : Repr h l ns) : l.elements h = some (ns.map Prod.snd) := by
  have hlen := repr_length_lt hrep
  obtain ⟨⟨hv, _, nx, hr, hseg⟩, _, _⟩ := hrep
  simp only [SingleLinkedList.elements, SingleLinkedList.begin, SingleLinkedList.cbegin, hr,
    SingleLinkedList.end, SingleLinkedList.cend]
  exact seg_traverse ns nx _ hseg (by omega)

theorem repr_advance {h : Heap α} {l : SingleLinkedList} {ns : List (Nat × α)}
    (hrep : Repr h l ns) (i : Nat) (hi : i ≤ ns.length + 1) :
    advance h i l.before_begin = some ⟨(l.head_ :: ns.map Prod.fst)[i]?⟩ := by
  obtain ⟨⟨hv, hseg⟩, _, _⟩ := hrep
  have := seg_advance _ _ i hseg (by simpa using hi)
  simpa [SingleLinkedList.before_begin] using this

theorem repr_advance_none {h : Heap α} {l : SingleLinkedList} {ns : List (Nat × α)}
    (hrep : Repr h l ns) (i : Nat) (hi : ns.length + 1 < i) :
    advance h i l.before_begin = none := by
  obtain ⟨⟨hv, hseg⟩, _, _⟩ := hrep
  have := seg_advance_none _ _ i hseg (by simpa using hi)
  simpa [SingleLinkedList.before_begin] using this

/-- A cursor reached from `before_begin()` by `i` increments that references a node sits at
position `i` of the sentinel-and-nodes sequence. -/
theorem repr_cursor {h : Heap α} {l : SingleLinkedList} {ns : List (Nat × α)}
    (hrep : Repr h l ns) {i p : Nat} {pos : BasicIterator}
    (hadv : advance h i l.before_begin = some pos) (hp : pos.node_ = some p) :
    (l.head_ :: ns.map Prod.fst)[i]? = some p := by
  by_cases hi : i ≤ ns.length + 1
  · rw [repr_advance hrep i hi] at hadv
    simp only [Option.some.injEq] at hadv
    rw [← hadv] at hp
    exact hp
  · rw [repr_advance_none hrep i (by omega)] at hadv
    simp at hadv

theorem seg_read {h : Heap α} :
    ∀ (F : List (Nat × α)) (s e : Option Nat) (i p : Nat) (pv : α),
      Seg h s F e → F[i]? = some (p, pv) →
      ∃ nx, h.read p = some ⟨pv, nx⟩ ∧ (F[i + 1]?.isSome → nx = F[i + 1]?.map Prod.fst) ∧
        (F[i + 1]? = none → nx = e) := by
  intro F
  induction F with
  | nil => intro s e i p pv _ hi; simp at hi
  | cons x rest ih =>
    intro s e i p pv hs hi
    obtain ⟨q, w⟩ := x
    obtain ⟨hsq, nx, hr, hrest⟩ := hs
    cases i with
    | zero =>
      simp only [List.getElem?_cons_zero, Option.some.injEq, Prod.mk.injEq] at hi
      obtain ⟨hqp, hwv⟩ := hi
      subst hqp; subst hwv
      refine ⟨nx, hr, ?_, ?_⟩
      · cases rest with
        | nil => simp
        | cons y rest2 =>
          intro _
          obtain ⟨hnx, _⟩ := hrest
          simp [hnx]
      · cases rest with
        | nil => intro _; exact hrest
        | cons y rest2 => simp
    | succ k =>
      simp only [List.getElem?_cons_succ] at hi ⊢
      exact ih nx e k p pv hrest hi

theorem nodup_insert_mid (x a : Nat) (A : List Nat) (i : Nat) (hnd : (x :: A).Nodup)
    (ha : a ∉ x :: A) : (x :: (A.take i ++ a :: A.drop i)).Nodup := by
  have hperm : (A.take i ++ a :: A.drop i).Perm (a :: A) := by
    have := @List.perm_middle _ a (A.take i) (A.drop i)
    simpa using this
  have hperm2 : (x :: (A.take i ++ a :: A.drop i)).Perm (x :: a :: A) := hperm.cons x
  rw [hperm2.nodup_iff]
  simp only [List.nodup_cons, List.mem_cons, not_or] at hnd ha ⊢
  exact ⟨⟨fun hxa => ha.1 hxa.symm, hnd.1⟩, ha.2, hnd.2⟩

theorem nodup_erase_mid (x : Nat) (A : List Nat) (i : Nat) (hnd : (x :: A).Nodup) :
    (x :: (A.take i ++ A.drop (i + 1))).Nodup := by
  have hsub : (A.take i ++ A.drop (i + 1)).Sublist A := by
    rw [← List.eraseIdx_eq_take_drop_succ]
    exact List.eraseIdx_sublist A i
  exact hnd.sublist (hsub.cons₂ x)

/-! ## The mutators on a well-formed list -/

theorem InsertAfter_repr {h : Heap α} {l : SingleLinkedList} {ns : List (Nat × α)} (v : α)
    {i p : Nat} (hok : HeapOK h) (hroom : h.cells.length < h.limit) (hrep : Repr h l ns)
    (hpos : (l.head_ :: ns.map Prod.fst)[i]? = some p) :
    ∃ h2, l.InsertAfter h ⟨some p⟩ v
          = .ok h2 (⟨l.head_, l.size_ + 1⟩, ⟨some h.cells.length⟩) ∧
      HeapOK h2 ∧ h2.cells.length = h.cells.length + 1 ∧ h2.limit = h.limit ∧
      Repr h2 ⟨l.head_, l.size_ + 1⟩ (ns.take i ++ (h.cells.length, v) :: ns.drop i) ∧
      (∀ q, q ≠ p → q ≠ h.cells.length → h2.read q = h.read q) ∧
      (BasicIterator.mk (some h.cells.length)).incr h2 = (BasicIterator.mk (some p)).incr h := by
  have hsize := repr_size_lt hok hrep
  obtain ⟨⟨hv, hseg⟩, hnd, hsz⟩ := hrep
  have hlt := seg_addr_lt _ _ _ hseg
  have hF : ∃ pv, ((l.head_, hv) :: ns)[i]? = some (p, pv) := by
    have hm : (((l.head_, hv) :: ns).map Prod.fst)[i]? = some p := by simpa using hpos
    rw [List.getElem?_map] at hm
    cases hget : ((l.head_, hv) :: ns)[i]? with
    | none => rw [hget] at hm; simp at hm
    | some y =>
      rw [hget] at hm
      obtain ⟨y1, y2⟩ := y
      simp only [Option.map_some', Option.some.injEq] at hm
      subst hm
      exact ⟨y2, rfl⟩
  obtain ⟨pv, hget⟩ := hF
  obtain ⟨nx, hr, _, _⟩ := seg_read _ _ _ i p pv hseg hget
  have hplt : p < h.cells.length := read_lt hr
  obtain ⟨h1, hnew, hlim1, hlen1, hra1, hfr1⟩ := new_Node_spec v nx hroom
  have hr1 : h1.read p = some ⟨pv, nx⟩ := by rw [hfr1 p (by omega)]; exact hr
  obtain ⟨h2, hset, hlim2, hlen2, hrp2, hfr2⟩ := set_next_spec (some h.cells.length) hr1
  have hra2 : h2.read h.cells.length = some ⟨v, nx⟩ := by
    rw [hfr2 _ (by omega)]; exact hra1
  have hfr : ∀ q, q ≠ p → q ≠ h.cells.length → h2.read q = h.read q := by
    intro q hq1 hq2
    rw [hfr2 q hq1, hfr1 q hq2]
  have hfresh : h.cells.length ∉ ((l.head_, hv) :: ns).map Prod.fst := by
    intro hmem
    exact Nat.lt_irrefl _ (hlt _ hmem)
  have hi : i ≤ ns.length := by
    have := (List.getElem?_eq_some.1 hget).1
    simp at this
    omega
  refine ⟨h2, ?_, ?_, by omega, by omega, ⟨⟨hv, ?_⟩, ?_, ?_⟩, hfr, ?_⟩
  · simp only [SingleLinkedList.InsertAfter, if_pos hroom, BasicIterator.incr, hr, hnew, hset,
      Nat.mod_eq_of_lt (Nat.lt_of_succ_lt hsize)]
    simp [Nat.mod_eq_of_lt (show l.size_ + 1 < SIZE_MOD by omega)]
  · obtain ⟨h3, h4⟩ := hok
    exact ⟨by omega, by omega⟩
  · have := seg_insert p h.cells.length pv v hrp2
      (fun nx1 hnx1 => by rw [hr] at hnx1; cases hnx1; exact hra2) hfr
      ((l.head_, hv) :: ns) (some l.head_) i hseg (by simpa using hnd) hfresh hget
    simpa using this
  · have := nodup_insert_mid l.head_ h.cells.length (ns.map Prod.fst) i hnd
      (by simpa using hfresh)
    simpa [List.map_take, List.map_drop] using this
  · simp [List.length_take, List.length_drop, hsz]
    omega
  · simp [BasicIterator.incr, hra2, hr]

theorem PushFront_eq_InsertAfter (h : Heap α) (l : SingleLinkedList) (v : α)
    (hroom : h.cells.length < h.limit) :
    l.PushFront h v =
      match l.InsertAfter h l.before_begin v with
      | .ok h2 r => .ok h2 r.1
      | .thrown h2 t => .thrown h2 t
      | .fault => .fault := by
  simp only [SingleLinkedList.PushFront, SingleLinkedList.InsertAfter, if_pos hroom,
    SingleLinkedList.before_begin, BasicIterator.incr]
  cases h.read l.head_ with
  | none => rfl
  | some hd =>
    simp only
    cases h.new_Node v hd.next_node with
    | none => rfl
    | some r =>
      obtain ⟨h1, a⟩ := r
      simp only
      cases h1.set_next l.head_ (some a) with
      | none => rfl
      | some h2 => rfl

theorem PushFront_repr {h : Heap α} {l : SingleLinkedList} {ns : List (Nat × α)} (v : α)
    (hok : HeapOK h) (hroom : h.cells.length < h.limit) (hrep : Repr h l ns) :
    ∃ h2, l.PushFront h v = .ok h2 ⟨l.head_, l.size_ + 1⟩ ∧
      HeapOK h2 ∧ h2.cells.length = h.cells.length + 1 ∧ h2.limit = h.limit ∧
      Repr h2 ⟨l.head_, l.size_ + 1⟩ ((h.cells.length, v) :: ns) ∧
      (∀ q, q ≠ l.head_ → q ≠ h.cells.length → h2.read q = h.read q) := by
  obtain ⟨h2, hins, hok2, hlen, hlim, hrep2, hfr, _⟩ :=
    InsertAfter_repr v hok hroom hrep (show (l.head_ :: ns.map Prod.fst)[0]? = some l.head_ by simp)
  refine ⟨h2, ?_, hok2, hlen, hlim, by simpa using hrep2, hfr⟩
  rw [PushFront_eq_InsertAfter h l v hroom]
  simp only [SingleLinkedList.before_begin, hins]

theorem dec_size {n : Nat} (h0 : n ≠ 0) (hlt : n < SIZE_MOD) :
    (n + (SIZE_MOD - 1)) % SIZE_MOD = n - 1 := by
  simp only [SIZE_MOD] at hlt ⊢
  omega

theorem EraseAfter_heap {h : Heap α} {l : SingleLinkedList} {p r : Nat} {pn rn : Node α}
    (hne : l.size_ ≠ 0) (hp : h.read p = some pn) (hnx : pn.next_node = some r)
    (hr : h.read r = some rn) (hpr : p ≠ r) :
    ∃ h2, l.EraseAfter h ⟨some p⟩
          = .ok h2 (⟨l.head_, (l.size_ + (SIZE_MOD - 1)) % SIZE_MOD⟩, ⟨rn.next_node⟩) ∧
      h2.limit = h.limit ∧ h2.cells.length = h.cells.length ∧
      h2.read p = some ⟨pn.value, rn.next_node⟩ ∧ h2.read r = none ∧
      ∀ q, q ≠ p → q ≠ r → h2.read q = h.read q := by
  obtain ⟨h1, hset, hlim1, hlen1, hrp1, hfr1⟩ := set_next_spec rn.next_node hp
  have hr1 : h1.read r = some rn := by rw [hfr1 r (Ne.symm hpr)]; exact hr
  obtain ⟨h2, hdel, hlim2, hlen2, hrr2, hfr2⟩ := delete_spec hr1
  have hrp2 : h2.read p = some ⟨pn.value, rn.next_node⟩ := by rw [hfr2 p hpr]; exact hrp1
  refine ⟨h2, ?_, by omega, by omega, hrp2, hrr2, ?_⟩
  · simp [SingleLinkedList.EraseAfter, SingleLinkedList.IsEmpty, hne, hp, hnx, hr, hset, hdel,
      BasicIterator.incr, hrp2]
  · intro q hq1 hq2
    rw [hfr2 q hq2, hfr1 q hq1]

theorem PopFront_heap {h : Heap α} {l : SingleLinkedList} {r : Nat} {pn rn : Node α}
    (hne : l.size_ ≠ 0) (hp : h.read l.head_ = some pn) (hnx : pn.next_node = some r)
    (hr : h.read r = some rn) (hpr : l.head_ ≠ r) :
    ∃ h2, l.PopFront h = .ok h2 ⟨l.head_, (l.size_ + (SIZE_MOD - 1)) % SIZE_MOD⟩ ∧
      h2.limit = h.limit ∧ h2.cells.length = h.cells.length ∧
      h2.read l.head_ = some ⟨pn.value, rn.next_node⟩ ∧ h2.read r = none ∧
      ∀ q, q ≠ l.head_ → q ≠ r → h2.read q = h.read q := by
  obtain ⟨h1, hdel, hlim1, hlen1, hrr1, hfr1⟩ := delete_spec hr
  have hp1 : h1.read l.head_ = some pn := by rw [hfr1 _ hpr]; exact hp
  obtain ⟨h2, hset, hlim2, hlen2, hrp2, hfr2⟩ := set_next_spec rn.next_node hp1
  have hrr2 : h2.read r = none := by rw [hfr2 r (Ne.symm hpr)]; exact hrr1
  refine ⟨h2, ?_, by omega, by omega, hrp2, hrr2, ?_⟩
  · simp [SingleLinkedList.PopFront, SingleLinkedList.IsEmpty, hne, hp, hnx, hr, hset, hdel]
  · intro q hq1 hq2
    rw [hfr2 q hq1, hfr1 q hq2]

theorem map_fst_get (F : List (Nat × α)) (i p : Nat) (hm : (F.map Prod.fst)[i]? = some p) :
    ∃ pv, F[i]? = some (p, pv) := by
  rw [List.getElem?_map] at hm
  cases hget : F[i]? with
  | none => rw [hget] at hm; simp at hm
  | some y =>
    rw [hget] at hm
    obtain ⟨y1, y2⟩ := y
    simp only [Option.map_some', Option.some.injEq] at hm
    subst hm
    exact ⟨y2, rfl⟩

theorem seg_read_next {h : Heap α} (F : List (Nat × α)) (s : Option Nat) (i p : Nat) (pv : α)
    (hs : Seg h s F none) (hi : F[i]? = some (p, pv)) :
    h.read p = some ⟨pv, (F.map Prod.fst)[i + 1]?⟩ := by
  obtain ⟨nx, hr, h1, h2⟩ := seg_read F s none i p pv hs hi
  rw [hr, List.getElem?_map]
  cases hget : F[i + 1]? with
  | none => rw [h2 hget]; rfl
  | some y => rw [h1 (by simp [hget]), hget]

theorem EraseAfter_repr {h : Heap α} {l : SingleLinkedList} {ns : List (Nat × α)}
    {i p : Nat} (hok : HeapOK h) (hrep : Repr h l ns)
    (hpos : (l.head_ :: ns.map Prod.fst)[i]? = some p) (hi : i < ns.length) :
    ∃ h2 r, (ns.map Prod.fst)[i]? = some r ∧
      l.EraseAfter h ⟨some p⟩
          = .ok h2 (⟨l.head_, l.size_ - 1⟩, ⟨(ns.map Prod.fst)[i + 1]?⟩) ∧
      HeapOK h2 ∧ h2.cells.length = h.cells.length ∧ h2.limit = h.limit ∧
      Repr h2 ⟨l.head_, l.size_ - 1⟩ (ns.take i ++ ns.drop (i + 1)) ∧
      h2.read r = none ∧ (∀ q, q ≠ p → q ≠ r → h2.read q = h.read q) := by
  have hsize := repr_size_lt hok hrep
  obtain ⟨⟨hv, hseg⟩, hnd, hsz⟩ := hrep
  obtain ⟨pv, hget⟩ := map_fst_get ((l.head_, hv) :: ns) i p (by simpa using hpos)
  have hrget : ∃ r rv, ((l.head_, hv) :: ns)[i + 1]? = some (r, rv) := by
    have hlt : i + 1 < ((l.head_, hv) :: ns).length := by simp; omega
    exact ⟨_, _, List.getElem?_eq_getElem hlt⟩
  obtain ⟨r, rv, hget1⟩ := hrget
  have hrp := seg_read_next _ _ i p pv hseg hget
  have hrr := seg_read_next _ _ (i + 1) r rv hseg hget1
  have hmr : (((l.head_, hv) :: ns).map Prod.fst)[i + 1]? = some r := by
    rw [List.getElem?_map, hget1]; rfl
  have hmp : (((l.head_, hv) :: ns).map Prod.fst)[i]? = some p := by
    rw [List.getElem?_map, hget]; rfl
  rw [hmr] at hrp
  have hpr : p ≠ r := by
    intro heq
    have hnd2 : (((l.head_, hv) :: ns).map Prod.fst).Nodup := by simpa using hnd
    have := (List.nodup_iff_getElem?_ne_getElem?.1 hnd2) i (i + 1) (by omega)
      (by simp; omega)
    rw [hmr, hmp, heq] at this
    exact this rfl
  have hne : l.size_ ≠ 0 := by omega
  obtain ⟨h2, hcall, hlim, hlen, hrp2, hrr2, hfr⟩ :=
    EraseAfter_heap hne hrp rfl hrr hpr
  rw [dec_size hne (by omega)] at hcall
  refine ⟨h2, r, by simpa using hmr, ?_, ?_, hlen, hlim, ⟨⟨hv, ?_⟩, ?_, ?_⟩, hrr2, hfr⟩
  · simpa using hcall
  · obtain ⟨h3, h4⟩ := hok
    exact ⟨by omega, by omega⟩
  · have := seg_erase p r pv rv
      (fun rnx hrnx => by rw [hrr] at hrnx; cases hrnx; exact hrp2) hfr
      ((l.head_, hv) :: ns) (some l.head_) i hseg (by simpa using hnd) hget hget1
    simpa using this
  · have := nodup_erase_mid l.head_ (ns.map Prod.fst) i hnd
    simpa [List.map_take, List.map_drop] using this
  · simp [List.length_take, List.length_drop, hsz]
    omega

theorem PopFront_repr {h : Heap α} {l : SingleLinkedList} {ns : List (Nat × α)}
    (hok : HeapOK h) (hrep : Repr h l ns) (hne : ns ≠ []) :
    ∃ h2 r, (ns.map Prod.fst)[0]? = some r ∧
      l.PopFront h = .ok h2 ⟨l.head_, l.size_ - 1⟩ ∧
      l.EraseAfter h l.before_begin = .ok h2 (⟨l.head_, l.size_ - 1⟩, ⟨(ns.map Prod.fst)[1]?⟩) ∧
      HeapOK h2 ∧ h2.cells.length = h.cells.length ∧ h2.limit = h.limit ∧
      Repr h2 ⟨l.head_, l.size_ - 1⟩ ns.tail ∧
      h2.read r = none ∧ (∀ q, q ≠ l.head_ → q ≠ r → h2.read q = h.read q) := by
  have hpos : 0 < ns.length := List.length_pos.2 hne
  have hsize := repr_size_lt hok hrep
  obtain ⟨h2, r, hr0, hcall, hok2, hlen, hlim, hrep2, hrr2, hfr⟩ :=
    EraseAfter_repr hok hrep (show (l.head_ :: ns.map Prod.fst)[0]? = some l.head_ by simp) hpos
  refine ⟨h2, r, hr0, ?_, by simpa [SingleLinkedList.before_begin] using hcall, hok2, hlen, hlim,
    by simpa using hrep2, hrr2, hfr⟩
  obtain ⟨⟨hv, hseg⟩, hnd, hsz⟩ := hrep
  cases ns with
  | nil => exact absurd rfl hne
  | cons x rest =>
    obtain ⟨a, v⟩ := x
    simp only [List.map_cons, List.getElem?_cons_zero, Option.some.injEq] at hr0
    subst hr0
    obtain ⟨_, nx, hrh, hnx, rnx, hra, _⟩ := hseg
    subst hnx
    have hha : l.head_ ≠ a := by
      simp only [List.map_cons, List.nodup_cons, List.mem_cons, not_or] at hnd
      exact hnd.1.1
    have hne0 : l.size_ ≠ 0 := by simp at hsz; omega
    obtain ⟨h3, hcall3, hlim3, hlen3, hrp3, hrr3, hfr3⟩ := PopFront_heap hne0 hrh rfl hra hha
    obtain ⟨h4, hcall4, hlim4, hlen4, hrp4, hrr4, hfr4⟩ :=
      EraseAfter_heap (p := l.head_) hne0 hrh rfl hra hha
    rw [hcall] at hcall4
    simp only [Outcome.ok.injEq] at hcall4
    have h24 : h2 = h4 := hcall4.1
    have h34 : h3 = h4 := by
      apply heap_ext (by omega) (by omega)
      intro q
      by_cases hq1 : q = l.head_
      · subst hq1; rw [hrp3, hrp4]
      · by_cases hq2 : q = a
        · subst hq2; rw [hrr3, hrr4]
        · rw [hfr3 q hq1 hq2, hfr4 q hq1 hq2]
    rw [hcall3, h34, ← h24, dec_size hne0 (by omega)]

theorem Clear_loop_spec (head : Nat) :
    ∀ (ns : List (Nat × α)) (h : Heap α) (fuel : Nat) (hv : α) (nx : Option Nat),
      h.read head = some ⟨hv, nx⟩ → Seg h nx ns none → (head :: ns.map Prod.fst).Nodup →
      ns.length < fuel →
      ∃ h2, SingleLinkedList.Clear.loop head fuel h = .ok h2 () ∧ h2.limit = h.limit ∧
        h2.cells.length = h.cells.length ∧ h2.read head = some ⟨hv, none⟩ ∧
        (∀ q ∈ ns.map Prod.fst, h2.read q = none) ∧
        ∀ q, q ≠ head → q ∉ ns.map Prod.fst → h2.read q = h.read q := by
  intro ns
  induction ns with
  | nil =>
    intro h fuel hv nx hrh hseg _ hf
    have hnx : nx = none := hseg
    subst hnx
    cases fuel with
    | zero => simp at hf
    | succ k =>
      refine ⟨h, ?_, rfl, rfl, hrh, by simp, fun _ _ _ => rfl⟩
      simp [SingleLinkedList.Clear.loop, hrh]
  | cons x rest ih =>
    intro h fuel hv nx hrh hseg hnd hf
    obtain ⟨a, v⟩ := x
    obtain ⟨hnx, rnx, hra, hrest⟩ := hseg
    subst hnx
    simp only [List.map_cons, List.nodup_cons, List.mem_cons, not_or] at hnd
    have hha : head ≠ a := hnd.1.1
    cases fuel with
    | zero => simp at hf
    | succ k =>
      obtain ⟨h1, hdel, hlim1, hlen1, hra1, hfr1⟩ := delete_spec hra
      have hrh1 : h1.read head = some ⟨hv, some a⟩ := by rw [hfr1 _ hha]; exact hrh
      obtain ⟨h2, hset, hlim2, hlen2, hrh2, hfr2⟩ := set_next_spec rnx hrh1
      have hseg2 : Seg h2 rnx rest none := by
        apply seg_frame rest rnx none _ hrest
        intro q hq
        rw [hfr2 q (by intro heq; subst heq; exact hnd.1.2 hq),
          hfr1 q (by intro heq; subst heq; exact hnd.2.1 hq)]
      obtain ⟨h3, hloop, hlim3, hlen3, hrh3, hdead3, hfr3⟩ :=
        ih h2 k hv rnx hrh2 hseg2
          (by simp only [List.nodup_cons]; exact ⟨hnd.1.2, hnd.2.2⟩) (by simpa using hf)
      refine ⟨h3, ?_, by omega, by omega, hrh3, ?_, ?_⟩
      · simp [SingleLinkedList.Clear.loop, hrh, hra, hdel, hset, hloop]
      · intro q hq
        simp only [List.map_cons, List.mem_cons] at hq
        rcases hq with hq | hq
        · subst hq
          rw [hfr3 _ (Ne.symm hha) hnd.2.1, hfr2 _ (Ne.symm hha)]
          exact hra1
        · exact hdead3 q hq
      · intro q hq1 hq2
        simp only [List.map_cons, List.mem_cons, not_or] at hq2
        rw [hfr3 q hq1 hq2.2, hfr2 q hq1, hfr1 q hq2.1]

theorem Clear_repr {h : Heap α} {l : SingleLinkedList} {ns : List (Nat × α)}
    (hok : HeapOK h) (hrep : Repr h l ns) :
    ∃ h2, l.Clear h = .ok h2 ⟨l.head_, 0⟩ ∧
      HeapOK h2 ∧ h2.cells.length = h.cells.length ∧ h2.limit = h.limit ∧
      Repr h2 ⟨l.head_, 0⟩ [] ∧ (∀ q ∈ ns.map Prod.fst, h2.read q = none) ∧
      (∀ q, q ≠ l.head_ → q ∉ ns.map Prod.fst → h2.read q = h.read q) := by
  have hlen := repr_length_lt hrep
  obtain ⟨⟨hv, _, nx, hrh, hseg⟩, hnd, hsz⟩ := hrep
  obtain ⟨h2, hloop, hlim2, hlen2, hrh2, hdead, hfr⟩ :=
    Clear_loop_spec l.head_ ns h (h.cells.length + 1) hv nx hrh hseg hnd (by omega)
  refine ⟨h2, ?_, ?_, hlen2, hlim2, ⟨⟨hv, rfl, none, hrh2, rfl⟩, by simp, rfl⟩, hdead, hfr⟩
  · simp [SingleLinkedList.Clear, hloop]
  · obtain ⟨h3, h4⟩ := hok
    exact ⟨by omega, by omega⟩

theorem dtor_spec {h : Heap α} (l : SingleLinkedList) (ns : List (Nat × α)) {hv : α}
    {nx : Option Nat} (hrh : h.read l.head_ = some ⟨hv, nx⟩) (hseg : Seg h nx ns none)
    (hnd : (l.head_ :: ns.map Prod.fst).Nodup) :
    ∃ h2, l.dtor h = .ok h2 () ∧ h2.cells.length = h.cells.length ∧ h2.limit = h.limit ∧
      h2.read l.head_ = none ∧ (∀ q ∈ ns.map Prod.fst, h2.read q = none) ∧
      (∀ q, q ≠ l.head_ → q ∉ ns.map Prod.fst → h2.read q = h.read q) := by
  have hlt := seg_addr_lt _ _ _ hseg
  have hlen : ns.length ≤ h.cells.length := by
    have := nodup_length_le h.cells.length (ns.map Prod.fst) (List.nodup_cons.1 hnd).2 hlt
    simpa using this
  obtain ⟨h2, hloop, hlim2, hlen2, hrh2, hdead, hfr⟩ :=
    Clear_loop_spec l.head_ ns h (h.cells.length + 1) hv nx hrh hseg hnd (by omega)
  obtain ⟨h3, hdel, hlim3, hlen3, hrh3, hfr3⟩ := delete_spec hrh2
  simp only [List.nodup_cons] at hnd
  refine ⟨h3, ?_, by omega, by omega, hrh3, ?_, ?_⟩
  · simp [SingleLinkedList.dtor, SingleLinkedList.Clear, hloop, hdel]
  · intro q hq
    rw [hfr3 q (by intro heq; subst heq; exact hnd.1 hq)]
    exact hdead q hq
  · intro q hq1 hq2
    rw [hfr3 q hq1, hfr q hq1 hq2]

theorem swap_spec {h : Heap α} (l other : SingleLinkedList) {a b : Node α}
    (hl : h.read l.head_ = some a) (ho : h.read other.head_ = some b)
    (hne : l.head_ ≠ other.head_) :
    ∃ h2, l.swap h other = .ok h2 (⟨l.head_, other.size_⟩, ⟨other.head_, l.size_⟩) ∧
      h2.cells.length = h.cells.length ∧ h2.limit = h.limit ∧
      h2.read l.head_ = some ⟨a.value, b.next_node⟩ ∧
      h2.read other.head_ = some ⟨b.value, a.next_node⟩ ∧
      (∀ q, q ≠ l.head_ → q ≠ other.head_ → h2.read q = h.read q) := by
  obtain ⟨h1, hset1, hlim1, hlen1, hr1, hfr1⟩ := set_next_spec b.next_node hl
  have ho1 : h1.read other.head_ = some b := by rw [hfr1 _ (Ne.symm hne)]; exact ho
  obtain ⟨h2, hset2, hlim2, hlen2, hr2, hfr2⟩ := set_next_spec a.next_node ho1
  refine ⟨h2, ?_, by omega, by omega, ?_, hr2, ?_⟩
  · simp [SingleLinkedList.swap, hl, ho, hset1, hset2]
  · rw [hfr2 _ hne]; exact hr1
  · intro q hq1 hq2
    rw [hfr2 q hq2, hfr1 q hq1]

/-! ## Assign and the constructors -/

theorem Assign_loop_spec (I : InputIterator α ι) (to_ : ι) (h0 : Heap α) (thead : Nat) :
    ∀ (xs : List α) (h : Heap α) (pre : List (Nat × α)) (fld : Nat) (fv : α)
      (sz fuel : Nat) (from_ : ι),
      Yields I to_ h0 thead from_ xs →
      (∀ q, q < thead → h.read q = h0.read q) →
      Seg h (some thead) (pre ++ [(fld, fv)]) none →
      ((pre ++ [(fld, fv)]).map Prod.fst).Nodup →
      (∀ q ∈ (pre ++ [(fld, fv)]).map Prod.fst, thead ≤ q) →
      h.cells.length + xs.length ≤ h.limit →
      sz + xs.length < SIZE_MOD →
      xs.length < fuel →
      ∃ h2 newn, SingleLinkedList.Assign.loop I to_ fuel h ⟨thead, sz⟩ fld from_
            = .ok h2 ⟨thead, sz + xs.length⟩ ∧
        h2.limit = h.limit ∧ h2.cells.length = h.cells.length + xs.length ∧
        (∀ q, q < thead → h2.read q = h0.read q) ∧
        Seg h2 (some thead) (pre ++ (fld, fv) :: newn) none ∧
        ((pre ++ (fld, fv) :: newn).map Prod.fst).Nodup ∧
        (∀ q ∈ (pre ++ (fld, fv) :: newn).map Prod.fst, thead ≤ q) ∧
        newn.map Prod.snd = xs := by
  intro xs
  induction xs with
  | nil =>
    intro h pre fld fv sz fuel from_ hy hstab hseg hnd hge _ _ hf
    have heq : I.eq from_ to_ = true := hy
    cases fuel with
    | zero => simp at hf
    | succ k =>
      refine ⟨h, [], ?_, rfl, rfl, hstab, hseg, hnd, hge, rfl⟩
      simp [SingleLinkedList.Assign.loop, heq]
  | cons x rest ih =>
    intro h pre fld fv sz fuel from_ hy hstab hseg hnd hge hroom hsz hf
    obtain ⟨hneq, from1, hder, hyrest⟩ := hy
    cases fuel with
    | zero => simp at hf
    | succ k =>
      simp only [List.length_cons] at hroom hsz hf
      have hget : (pre ++ [(fld, fv)])[pre.length]? = some (fld, fv) := by simp
      obtain ⟨nx, hrf, _, hnx⟩ := seg_read _ _ _ pre.length fld fv hseg hget
      have hnx0 : nx = none := hnx (by simp)
      subst hnx0
      have hlt := seg_addr_lt _ _ _ hseg
      have hfldlt : fld < h.cells.length := read_lt hrf
      have hfldge : thead ≤ fld := hge fld (by simp)
      obtain ⟨h1, hnew, hlim1, hlen1, hra1, hfr1⟩ :=
        new_Node_spec (h := h) x none (by omega)
      have hrf1 : h1.read fld = some ⟨fv, none⟩ := by rw [hfr1 fld (by omega)]; exact hrf
      obtain ⟨h2, hset, hlim2, hlen2, hrf2, hfr2⟩ := set_next_spec (some h.cells.length) hrf1
      have hra2 : h2.read h.cells.length = some ⟨x, none⟩ := by
        rw [hfr2 _ (by omega)]; exact hra1
      have hfr : ∀ q, q ≠ fld → q ≠ h.cells.length → h2.read q = h.read q := by
        intro q hq1 hq2
        rw [hfr2 q hq1, hfr1 q hq2]
      have hstab2 : ∀ q, q < thead → h2.read q = h0.read q := by
        intro q hq
        rw [hfr q (by omega) (by omega)]
        exact hstab q hq
      have hfresh : h.cells.length ∉ (pre ++ [(fld, fv)]).map Prod.fst := by
        intro hmem
        exact Nat.lt_irrefl _ (hlt _ hmem)
      have hseg2 : Seg h2 (some thead) ((pre ++ [(fld, fv)]) ++ [(h.cells.length, x)]) none := by
        have := seg_insert fld h.cells.length fv x hrf2
          (fun nx1 hnx1 => by rw [hrf] at hnx1; cases hnx1; exact hra2) hfr
          (pre ++ [(fld, fv)]) (some thead) pre.length hseg hnd hfresh hget
        rw [List.take_of_length_le (by simp), List.drop_of_length_le (by simp)] at this
        exact this
      have hnd2 : (((pre ++ [(fld, fv)]) ++ [(h.cells.length, x)]).map Prod.fst).Nodup := by
        rw [List.map_append, List.nodup_append]
        refine ⟨hnd, by simp, ?_⟩
        intro q hq1 hq2
        simp only [List.map_cons, List.map_nil, List.mem_singleton] at hq2
        subst hq2
        exact hfresh hq1
      have hge2 : ∀ q ∈ ((pre ++ [(fld, fv)]) ++ [(h.cells.length, x)]).map Prod.fst,
          thead ≤ q := by
        intro q hq
        rw [List.map_append, List.mem_append] at hq
        rcases hq with hq | hq
        · exact hge q hq
        · simp only [List.map_cons, List.map_nil, List.mem_singleton] at hq
          omega
      obtain ⟨h3, newn, hloop, hlim3, hlen3, hstab3, hseg3, hnd3, hge3, hval3⟩ :=
        ih h2 (pre ++ [(fld, fv)]) h.cells.length x (sz + 1) k from1 hyrest hstab2 hseg2 hnd2 hge2
          (by omega) (by omega) (by omega)
      refine ⟨h3, (h.cells.length, x) :: newn, ?_, by omega,
        by simp only [List.length_cons]; omega, hstab3,
        by simpa using hseg3, by simpa using hnd3, ?_, by simp [hval3]⟩
      · have hd := (hder h hstab).1
        have hi := (hder h2 hstab2).2
        simp only [SingleLinkedList.Assign.loop, hneq, hd, hnew, hset, hi,
          Nat.mod_eq_of_lt (show sz + 1 < SIZE_MOD by omega)]
        simp only [Bool.false_eq_true, if_false]
        rw [hloop]
        simp only [List.length_cons]
        congr 2
        omega
      · intro q hq
        apply hge3 q
        simpa using hq

theorem Assign_spec [Inhabited α] (I : InputIterator α ι) (to_ from_ : ι) (fuel : Nat)
    {h : Heap α} {a : Nat} (junk : Nat) {hv : α} (xs : List α)
    (hra : h.read a = some ⟨hv, none⟩)
    (hy : Yields I to_ h h.cells.length from_ xs)
    (hroom : h.cells.length + xs.length ≤ h.limit)
    (haddr : h.cells.length + 1 + xs.length ≤ ADDR_LIMIT)
    (hf : xs.length < fuel) :
    ∃ h3 ns, SingleLinkedList.Assign I fuel h ⟨a, junk⟩ from_ to_ = .ok h3 ⟨a, xs.length⟩ ∧
      h3.limit = min (h.limit + 1) ADDR_LIMIT ∧
      h3.cells.length = h.cells.length + 1 + xs.length ∧
      Repr h3 ⟨a, xs.length⟩ ns ∧ ns.map Prod.snd = xs ∧
      (∀ q ∈ ns.map Prod.fst, h.cells.length < q) ∧
      (∀ q, q < h.cells.length → q ≠ a → h3.read q = h.read q) := by
  have halt : a < h.cells.length := read_lt hra
  obtain ⟨h0, hnew, hlim0, hlen0, hrt0, hfr0⟩ :=
    place_spec (h := h) ⟨(default : α), none⟩ (by omega)
  have hseg0 : Seg h0 (some h.cells.length) ([] ++ [(h.cells.length, (default : α))]) none :=
    ⟨rfl, none, hrt0, rfl⟩
  obtain ⟨h1, newn, hloop, hlim1, hlen1, hstab1, hseg1, hnd1, hge1, hval1⟩ :=
    Assign_loop_spec I to_ h h.cells.length xs h0 [] h.cells.length default 0 fuel from_ hy
      (fun q hq => hfr0 q (by omega)) hseg0 (by simp) (by simp) (by omega)
      (by simp only [ADDR_LIMIT] at haddr; simp only [SIZE_MOD]; omega) hf
  simp only [List.nil_append, List.map_cons, List.nodup_cons, List.mem_cons, forall_eq_or_imp]
    at hseg1 hnd1 hge1
  obtain ⟨_, nx, hrt1, hsegn⟩ := hseg1
  have hgt : ∀ q ∈ newn.map Prod.fst, h.cells.length < q := by
    intro q hq
    have h1 := hge1.2 q hq
    have h2 : q ≠ h.cells.length := by intro heq; subst heq; exact hnd1.1 hq
    omega
  have hra1 : h1.read a = some ⟨hv, none⟩ := by rw [hstab1 a halt]; exact hra
  obtain ⟨h2, hswap, hlen2, hlim2, hra2, hrt2, hfr2⟩ :=
    swap_spec ⟨a, junk⟩ ⟨h.cells.length, 0 + xs.length⟩ hra1 hrt1
      (by simp only; omega)
  simp only at hra2 hrt2 hfr2
  obtain ⟨h3, hdtor, hlen3, hlim3, hrt3, _, hfr3⟩ :=
    dtor_spec ⟨h.cells.length, junk⟩ [] hrt2 rfl (by simp)
  simp only [List.map_nil, List.not_mem_nil, not_false_eq_true, forall_true_left] at hfr3
  have hfr3a : ∀ q, q ≠ h.cells.length → h3.read q = h2.read q := by
    intro q hq
    exact hfr3 q hq
  refine ⟨h3, newn, ?_, by omega, by omega, ⟨⟨hv, rfl, nx, ?_, ?_⟩, ?_, ?_⟩, hval1, hgt, ?_⟩
  · simp only [SingleLinkedList.Assign, SingleLinkedList.default_ctor, hnew, hloop, hswap,
      hdtor]
    simp
  · rw [hfr3a a (by omega)]; exact hra2
  · apply seg_frame newn nx none _ hsegn
    intro q hq
    have := hgt q hq
    rw [hfr3a q (by omega), hfr2 q (by omega) (by omega)]
  · simp only [List.nodup_cons]
    refine ⟨?_, hnd1.2⟩
    intro hmem
    have := hgt a hmem
    omega
  · simp only
    rw [← hval1]
    simp
  · intro q hq1 hq2
    rw [hfr3a q (by omega), hfr2 q hq2 (by omega), hstab1 q hq1]

theorem yields_array (values : List α) (h0 : Heap α) (bound : Nat) :
    ∀ (xs : List α) (i : Nat), i ≤ values.length → values.drop i = xs →
      Yields (array_iterator values) values.length h0 bound i xs := by
  intro xs
  induction xs with
  | nil =>
    intro i hi hd
    have : values.length ≤ i := List.drop_eq_nil_iff.1 hd
    have hieq : i = values.length := by omega
    simp [Yields, array_iterator, hieq]
  | cons x rest ih =>
    intro i hi hd
    have hlt : i < values.length := by
      by_contra hge
      rw [List.drop_of_length_le (by omega)] at hd
      simp at hd
    rw [List.drop_eq_getElem_cons hlt] at hd
    simp only [List.cons.injEq] at hd
    refine ⟨by simp [array_iterator]; omega, i + 1, ?_, ih (i + 1) (by omega) hd.2⟩
    intro h _
    simp only [array_iterator, hlt, if_true, and_true]
    rw [List.getElem?_eq_getElem hlt, hd.1]

theorem yields_list (h0 : Heap α) (bound : Nat) :
    ∀ (ns : List (Nat × α)) (p : Option Nat), Seg h0 p ns none →
      (∀ q ∈ ns.map Prod.fst, q < bound) →
      Yields list_iterator (BasicIterator.mk none) h0 bound ⟨p⟩ (ns.map Prod.snd) := by
  intro ns
  induction ns with
  | nil =>
    intro p hs _
    have hp : p = none := hs
    subst hp
    simp [Yields, list_iterator, BasicIterator.eq]
  | cons x rest ih =>
    intro p hs hb
    obtain ⟨a, v⟩ := x
    obtain ⟨hp, nx, hr, hrest⟩ := hs
    subst hp
    simp only [List.map_cons, List.mem_cons, forall_eq_or_imp] at hb
    refine ⟨by simp [list_iterator, BasicIterator.eq], ⟨nx⟩, ?_, ih nx hrest hb.2⟩
    intro h hstab
    have hra : h.read a = some ⟨v, nx⟩ := by rw [hstab a hb.1]; exact hr
    simp [list_iterator, BasicIterator.deref, BasicIterator.incr, hra]

theorem min_succ_succ (l A : Nat) : min (min (l + 1) A + 1) A = min (l + 2) A := by
  omega

theorem default_ctor_spec [Inhabited α] {h : Heap α} (hok : HeapOK h)
    (haddr : h.cells.length < ADDR_LIMIT) :
    ∃ h1, SingleLinkedList.default_ctor h = .ok h1 ⟨h.cells.length, 0⟩ ∧ HeapOK h1 ∧
      h1.cells.length = h.cells.length + 1 ∧ h1.limit = min (h.limit + 1) ADDR_LIMIT ∧
      Repr h1 ⟨h.cells.length, 0⟩ ([] : List (Nat × α)) ∧
      (∀ q, q < h.cells.length → h1.read q = h.read q) := by
  obtain ⟨h1, hnew, hlim1, hlen1, hr1, hfr1⟩ :=
    place_spec (h := h) ⟨(default : α), none⟩ haddr
  refine ⟨h1, by simp [SingleLinkedList.default_ctor, hnew], ?_, hlen1, hlim1,
    ⟨⟨default, rfl, none, hr1, rfl⟩, by simp, rfl⟩, fun q hq => hfr1 q (by omega)⟩
  obtain ⟨h3, h4⟩ := hok
  exact ⟨by omega, by omega⟩

theorem init_ctor_spec [Inhabited α] {h : Heap α} (junk : Nat) (values : List α)
    (hroom : h.cells.length + values.length ≤ h.limit)
    (haddr : h.cells.length + values.length + 2 ≤ ADDR_LIMIT) :
    ∃ h3 ns, SingleLinkedList.init_ctor h junk values
          = .ok h3 ⟨h.cells.length, values.length⟩ ∧ HeapOK h3 ∧
      h3.cells.length = h.cells.length + values.length + 2 ∧
      h3.limit = min (h.limit + 2) ADDR_LIMIT ∧
      Repr h3 ⟨h.cells.length, values.length⟩ ns ∧ ns.map Prod.snd = values ∧
      (∀ q ∈ ns.map Prod.fst, h.cells.length < q) ∧
      (∀ q, q < h.cells.length → h3.read q = h.read q) := by
  obtain ⟨h0, hnew, hlim0, hlen0, hr0, hfr0⟩ :=
    place_spec (h := h) ⟨(default : α), none⟩ (by omega)
  obtain ⟨h3, ns, hassign, hlim3, hlen3, hrep, hval, hgt, hfr3⟩ :=
    Assign_spec (array_iterator values) values.length 0 (values.length + 1) junk values
      hr0 (yields_array values h0 _ values 0 (by omega) rfl) (by omega) (by omega) (by omega)
  refine ⟨h3, ns, ?_, ⟨by omega, by omega⟩, by omega,
    by rw [hlim3, hlim0, min_succ_succ], hrep, hval, ?_, ?_⟩
  · simp [SingleLinkedList.init_ctor, hnew, hassign]
  · intro q hq
    have := hgt q hq
    omega
  · intro q hq
    rw [hfr3 q (by omega) (by omega), hfr0 q (by omega)]

theorem copy_ctor_spec [Inhabited α] {h : Heap α} (junk : Nat) {other : SingleLinkedList}
    {os : List (Nat × α)} (hother : Repr h other os)
    (hroom : h.cells.length + os.length ≤ h.limit)
    (haddr : h.cells.length + os.length + 2 ≤ ADDR_LIMIT) :
    ∃ h3 ns, SingleLinkedList.copy_ctor h junk other
          = .ok h3 ⟨h.cells.length, os.length⟩ ∧ HeapOK h3 ∧
      h3.cells.length = h.cells.length + os.length + 2 ∧
      h3.limit = min (h.limit + 2) ADDR_LIMIT ∧
      Repr h3 ⟨h.cells.length, os.length⟩ ns ∧ ns.map Prod.snd = os.map Prod.snd ∧
      (∀ q ∈ ns.map Prod.fst, h.cells.length < q) ∧
      (∀ q, q < h.cells.length → h3.read q = h.read q) := by
  have holen := repr_length_lt hother
  obtain ⟨⟨ov, hoseg⟩, _, _⟩ := hother
  have holt := seg_addr_lt _ _ _ hoseg
  obtain ⟨_, onx, hro, hosegn⟩ := hoseg
  obtain ⟨h0, hnew, hlim0, hlen0, hr0, hfr0⟩ :=
    place_spec (h := h) ⟨(default : α), none⟩ (by omega)
  have hro0 : h0.read other.head_ = some ⟨ov, onx⟩ := by
    rw [hfr0 _ (by have := read_lt hro; omega)]; exact hro
  have hoseg0 : Seg h0 onx os none := by
    apply seg_frame os onx none _ hosegn
    intro q hq
    have := holt q (by simp; exact Or.inr (by simpa using hq))
    exact hfr0 q (by omega)
  have hy := yields_list h0 h0.cells.length os onx hoseg0 (by
    intro q hq
    have := holt q (by simp; exact Or.inr (by simpa using hq))
    omega)
  obtain ⟨h3, ns, hassign, hlim3, hlen3, hrep, hval, hgt, hfr3⟩ :=
    Assign_spec list_iterator (BasicIterator.mk none) ⟨onx⟩ (h.cells.length + 1) junk
      (os.map Prod.snd) hr0 hy (by simp; omega) (by simp; omega) (by simp; omega)
  simp only [List.length_map] at hassign hlen3 hrep
  refine ⟨h3, ns, ?_, ⟨by omega, by omega⟩, by omega,
    by rw [hlim3, hlim0, min_succ_succ], hrep, hval, ?_, ?_⟩
  · simp [SingleLinkedList.copy_ctor, hnew, SingleLinkedList.cbegin, hro0,
      SingleLinkedList.cend, hassign]
  · intro q hq
    have := hgt q hq
    omega
  · intro q hq
    rw [hfr3 q (by omega) (by omega), hfr0 q (by omega)]

/-! ## An element type whose copy can throw -/

theorem throwing_new_Node_true (h : Heap α) (v : α) (nx : Option Nat) :
    Throwing.new_Node (fun _ => true) h v nx = h.new_Node v nx := by
  simp [Throwing.new_Node]

theorem throwing_Assign_loop_true (I : InputIterator α ι) (to_ : ι) :
    ∀ (fuel : Nat) (h : Heap α) (tmp : SingleLinkedList) (p : Nat) (from_ : ι),
      Throwing.Assign.loop (fun _ => true) I to_ fuel h tmp p from_
        = SingleLinkedList.Assign.loop I to_ fuel h tmp p from_ := by
  intro fuel
  induction fuel with
  | zero => intro h tmp p from_; rfl
  | succ k ih =>
    intro h tmp p from_
    simp only [Throwing.Assign.loop, SingleLinkedList.Assign.loop, throwing_new_Node_true, ih]

theorem throwing_Assign_true [Inhabited α] (I : InputIterator α ι) (fuel : Nat) (h : Heap α)
    (l : SingleLinkedList) (from_ to_ : ι) :
    Throwing.Assign (fun _ => true) I fuel h l from_ to_
      = SingleLinkedList.Assign I fuel h l from_ to_ := by
  simp only [Throwing.Assign, SingleLinkedList.Assign, throwing_Assign_loop_true]

theorem throwing_copy_ctor_true [Inhabited α] (h : Heap α) (junk : Nat)
    (other : SingleLinkedList) :
    Throwing.copy_ctor (fun _ => true) h junk other = SingleLinkedList.copy_ctor h junk other := by
  simp only [Throwing.copy_ctor, SingleLinkedList.copy_ctor, throwing_Assign_true]

theorem throwing_new_Node_fail (copy_ok : α → Bool) {h : Heap α} (v : α) (nx : Option Nat)
    (hfail : ¬ (h.cells.length < h.limit ∧ copy_ok v = true)) :
    Throwing.new_Node copy_ok h v nx = none := by
  simp only [Throwing.new_Node, Heap.new_Node]
  by_cases hcv : copy_ok v = true
  · have : ¬ h.cells.length < h.limit := fun hh => hfail ⟨hh, hcv⟩
    simp [hcv, this]
  · simp [hcv]

theorem throwing_Assign_loop_thrown (copy_ok : α → Bool) (I : InputIterator α ι) (to_ : ι)
    (h0 : Heap α) (thead : Nat) :
    ∀ (xs : List α) (h : Heap α) (pre : List (Nat × α)) (fld : Nat) (fv : α)
      (sz fuel : Nat) (from_ : ι),
      Yields I to_ h0 thead from_ xs →
      (∀ q, q < thead → h.read q = h0.read q) →
      Seg h (some thead) (pre ++ [(fld, fv)]) none →
      ((pre ++ [(fld, fv)]).map Prod.fst).Nodup →
      (∀ q ∈ (pre ++ [(fld, fv)]).map Prod.fst, thead ≤ q) →
      (∀ q, thead ≤ q → q < h.cells.length → q ∈ (pre ++ [(fld, fv)]).map Prod.fst) →
      h.cells.length ≤ h.limit →
      (h.limit < h.cells.length + xs.length ∨ ∃ x ∈ xs, copy_ok x = false) →
      xs.length < fuel →
      ∃ h2 newn sz2, Throwing.Assign.loop copy_ok I to_ fuel h ⟨thead, sz⟩ fld from_
            = .thrown h2 ⟨thead, sz2⟩ ∧
        h2.limit = h.limit ∧ h.cells.length ≤ h2.cells.length ∧
        h2.cells.length ≤ h2.limit ∧
        (∀ q, q < thead → h2.read q = h0.read q) ∧
        Seg h2 (some thead) (pre ++ (fld, fv) :: newn) none ∧
        ((pre ++ (fld, fv) :: newn).map Prod.fst).Nodup ∧
        (∀ q ∈ (pre ++ (fld, fv) :: newn).map Prod.fst, thead ≤ q) ∧
        (∀ q, thead ≤ q → q < h2.cells.length →
          q ∈ (pre ++ (fld, fv) :: newn).map Prod.fst) := by
  intro xs
  induction xs with
  | nil =>
    intro h pre fld fv sz fuel from_ _ _ _ _ _ _ hle hfail _
    rcases hfail with hfail | ⟨x, hx, _⟩
    · simp at hfail
      omega
    · simp at hx
  | cons x rest ih =>
    intro h pre fld fv sz fuel from_ hy hstab hseg hnd hge hcov hle hfail hf
    obtain ⟨hneq, from1, hder, hyrest⟩ := hy
    cases fuel with
    | zero => simp at hf
    | succ k =>
      simp only [List.length_cons] at hfail hf
      have hd := (hder h hstab).1
      by_cases hgo : h.cells.length < h.limit ∧ copy_ok x = true
      · obtain ⟨hfull, hcx⟩ := hgo
        have hget : (pre ++ [(fld, fv)])[pre.length]? = some (fld, fv) := by simp
        obtain ⟨nx, hrf, _, hnx⟩ := seg_read _ _ _ pre.length fld fv hseg hget
        have hnx0 : nx = none := hnx (by simp)
        subst hnx0
        have hlt := seg_addr_lt _ _ _ hseg
        have hfldlt : fld < h.cells.length := read_lt hrf
        have hfldge : thead ≤ fld := hge fld (by simp)
        obtain ⟨h1, hnew, hlim1, hlen1, hra1, hfr1⟩ := new_Node_spec (h := h) x none hfull
        have hnewc : Throwing.new_Node copy_ok h x none = some (h1, h.cells.length) := by
          simp [Throwing.new_Node, hcx, hnew]
        have hrf1 : h1.read fld = some ⟨fv, none⟩ := by rw [hfr1 fld (by omega)]; exact hrf
        obtain ⟨h2, hset, hlim2, hlen2, hrf2, hfr2⟩ :=
          set_next_spec (some h.cells.length) hrf1
        have hra2 : h2.read h.cells.length = some ⟨x, none⟩ := by
          rw [hfr2 _ (by omega)]; exact hra1
        have hfr : ∀ q, q ≠ fld → q ≠ h.cells.length → h2.read q = h.read q := by
          intro q hq1 hq2
          rw [hfr2 q hq1, hfr1 q hq2]
        have hstab2 : ∀ q, q < thead → h2.read q = h0.read q := by
          intro q hq
          rw [hfr q (by omega) (by omega)]
          exact hstab q hq
        have hfresh : h.cells.length ∉ (pre ++ [(fld, fv)]).map Prod.fst := by
          intro hmem
          exact Nat.lt_irrefl _ (hlt _ hmem)
        have hseg2 :
            Seg h2 (some thead) ((pre ++ [(fld, fv)]) ++ [(h.cells.length, x)]) none := by
          have := seg_insert fld h.cells.length fv x hrf2
            (fun nx1 hnx1 => by rw [hrf] at hnx1; cases hnx1; exact hra2) hfr
            (pre ++ [(fld, fv)]) (some thead) pre.length hseg hnd hfresh hget
          rw [List.take_of_length_le (by simp), List.drop_of_length_le (by simp)] at this
          exact this
        have hnd2 : (((pre ++ [(fld, fv)]) ++ [(h.cells.length, x)]).map Prod.fst).Nodup := by
          rw [List.map_append, List.nodup_append]
          refine ⟨hnd, by simp, ?_⟩
          intro q hq1 hq2
          simp only [List.map_cons, List.map_nil, List.mem_singleton] at hq2
          subst hq2
          exact hfresh hq1
        have hge2 : ∀ q ∈ ((pre ++ [(fld, fv)]) ++ [(h.cells.length, x)]).map Prod.fst,
            thead ≤ q := by
          intro q hq
          rw [List.map_append, List.mem_append] at hq
          rcases hq with hq | hq
          · exact hge q hq
          · simp only [List.map_cons, List.map_nil, List.mem_singleton] at hq
            omega
        have hcov2 : ∀ q, thead ≤ q → q < h2.cells.length →
            q ∈ ((pre ++ [(fld, fv)]) ++ [(h.cells.length, x)]).map Prod.fst := by
          intro q hq1 hq2
          rw [List.map_append, List.mem_append]
          by_cases hqc : q = h.cells.length
          · right
            simp [hqc]
          · left
            exact hcov q hq1 (by omega)
        have hfail2 : h2.limit < h2.cells.length + rest.length ∨
            ∃ y ∈ rest, copy_ok y = false := by
          rcases hfail with hfail | ⟨y, hy1, hy2⟩
          · left
            omega
          · right
            rcases List.mem_cons.1 hy1 with hyx | hyr
            · subst hyx
              rw [hcx] at hy2
              cases hy2
            · exact ⟨y, hyr, hy2⟩
        obtain ⟨h3, newn, sz3, hloop, hlim3, hlen3, hle3, hstab3, hseg3, hnd3, hge3, hcov3⟩ :=
          ih h2 (pre ++ [(fld, fv)]) h.cells.length x ((sz + 1) % SIZE_MOD) k from1 hyrest
            hstab2 hseg2 hnd2 hge2 hcov2 (by omega) hfail2 (by omega)
        refine ⟨h3, (h.cells.length, x) :: newn, sz3, ?_, by omega, by omega, hle3, hstab3,
          by simpa using hseg3, by simpa using hnd3,
          fun q hq => hge3 q (by simpa using hq),
          fun q hq1 hq2 => by simpa using hcov3 q hq1 hq2⟩
        have hi := (hder h2 hstab2).2
        simp only [Throwing.Assign.loop, hneq, hd, hnewc, hset, hi]
        simp only [Bool.false_eq_true, if_false]
        exact hloop
      · refine ⟨h, [], sz, ?_, rfl, le_refl _, hle, hstab, hseg, hnd, hge, hcov⟩
        simp [Throwing.Assign.loop, hneq, hd, throwing_new_Node_fail copy_ok x none hgo]

theorem throwing_Assign_thrown [Inhabited α] (copy_ok : α → Bool) (I : InputIterator α ι)
    (to_ from_ : ι) (fuel : Nat) {h : Heap α} (l : SingleLinkedList) (xs : List α)
    (hle : h.cells.length ≤ h.limit) (haddr : h.cells.length < ADDR_LIMIT)
    (hy : Yields I to_ h h.cells.length from_ xs)
    (hfail : h.limit < h.cells.length + xs.length ∨
      ADDR_LIMIT < h.cells.length + 1 + xs.length ∨ ∃ x ∈ xs, copy_ok x = false)
    (hf : xs.length < fuel) :
    ∃ h3, Throwing.Assign copy_ok I fuel h l from_ to_ = .thrown h3 l ∧
      h3.limit = min (h.limit + 1) ADDR_LIMIT ∧ h.cells.length < h3.cells.length ∧
      h3.cells.length ≤ h3.limit ∧
      (∀ q, q < h.cells.length → h3.read q = h.read q) ∧
      (∀ q, h.cells.length ≤ q → h3.read q = none) := by
  obtain ⟨h0, hnew, hlim0, hlen0, hrt0, hfr0⟩ :=
    place_spec (h := h) ⟨(default : α), none⟩ haddr
  have hseg0 : Seg h0 (some h.cells.length) ([] ++ [(h.cells.length, (default : α))]) none :=
    ⟨rfl, none, hrt0, rfl⟩
  have hfail0 : h0.limit < h0.cells.length + xs.length ∨ ∃ x ∈ xs, copy_ok x = false := by
    rcases hfail with hfail | hfail | hfail
    · left; omega
    · left; omega
    · right; exact hfail
  obtain ⟨h1, newn, sz1, hloop, hlim1, hlen1, hle1, hstab1, hseg1, hnd1, hge1, hcov1⟩ :=
    throwing_Assign_loop_thrown copy_ok I to_ h h.cells.length xs h0 [] h.cells.length
      default 0 fuel from_ hy (fun q hq => hfr0 q (by omega)) hseg0 (by simp) (by simp)
      (by
        intro q hq1 hq2
        have : q = h.cells.length := by omega
        simp [this])
      (by omega) hfail0 hf
  simp only [List.nil_append, List.map_cons, List.mem_cons, forall_eq_or_imp]
    at hseg1 hnd1 hge1 hcov1
  obtain ⟨_, nx, hrt1, hsegn⟩ := hseg1
  obtain ⟨h2, hdtor, hlen2, hlim2, hdead0, hdead, hfr2⟩ :=
    dtor_spec ⟨h.cells.length, sz1⟩ newn hrt1 hsegn hnd1
  refine ⟨h2, ?_, by omega, by omega, by omega, ?_, ?_⟩
  · simp [Throwing.Assign, SingleLinkedList.default_ctor, hnew, hloop, hdtor]
  · intro q hq
    have hq2 : q ∉ newn.map Prod.fst := by
      intro hmem
      have := hge1.2 q hmem
      omega
    rw [hfr2 q (by simp only; omega) hq2, hstab1 q hq]
  · intro q hq
    by_cases hql : q < h2.cells.length
    · rcases hcov1 q hq (by omega) with hqh | hqn
      · rw [hqh]
        exact hdead0
      · exact hdead q hqn
    · exact read_ge (by omega)

theorem throwing_copy_ctor_thrown [Inhabited α] (copy_ok : α → Bool) {h : Heap α}
    (junk : Nat) {other : SingleLinkedList} {os : List (Nat × α)}
    (hle : h.cells.length ≤ h.limit) (haddr : h.cells.length + 2 ≤ ADDR_LIMIT)
    (hother : Repr h other os)
    (hfail : h.limit < h.cells.length + os.length ∨
      ADDR_LIMIT < h.cells.length + os.length + 2 ∨
      ∃ x ∈ os.map Prod.snd, copy_ok x = false) :
    ∃ h4, Throwing.copy_ctor copy_ok h junk other = .thrown h4 ⟨h.cells.length, junk⟩ ∧
      h4.cells.length ≤ h4.limit ∧ h4.limit ≤ ADDR_LIMIT ∧
      h.cells.length ≤ h4.cells.length ∧
      (∀ q, q < h.cells.length → h4.read q = h.read q) ∧
      (∀ q, h.cells.length ≤ q → h4.read q = none) := by
  have holen := repr_length_lt hother
  obtain ⟨⟨ov, hoseg⟩, _, _⟩ := hother
  have holt := seg_addr_lt _ _ _ hoseg
  obtain ⟨_, onx, hro, hosegn⟩ := hoseg
  obtain ⟨h0, hnew, hlim0, hlen0, hr0, hfr0⟩ :=
    place_spec (h := h) ⟨(default : α), none⟩ (by omega)
  have hro0 : h0.read other.head_ = some ⟨ov, onx⟩ := by
    rw [hfr0 _ (by have := read_lt hro; omega)]; exact hro
  have hoseg0 : Seg h0 onx os none := by
    apply seg_frame os onx none _ hosegn
    intro q hq
    have := holt q (by simp; exact Or.inr (by simpa using hq))
    exact hfr0 q (by omega)
  have hy := yields_list h0 h0.cells.length os onx hoseg0 (by
    intro q hq
    have := holt q (by simp; exact Or.inr (by simpa using hq))
    omega)
  have hfail0 : h0.limit < h0.cells.length + (os.map Prod.snd).length ∨
      ADDR_LIMIT < h0.cells.length + 1 + (os.map Prod.snd).length ∨
      ∃ x ∈ os.map Prod.snd, copy_ok x = false := by
    simp only [List.length_map]
    rcases hfail with hfail | hfail | hfail
    · left; omega
    · right; left; omega
    · right; right; exact hfail
  obtain ⟨h3, hassign, hlim3, hlen3, hle3, hfr3, hdead3⟩ :=
    throwing_Assign_thrown copy_ok list_iterator (BasicIterator.mk none) ⟨onx⟩
      (h.cells.length + 1) (h := h0) ⟨h.cells.length, junk⟩ (os.map Prod.snd) (by omega)
      (by omega) hy hfail0 (by simp; omega)
  have hra3 : h3.read h.cells.length = some ⟨default, none⟩ := by
    rw [hfr3 _ (by omega)]; exact hr0
  obtain ⟨h4, hdel, hlim4, hlen4, hdead4, hfr4⟩ := delete_spec hra3
  refine ⟨h4, ?_, by omega, by omega, by omega, ?_, ?_⟩
  · simp [Throwing.copy_ctor, hnew, SingleLinkedList.cbegin, hro0,
      SingleLinkedList.cend, hassign, hdel]
  · intro q hq
    rw [hfr4 q (by omega), hfr3 q (by omega), hfr0 q (by omega)]
  · intro q hq
    by_cases hqc : q = h.cells.length
    · rw [hqc]
      exact hdead4
    · rw [hfr4 q hqc]
      exact hdead3 q (by omega)

/-! ## A constructor returns only when there was room -/

theorem init_ctor_ok_room [Inhabited α] {h h1 : Heap α} {l : SingleLinkedList} (junk : Nat)
    (values : List α) (hle : h.cells.length ≤ h.limit)
    (hrun : SingleLinkedList.init_ctor h junk values = .ok h1 l) :
    h.cells.length + values.length ≤ h.limit ∧
      h.cells.length + values.length + 2 ≤ ADDR_LIMIT := by
  by_contra hno
  by_cases ha : h.cells.length < ADDR_LIMIT
  · obtain ⟨h0, hnew, hlim0, hlen0, hr0, hfr0⟩ :=
      place_spec (h := h) ⟨(default : α), none⟩ ha
    by_cases ha1 : h0.cells.length < ADDR_LIMIT
    · obtain ⟨h3, hassign, _⟩ :=
        throwing_Assign_thrown (fun _ => true) (array_iterator values) values.length 0
          (values.length + 1) (h := h0) ⟨h.cells.length, junk⟩ values (by omega) ha1
          (yields_array values h0 _ values 0 (by omega) rfl)
          (by
            by_cases hl : h0.limit < h0.cells.length + values.length
            · exact Or.inl hl
            · exact Or.inr (Or.inl (by omega)))
          (by omega)
      rw [throwing_Assign_true] at hassign
      simp only [SingleLinkedList.init_ctor, hnew, hassign] at hrun
      split at hrun <;> cases hrun
    · simp [SingleLinkedList.init_ctor, hnew, SingleLinkedList.Assign,
        SingleLinkedList.default_ctor, place_full _ ha1] at hrun
  · simp [SingleLinkedList.init_ctor, place_full _ ha] at hrun

theorem copy_ctor_ok_room [Inhabited α] {h h1 : Heap α} {l : SingleLinkedList} (junk : Nat)
    {other : SingleLinkedList} {os : List (Nat × α)} (hle : h.cells.length ≤ h.limit)
    (hother : Repr h other os)
    (hrun : SingleLinkedList.copy_ctor h junk other = .ok h1 l) :
    h.cells.length + os.length ≤ h.limit ∧
      h.cells.length + os.length + 2 ≤ ADDR_LIMIT := by
  by_contra hno
  by_cases ha : h.cells.length + 2 ≤ ADDR_LIMIT
  · obtain ⟨h4, hcall, _⟩ :=
      throwing_copy_ctor_thrown (fun _ => true) junk hle ha hother
        (by
          by_cases hl : h.limit < h.cells.length + os.length
          · exact Or.inl hl
          · exact Or.inr (Or.inl (by omega)))
    rw [throwing_copy_ctor_true, hrun] at hcall
    cases hcall
  · by_cases ha0 : h.cells.length < ADDR_LIMIT
    · obtain ⟨h0, hnew, hlim0, hlen0, hr0, hfr0⟩ :=
        place_spec (h := h) ⟨(default : α), none⟩ ha0
      have ha1 : ¬ h0.cells.length < ADDR_LIMIT := by omega
      simp only [SingleLinkedList.copy_ctor, hnew] at hrun
      cases hb : other.cbegin h0 with
      | none => simp [hb] at hrun
      | some b =>
        simp [hb, SingleLinkedList.Assign, SingleLinkedList.default_ctor,
          place_full _ ha1] at hrun
    · simp [SingleLinkedList.copy_ctor, place_full _ ha0] at hrun

/-! ## Well-formedness is kept -/

theorem constructed_wf [Inhabited α] {h : Heap α} {l : SingleLinkedList}
    (hc : Constructed h l) : WF h l := by
  cases hc with
  | @default_ctor h0 _ _ hok hrun =>
    by_cases haddr : h0.cells.length < ADDR_LIMIT
    · obtain ⟨h1, hcall, hok1, _, _, hrep, _⟩ := default_ctor_spec (α := α) hok haddr
      rw [hcall] at hrun
      cases hrun
      exact ⟨hok1, [], hrep⟩
    · simp [SingleLinkedList.default_ctor, place_full _ haddr] at hrun
  | @init_ctor h0 _ _ junk values hok hrun =>
    obtain ⟨hroom, haddr⟩ := init_ctor_ok_room junk values hok.1 hrun
    obtain ⟨h3, ns, hcall, hok3, _, _, hrep, _⟩ := init_ctor_spec junk values hroom haddr
    rw [hcall] at hrun
    cases hrun
    exact ⟨hok3, ns, hrep⟩
  | @copy_ctor h0 _ _ junk other hwf hrun =>
    obtain ⟨hok, os, hother⟩ := hwf
    obtain ⟨hroom, haddr⟩ := copy_ctor_ok_room junk hok.1 hother hrun
    obtain ⟨h3, ns, hcall, hok3, _, _, hrep, _⟩ := copy_ctor_spec junk hother hroom haddr
    rw [hcall] at hrun
    cases hrun
    exact ⟨hok3, ns, hrep⟩

theorem EraseAfter_last {h : Heap α} {l : SingleLinkedList} {p : Nat} {pv : α}
    (hr : h.read p = some ⟨pv, none⟩) :
    l.EraseAfter h ⟨some p⟩ = .ok h (l, l.end) := by
  simp only [SingleLinkedList.EraseAfter, hr]
  split <;> rfl

theorem step_frame {h h2 : Heap α} {l l2 : SingleLinkedList} {ns : List (Nat × α)}
    (op : Op α) (hok : HeapOK h) (hrep : Repr h l ns) (hadm : op.admissible h l)
    (hrun : op.run h l = .ok h2 l2) :
    ∃ ns2, HeapOK h2 ∧ Repr h2 l2 ns2 ∧ l2.head_ = l.head_ ∧
      h.cells.length ≤ h2.cells.length ∧
      (∀ q ∈ ns2.map Prod.fst, q ∈ ns.map Prod.fst ∨ h.cells.length ≤ q) ∧
      (∀ q, q < h.cells.length → q ≠ l.head_ → q ∉ ns.map Prod.fst →
        h2.read q = h.read q) := by
  have hkeep : ∃ ns2, HeapOK h ∧ Repr h l ns2 ∧ l.head_ = l.head_ ∧
      h.cells.length ≤ h.cells.length ∧
      (∀ q ∈ ns2.map Prod.fst, q ∈ ns.map Prod.fst ∨ h.cells.length ≤ q) ∧
      (∀ q, q < h.cells.length → q ≠ l.head_ → q ∉ ns.map Prod.fst →
        h.read q = h.read q) :=
    ⟨ns, hok, hrep, rfl, le_refl _, fun q hq => Or.inl hq, fun _ _ _ _ => rfl⟩
  cases op with
  | PushFront v =>
    simp only [Op.run] at hrun
    by_cases hroom : h.cells.length < h.limit
    · obtain ⟨h3, hcall, hok3, hlen3, _, hrep3, hfr3⟩ := PushFront_repr v hok hroom hrep
      rw [hcall] at hrun
      cases hrun
      refine ⟨_, hok3, hrep3, rfl, by omega, ?_, fun q hq1 hq2 _ => hfr3 q hq2 (by omega)⟩
      intro q hq
      simp only [List.map_cons, List.mem_cons] at hq
      rcases hq with hq | hq
      · exact Or.inr (by omega)
      · exact Or.inl hq
    · obtain ⟨⟨hv, _, nx, hrh, _⟩, _, _⟩ := hrep
      simp [SingleLinkedList.PushFront, hrh, new_Node_full v nx hroom] at hrun
  | InsertAfter pos v =>
    obtain ⟨hpos, i, hadv⟩ := hadm
    obtain ⟨pn⟩ := pos
    cases pn with
    | none => exact absurd rfl hpos
    | some p =>
      have hidx := repr_cursor hrep hadv rfl
      simp only [Op.run] at hrun
      by_cases hroom : h.cells.length < h.limit
      · obtain ⟨h3, hcall, hok3, hlen3, _, hrep3, hfr3, _⟩ :=
          InsertAfter_repr v hok hroom hrep hidx
        rw [hcall] at hrun
        cases hrun
        refine ⟨_, hok3, hrep3, rfl, by omega, ?_, ?_⟩
        · intro q hq
          simp only [List.map_append, List.map_cons, List.mem_append, List.mem_cons,
            List.map_take, List.map_drop] at hq
          rcases hq with hq | hq | hq
          · exact Or.inl (List.mem_of_mem_take hq)
          · exact Or.inr (by omega)
          · exact Or.inl (List.mem_of_mem_drop hq)
        · intro q hq1 hq2 hq3
          apply hfr3 q _ (by omega)
          intro heq
          subst heq
          have := List.getElem?_mem hidx
          simp only [List.mem_cons] at this
          rcases this with h1 | h1
          · exact hq2 h1
          · exact hq3 h1
      · obtain ⟨⟨hv, hseg⟩, _, _⟩ := hrep
        obtain ⟨pv, hget⟩ := map_fst_get ((l.head_, hv) :: ns) i p (by simpa using hidx)
        have hr := seg_read_next _ _ i p pv hseg hget
        simp [SingleLinkedList.InsertAfter, BasicIterator.incr, hr,
          new_Node_full v _ hroom] at hrun
  | PopFront =>
    simp only [Op.run] at hrun
    by_cases hne : ns = []
    · have hsz : l.size_ = 0 := by rw [hrep.2.2, hne]; rfl
      simp only [SingleLinkedList.PopFront, SingleLinkedList.IsEmpty, hsz, decide_True,
        if_true, Outcome.ok.injEq] at hrun
      obtain ⟨h1, h2⟩ := hrun
      subst h1; subst h2
      exact hkeep
    · obtain ⟨h3, r, hr0, hcall, _, hok3, hlen3, _, hrep3, _, hfr3⟩ := PopFront_repr hok hrep hne
      rw [hcall] at hrun
      cases hrun
      refine ⟨_, hok3, hrep3, rfl, by omega, ?_, ?_⟩
      · intro q hq
        exact Or.inl (List.mem_of_mem_tail (by simpa using hq))
      · intro q _ hq2 hq3
        apply hfr3 q hq2
        intro heq
        subst heq
        exact hq3 (List.getElem?_mem hr0)
  | EraseAfter pos =>
    simp only [Op.run] at hrun
    rcases hadm with ⟨hpos, i, hadv⟩ | hend
    · obtain ⟨pn⟩ := pos
      cases pn with
      | none => exact absurd rfl hpos
      | some p =>
        have hidx := repr_cursor hrep hadv rfl
        by_cases hi : i < ns.length
        · obtain ⟨h3, r, hri, hcall, hok3, hlen3, _, hrep3, _, hfr3⟩ :=
            EraseAfter_repr hok hrep hidx hi
          rw [hcall] at hrun
          cases hrun
          refine ⟨_, hok3, hrep3, rfl, by omega, ?_, ?_⟩
          · intro q hq
            simp only [List.map_append, List.mem_append, List.map_take, List.map_drop] at hq
            rcases hq with hq | hq
            · exact Or.inl (List.mem_of_mem_take hq)
            · exact Or.inl (List.mem_of_mem_drop hq)
          · intro q _ hq2 hq3
            apply hfr3 q
            · intro heq
              subst heq
              have := List.getElem?_mem hidx
              simp only [List.mem_cons] at this
              rcases this with h1 | h1
              · exact hq2 h1
              · exact hq3 h1
            · intro heq
              subst heq
              exact hq3 (List.getElem?_mem hri)
        · obtain ⟨⟨hv, hseg⟩, _, _⟩ := id hrep
          obtain ⟨pv, hget⟩ := map_fst_get ((l.head_, hv) :: ns) i p (by simpa using hidx)
          have hr := seg_read_next _ _ i p pv hseg hget
          have hnone : (((l.head_, hv) :: ns).map Prod.fst)[i + 1]? = none := by
            apply List.getElem?_eq_none
            simp
            omega
          rw [hnone] at hr
          rw [EraseAfter_last hr] at hrun
          simp only [Outcome.ok.injEq] at hrun
          obtain ⟨h1, h2⟩ := hrun
          subst h1; subst h2
          exact hkeep
    · subst hend
      have hcall : l.EraseAfter h l.end = .ok h (l, l.end) := by
        simp only [SingleLinkedList.EraseAfter, SingleLinkedList.end, SingleLinkedList.cend]
        split <;> rfl
      rw [hcall] at hrun
      simp only [Outcome.ok.injEq] at hrun
      obtain ⟨h1, h2⟩ := hrun
      subst h1; subst h2
      exact hkeep
  | Clear =>
    simp only [Op.run] at hrun
    obtain ⟨h3, hcall, hok3, hlen3, _, hrep3, _, hfr3⟩ := Clear_repr hok hrep
    rw [hcall] at hrun
    cases hrun
    exact ⟨[], hok3, hrep3, rfl, by omega, by simp, fun q _ hq2 hq3 => hfr3 q hq2 hq3⟩

theorem mutates_frame {h h2 : Heap α} {b b2 a : SingleLinkedList} {nsa nsb : List (Nat × α)}
    (hm : Mutates h b h2 b2) (hok : HeapOK h) (hb : Repr h b nsb) (ha : Repr h a nsa)
    (hdisj : ∀ q ∈ a.head_ :: nsa.map Prod.fst, q ∉ b.head_ :: nsb.map Prod.fst) :
    ∃ nsb2, HeapOK h2 ∧ Repr h2 b2 nsb2 ∧ Repr h2 a nsa ∧
      (∀ q ∈ a.head_ :: nsa.map Prod.fst, q ∉ b2.head_ :: nsb2.map Prod.fst) := by
  induction hm with
  | refl => exact ⟨nsb, hok, hb, ha, hdisj⟩
  | @step h1 h3 l1 l3 op _ hadm hrun ih =>
    obtain ⟨ns1, hok1, hb1, ha1, hdisj1⟩ := ih
    obtain ⟨ns3, hok3, hb3, hhead, hlen, hsub, hfr⟩ := step_frame op hok1 hb1 hadm hrun
    obtain ⟨⟨av, haseg⟩, hand, hasz⟩ := ha1
    have halt := seg_addr_lt _ _ _ haseg
    refine ⟨ns3, hok3, hb3, ⟨⟨av, ?_⟩, hand, hasz⟩, ?_⟩
    · apply seg_frame _ _ _ _ haseg
      intro q hq
      have hq1 : q ∈ a.head_ :: nsa.map Prod.fst := by simpa using hq
      have hnot := hdisj1 q hq1
      simp only [List.mem_cons, not_or] at hnot
      exact hfr q (halt q hq) hnot.1 hnot.2
    · intro q hq
      have hnot := hdisj1 q hq
      have hqlt : q < h1.cells.length := halt q (by simpa using hq)
      simp only [List.mem_cons, not_or] at hnot ⊢
      refine ⟨by rw [hhead]; exact hnot.1, ?_⟩
      intro hmem
      rcases hsub q hmem with h5 | h5
      · exact hnot.2 h5
      · omega

theorem mutates_wf {h h2 : Heap α} {l l2 : SingleLinkedList} (hm : Mutates h l h2 l2)
    (hwf : WF h l) : WF h2 l2 := by
  induction hm with
  | refl => exact hwf
  | step op _ hadm hrun ih =>
    obtain ⟨hok1, ns1, hb1⟩ := ih
    obtain ⟨ns3, hok3, hb3, _⟩ := step_frame op hok1 hb1 hadm hrun
    exact ⟨hok3, ns3, hb3⟩

theorem repr_begin {h : Heap α} {l : SingleLinkedList} {ns : List (Nat × α)}
    (hrep : Repr h l ns) : l.begin h = some ⟨(ns.map Prod.fst)[0]?⟩ := by
  obtain ⟨⟨hv, hseg⟩, _, _⟩ := hrep
  have hr := seg_read_next _ _ 0 l.head_ hv hseg (by simp)
  simp only [SingleLinkedList.begin, SingleLinkedList.cbegin, hr]
  simp

theorem advance_succ (h : Heap α) :
    ∀ (k : Nat) (it it1 : BasicIterator), advance h k it = some it1 →
      advance h (k + 1) it = it1.incr h := by
  intro k
  induction k with
  | zero =>
    intro it it1 hk
    simp only [advance, Option.some.injEq] at hk
    subst hk
    simp only [advance]
    cases it.incr h <;> rfl
  | succ n ih =>
    intro it it1 hk
    simp only [advance] at hk ⊢
    cases hinc : it.incr h with
    | none => rw [hinc] at hk; simp at hk
    | some it2 =>
      rw [hinc] at hk
      simp only at hk ⊢
      exact ih it2 it1 hk

theorem wf_list123 : WF heap123 list123 :=
  ⟨⟨by decide, by decide⟩, [(2, 1), (3, 2), (4, 3)],
    ⟨0, rfl, some 2, rfl, rfl, some 3, rfl, rfl, some 4, rfl, rfl, none, rfl, rfl⟩,
    by decide, rfl⟩

theorem wf_list5 : WF heap5 list5 :=
  ⟨⟨by decide, by decide⟩, [(1, 5)], ⟨0, rfl, some 1, rfl, rfl, none, rfl, rfl⟩,
    by decide, rfl⟩

theorem wf_listE : WF heapE listE :=
  ⟨⟨by decide, by decide⟩, [], ⟨0, rfl, none, rfl, rfl⟩, by decide, rfl⟩

/-! ## The claims -/

/-- C1: a list constructed from the initializer list `S` (the constructor calls `Assign`)
is well formed, its traversal from `begin()` to `end()` yields exactly `S` in the original
order, `GetSize()` is the length of `S`, and for the empty `S` `begin()` equals `end()`.
The constructor returns whenever the free store has room for the nodes and two more,
whatever the uninitialised `size_` held. -/
theorem C1_init_ctor_reproduces [Inhabited α] (h : Heap α) (junk : Nat) (S : List α)
    (hok : HeapOK h) (hroom : h.cells.length + S.length + 2 ≤ h.limit) :
    ∃ h1 l, SingleLinkedList.init_ctor h junk S = .ok h1 l ∧ WF h1 l ∧
      l.elements h1 = some S ∧ l.GetSize = S.length ∧
      (S = [] → l.begin h1 = some l.end) := by
  obtain ⟨h3, ns, hcall, hok3, _, _, hrep, hval, _, _⟩ :=
    init_ctor_spec (h := h) junk S (by omega) (by have := hok.2; omega)
  refine ⟨h3, _, hcall, ⟨hok3, ns, hrep⟩, ?_, rfl, ?_⟩
  · rw [repr_elements hrep, hval]
  · intro hS
    subst hS
    have hns : ns = [] := by simpa using hval
    subst hns
    rw [repr_begin hrep]
    rfl

theorem C1_init_ctor_reproduces_witness :
    HeapOK heap0 ∧ heap0.cells.length + [1, 2, 3].length + 2 ≤ heap0.limit ∧
      ∃ h1 l, SingleLinkedList.init_ctor heap0 7 [1, 2, 3] = .ok h1 l ∧ WF h1 l ∧
        l.elements h1 = some [1, 2, 3] ∧ l.GetSize = [1, 2, 3].length ∧
        (([1, 2, 3] : List Nat) = [] → l.begin h1 = some l.end) :=
  ⟨⟨by decide, by decide⟩, by decide,
    C1_init_ctor_reproduces heap0 7 [1, 2, 3] ⟨by decide, by decide⟩ (by decide)⟩

theorem mutates_list49 : Mutates heap123 list123 heap49 list49 :=
  Mutates.step (.InsertAfter ⟨some 0⟩ 4)
    (Mutates.step (.EraseAfter ⟨some 0⟩)
      (Mutates.step .PopFront
        (Mutates.step (.PushFront 6)
          (Mutates.step (.InsertAfter ⟨some 5⟩ 9)
            (Mutates.step (.PushFront 5)
              (Mutates.step .Clear Mutates.refl trivial rfl)
              trivial rfl)
            ⟨by decide, 1, rfl⟩ rfl)
          trivial rfl)
        trivial rfl)
      (Or.inl ⟨by decide, 0, rfl⟩) rfl)
    ⟨by decide, 0, rfl⟩ rfl

theorem reachable_list49 : Reachable heap49 list49 :=
  ⟨heap123, list123, Constructed.init_ctor heap0 7 [1, 2, 3] ⟨by decide, by decide⟩ rfl,
    mutates_list49⟩

/-- C2, as stated, fails: the list `{4, 9}` of `heap49` is reached from the constructed
`{1, 2, 3}` by `Clear`, `PushFront`, `InsertAfter`, `PushFront`, `PopFront`, `EraseAfter` and
`InsertAfter`, its `GetSize()` is 2, and two hops from the sentinel reach the node of 9 in
cell 6, not the end cursor; the end cursor is reached by the third hop. -/
theorem C2_hops_from_sentinel_counterexample :
    Reachable heap49 list49 ∧ list49.GetSize = 2 ∧
      advance heap49 list49.GetSize list49.before_begin = some ⟨some 6⟩ ∧
      advance heap49 list49.GetSize list49.before_begin ≠ some list49.end ∧
      advance heap49 (list49.GetSize + 1) list49.before_begin = some list49.end :=
  ⟨reachable_list49, rfl, rfl, by decide, rfl⟩

/-- C2: in every state a constructed list (default, initializer-list or copy constructor)
reaches by a finite sequence of `PushFront`, `InsertAfter`, `PopFront`, `EraseAfter` and
`Clear` calls with cursors into the list, `GetSize()` is the number of elements the traversal
from `begin()` to `end()` visits; `begin()` reaches `end()` after exactly `GetSize()`
increments and not earlier; and `GetSize()` hops from the sentinel reach a node, the last
one of the chain, which has no link: the end cursor is one hop further. -/
theorem C2_size_invariant [Inhabited α] (h : Heap α) (l : SingleLinkedList)
    (hreach : Reachable h l) :
    ∃ L b, l.elements h = some L ∧ l.GetSize = L.length ∧
      l.begin h = some b ∧ advance h l.GetSize b = some l.end ∧
      (∀ k, k < l.GetSize → advance h k b ≠ some l.end) ∧
      ∃ last, advance h l.GetSize l.before_begin = some last ∧ last.node_ ≠ none ∧
        last.incr h = some l.end := by
  obtain ⟨h0, l0, hc, hm⟩ := hreach
  obtain ⟨_, ns, hrep⟩ := mutates_wf hm (constructed_wf hc)
  have hsz : l.size_ = ns.length := hrep.2.2
  obtain ⟨hv, hseg⟩ := hrep.1
  have hsegn : Seg h ((ns.map Prod.fst)[0]?) ns none := by
    have hr3 := seg_read_next _ _ 0 l.head_ hv hseg (by simp)
    obtain ⟨_, nx, hr, hsegn⟩ := hseg
    rw [hr] at hr3
    simp only [Option.some.injEq, Node.mk.injEq, true_and] at hr3
    simp only [List.map_cons, zero_add, List.getElem?_cons_succ] at hr3
    rw [← hr3]
    exact hsegn
  refine ⟨ns.map Prod.snd, ⟨(ns.map Prod.fst)[0]?⟩, repr_elements hrep,
    by simp [SingleLinkedList.GetSize, hsz], repr_begin hrep, ?_, ?_, ?_⟩
  · rw [SingleLinkedList.GetSize, hsz, seg_advance ns _ ns.length hsegn (le_refl _)]
    have : (ns.map Prod.fst)[ns.length]? = none := List.getElem?_eq_none (by simp)
    rw [this]
    rfl
  · intro k hk
    rw [SingleLinkedList.GetSize, hsz] at hk
    rw [seg_advance ns _ k hsegn (by omega)]
    have hlt : k < (ns.map Prod.fst).length := by simpa using hk
    rw [List.getElem?_eq_getElem hlt]
    simp [SingleLinkedList.end, SingleLinkedList.cend]
  · have hadv := repr_advance hrep ns.length (by omega)
    have hlt : ns.length < (l.head_ :: ns.map Prod.fst).length := by simp
    rw [List.getElem?_eq_getElem hlt] at hadv
    refine ⟨_, by rw [SingleLinkedList.GetSize, hsz]; exact hadv, by simp, ?_⟩
    have hadv1 := repr_advance hrep (ns.length + 1) (by omega)
    rw [advance_succ h _ _ _ hadv] at hadv1
    rw [hadv1]
    have : (l.head_ :: ns.map Prod.fst)[ns.length + 1]? = none :=
      List.getElem?_eq_none (by simp)
    rw [this]
    rfl

theorem C2_size_invariant_witness :
    Reachable heap49 list49 ∧
      ∃ L b, list49.elements heap49 = some L ∧ list49.GetSize = L.length ∧
        list49.begin heap49 = some b ∧
        advance heap49 list49.GetSize b = some list49.end ∧
        (∀ k, k < list49.GetSize → advance heap49 k b ≠ some list49.end) ∧
        ∃ last, advance heap49 list49.GetSize list49.before_begin = some last ∧
          last.node_ ≠ none ∧ last.incr heap49 = some list49.end :=
  ⟨reachable_list49, C2_size_invariant heap49 list49 reachable_list49⟩

/-- C3: on a list with element sequence `L`, `PushFront(v)` returns (when the heap has
room for one node), the traversal then yields `v` followed by `L` in the original order, and
`GetSize()` is one more than before. -/
theorem C3_PushFront (h : Heap α) (l : SingleLinkedList) (v : α) (L : List α)
    (hwf : WF h l) (hroom : h.cells.length < h.limit) (hL : l.elements h = some L) :
    ∃ h1 l1, l.PushFront h v = .ok h1 l1 ∧ WF h1 l1 ∧
      l1.elements h1 = some (v :: L) ∧ l1.GetSize = l.GetSize + 1 := by
  obtain ⟨hok, ns, hrep⟩ := hwf
  have hLns : L = ns.map Prod.snd := by
    rw [repr_elements hrep] at hL
    exact (Option.some.inj hL).symm
  obtain ⟨h2, hcall, hok2, _, _, hrep2, _⟩ := PushFront_repr v hok hroom hrep
  refine ⟨h2, _, hcall, ⟨hok2, _, hrep2⟩, ?_, rfl⟩
  rw [repr_elements hrep2, hLns]
  rfl

theorem C3_PushFront_witness :
    WF heap5 list5 ∧ heap5.cells.length < heap5.limit ∧ list5.elements heap5 = some [5] ∧
      listE.PushFront heapE 5 = .ok heap5 list5 ∧
      ∃ h1 l1, list5.PushFront heap5 6 = .ok h1 l1 ∧ WF h1 l1 ∧
        l1.elements h1 = some [6, 5] ∧ l1.GetSize = list5.GetSize + 1 :=
  ⟨wf_list5, by decide, rfl, rfl, C3_PushFront heap5 list5 6 [5] wf_list5 (by decide) rfl⟩

/-- C4: let `pos` reference a node of the list, the one reached from `before_begin()` by `i`
increments (`i = 0` is the sentinel). Then `InsertAfter(pos, v)` returns (when the heap has
room for one node); the new element sequence is the first `i` elements, which are those up
to and including the node of `pos`, then `v`, then the elements that followed `pos`;
`GetSize()` grows by exactly one; and the returned cursor dereferences to `v`, advancing it
reaches what followed `pos` before the call, and it is the node right after `pos` in the new
list. -/
theorem C4_InsertAfter (h : Heap α) (l : SingleLinkedList) (pos : BasicIterator) (v : α)
    (L : List α) (i : Nat) (hwf : WF h l) (hroom : h.cells.length < h.limit)
    (hL : l.elements h = some L) (hpos : advance h i l.before_begin = some pos)
    (hnode : pos.node_ ≠ none) :
    ∃ h1 l1 it, l.InsertAfter h pos v = .ok h1 (l1, it) ∧ WF h1 l1 ∧ i ≤ L.length ∧
      l1.elements h1 = some (L.take i ++ v :: L.drop i) ∧
      l1.GetSize = l.GetSize + 1 ∧
      it.deref h1 = some v ∧ it.incr h1 = pos.incr h ∧
      advance h1 (i + 1) l1.before_begin = some it := by
  obtain ⟨hok, ns, hrep⟩ := hwf
  have hLns : L = ns.map Prod.snd := by
    rw [repr_elements hrep] at hL
    exact (Option.some.inj hL).symm
  obtain ⟨pn⟩ := pos
  cases pn with
  | none => exact absurd rfl hnode
  | some p =>
    have hidx := repr_cursor hrep hpos rfl
    have hi : i ≤ ns.length := by
      have := (List.getElem?_eq_some.1 hidx).1
      simp at this
      omega
    obtain ⟨h2, hcall, hok2, _, _, hrep2, _, hinc⟩ := InsertAfter_repr v hok hroom hrep hidx
    have hnew : (l.head_ :: (ns.take i ++ (h.cells.length, v) :: ns.drop i).map Prod.fst)[i + 1]?
        = some h.cells.length := by
      simp only [List.getElem?_cons_succ, List.map_append, List.map_cons]
      rw [List.getElem?_append_right (by simp [List.length_take])]
      simp [List.length_take, Nat.min_eq_left hi]
    refine ⟨h2, _, _, hcall, ⟨hok2, _, hrep2⟩, by simpa [hLns] using hi, ?_, rfl, ?_, hinc, ?_⟩
    · rw [repr_elements hrep2, hLns]
      simp [List.map_take, List.map_drop]
    · obtain ⟨hv, hseg2⟩ := hrep2.1
      obtain ⟨w, hget⟩ := map_fst_get _ (i + 1) h.cells.length
        (show (((l.head_, hv) :: (ns.take i ++ (h.cells.length, v) :: ns.drop i)).map
          Prod.fst)[i + 1]? = some h.cells.length by simpa using hnew)
      have hwv : w = v := by
        simp only [List.getElem?_cons_succ] at hget
        rw [List.getElem?_append_right (by simp [List.length_take])] at hget
        simp [List.length_take, Nat.min_eq_left hi] at hget
        exact hget.symm
      subst hwv
      have hr := seg_read_next _ _ (i + 1) h.cells.length w hseg2 hget
      simp [BasicIterator.deref, hr]
    · rw [repr_advance hrep2 (i + 1) (by simp [List.length_take, List.length_drop]; omega)]
      exact congrArg (fun x => some (BasicIterator.mk x)) hnew

theorem C4_InsertAfter_witness :
    WF heap123 list123 ∧ heap123.cells.length < heap123.limit ∧
      list123.elements heap123 = some [1, 2, 3] ∧
      list123.begin heap123 = some ⟨some 2⟩ ∧
      advance heap123 1 list123.before_begin = some ⟨some 2⟩ ∧
      (BasicIterator.mk (some 2)).node_ ≠ none ∧
      ∃ h1 l1 it, list123.InsertAfter heap123 ⟨some 2⟩ 9 = .ok h1 (l1, it) ∧ WF h1 l1 ∧
        1 ≤ [1, 2, 3].length ∧
        l1.elements h1 = some ([1, 2, 3].take 1 ++ 9 :: [1, 2, 3].drop 1) ∧
        l1.GetSize = list123.GetSize + 1 ∧
        it.deref h1 = some 9 ∧ it.incr h1 = (BasicIterator.mk (some 2)).incr heap123 ∧
        advance h1 (1 + 1) l1.before_begin = some it :=
  ⟨wf_list123, by decide, rfl, rfl, rfl, by decide,
    C4_InsertAfter heap123 list123 ⟨some 2⟩ 9 [1, 2, 3] 1 wf_list123 (by decide) rfl rfl
      (by decide)⟩

/-- C5: let `pos` reference the node of the list reached from `before_begin()` by `i`
increments, and let that node have a successor `nxt`. Then `EraseAfter(pos)` returns, it
removes exactly the element at index `i`, the one following `pos`, and keeps every other
element in its relative order; `GetSize()` goes down by exactly one; and the returned cursor
is what followed the removed node, the end cursor when the removed node was the last: it is
the increment of `nxt` before the call and the increment of `pos` after it. -/
theorem C5_EraseAfter (h : Heap α) (l : SingleLinkedList) (pos nxt : BasicIterator)
    (L : List α) (i : Nat) (hwf : WF h l) (hL : l.elements h = some L)
    (hpos : advance h i l.before_begin = some pos) (hnxt : pos.incr h = some nxt)
    (hsucc : nxt.node_ ≠ none) :
    ∃ h1 l1 it, l.EraseAfter h pos = .ok h1 (l1, it) ∧ WF h1 l1 ∧ i < L.length ∧
      l1.elements h1 = some (L.take i ++ L.drop (i + 1)) ∧
      l1.GetSize + 1 = l.GetSize ∧
      nxt.incr h = some it ∧ pos.incr h1 = some it ∧
      advance h1 (i + 1) l1.before_begin = some it := by
  obtain ⟨hok, ns, hrep⟩ := hwf
  have hLns : L = ns.map Prod.snd := by
    rw [repr_elements hrep] at hL
    exact (Option.some.inj hL).symm
  obtain ⟨pn⟩ := pos
  cases pn with
  | none => simp [BasicIterator.incr] at hnxt
  | some p =>
    have hidx := repr_cursor hrep hpos rfl
    obtain ⟨hv, hseg⟩ := hrep.1
    obtain ⟨pv, hget⟩ := map_fst_get ((l.head_, hv) :: ns) i p (by simpa using hidx)
    have hrp := seg_read_next _ _ i p pv hseg hget
    have hnxt2 : nxt = ⟨(((l.head_, hv) :: ns).map Prod.fst)[i + 1]?⟩ := by
      simp only [BasicIterator.incr, hrp, Option.some.injEq] at hnxt
      exact hnxt.symm
    have hi : i < ns.length := by
      by_contra hge
      have : (((l.head_, hv) :: ns).map Prod.fst)[i + 1]? = none :=
        List.getElem?_eq_none (by simp; omega)
      rw [this] at hnxt2
      exact hsucc (by rw [hnxt2])
    have hsz : l.size_ = ns.length := hrep.2.2
    obtain ⟨h2, r, hri, hcall, hok2, _, _, hrep2, _, _⟩ := EraseAfter_repr hok hrep hidx hi
    have hnxt3 : nxt = ⟨some r⟩ := by
      rw [hnxt2]
      simp only [List.map_cons, List.getElem?_cons_succ, hri]
    obtain ⟨rv, hgetr⟩ := map_fst_get ((l.head_, hv) :: ns) (i + 1) r (by simpa using hri)
    have hrr := seg_read_next _ _ (i + 1) r rv hseg hgetr
    have hadv := repr_advance hrep2 (i + 1)
      (by simp [List.length_take, List.length_drop]; omega)
    have hidx2 : (l.head_ :: (ns.take i ++ ns.drop (i + 1)).map Prod.fst)[i + 1]?
        = (ns.map Prod.fst)[i + 1]? := by
      simp only [List.getElem?_cons_succ, List.map_append, List.map_take, List.map_drop]
      rw [List.getElem?_append_right (by simp [List.length_take])]
      simp [List.length_take, Nat.min_eq_left (Nat.le_of_lt hi), List.getElem?_drop]
    rw [hidx2] at hadv
    have hadvi := repr_advance hrep2 i
      (by simp [List.length_take, List.length_drop]; omega)
    have hidxi : (l.head_ :: (ns.take i ++ ns.drop (i + 1)).map Prod.fst)[i]? = some p := by
      cases i with
      | zero => simpa using hidx
      | succ k =>
        simp only [List.getElem?_cons_succ] at hidx ⊢
        simp only [List.map_append, List.map_take, List.map_drop]
        rw [List.getElem?_append_left (by simp [List.length_take]; omega)]
        rw [List.getElem?_take]
        simp [hidx]
    rw [hidxi] at hadvi
    refine ⟨h2, _, _, hcall, ⟨hok2, _, hrep2⟩, by simpa [hLns] using hi, ?_, ?_, ?_, ?_, hadv⟩
    · rw [repr_elements hrep2, hLns]
      simp [List.map_take, List.map_drop]
    · simp only [SingleLinkedList.GetSize]
      omega
    · rw [hnxt3]
      simp [BasicIterator.incr, hrr]
    · rw [← advance_succ h2 i _ _ hadvi]
      exact hadv

theorem C5_EraseAfter_witness :
    WF heap123 list123 ∧ list123.elements heap123 = some [1, 2, 3] ∧
      advance heap123 1 list123.before_begin = some ⟨some 2⟩ ∧
      (BasicIterator.mk (some 2)).incr heap123 = some ⟨some 3⟩ ∧
      (BasicIterator.mk (some 3)).node_ ≠ none ∧
      ∃ h1 l1 it, list123.EraseAfter heap123 ⟨some 2⟩ = .ok h1 (l1, it) ∧ WF h1 l1 ∧
        1 < [1, 2, 3].length ∧
        l1.elements h1 = some ([1, 2, 3].take 1 ++ [1, 2, 3].drop (1 + 1)) ∧
        l1.GetSize + 1 = list123.GetSize ∧
        (BasicIterator.mk (some 3)).incr heap123 = some it ∧
        (BasicIterator.mk (some 2)).incr h1 = some it ∧
        advance h1 (1 + 1) l1.before_begin = some it :=
  ⟨wf_list123, rfl, rfl, rfl, by decide,
    C5_EraseAfter heap123 list123 ⟨some 2⟩ ⟨some 3⟩ [1, 2, 3] 1 wf_list123 rfl rfl rfl
      (by decide)⟩

/-- C6: `EraseAfter(pos)` returns the end cursor and leaves the heap and the list object as
they are, hence the element sequence and the size, whenever the list is empty, or `pos` is
the end cursor, or no node follows `pos` (the increment of `pos` is the end cursor). -/
theorem C6_EraseAfter_nothing_to_erase (h : Heap α) (l : SingleLinkedList)
    (pos : BasicIterator)
    (hcase : l.IsEmpty = true ∨ pos = l.end ∨ pos.incr h = some l.end) :
    l.EraseAfter h pos = .ok h (l, l.end) := by
  rcases hcase with hempty | hend | hlast
  · simp [SingleLinkedList.EraseAfter, hempty]
  · subst hend
    simp only [SingleLinkedList.EraseAfter, SingleLinkedList.end, SingleLinkedList.cend]
    split <;> rfl
  · obtain ⟨pn⟩ := pos
    cases pn with
    | none => simp [BasicIterator.incr] at hlast
    | some p =>
      simp only [BasicIterator.incr] at hlast
      cases hr : h.read p with
      | none => rw [hr] at hlast; simp at hlast
      | some n =>
        rw [hr] at hlast
        simp only [Option.some.injEq, SingleLinkedList.end, SingleLinkedList.cend,
          BasicIterator.mk.injEq] at hlast
        obtain ⟨nv, nn⟩ := n
        simp only at hlast
        subst hlast
        exact EraseAfter_last hr

theorem C6_EraseAfter_nothing_to_erase_witness :
    (list123.IsEmpty = true ∨ BasicIterator.mk (some 4) = list123.end ∨
        (BasicIterator.mk (some 4)).incr heap123 = some list123.end) ∧
      list123.EraseAfter heap123 ⟨some 4⟩ = .ok heap123 (list123, list123.end) :=
  ⟨Or.inr (Or.inr rfl),
    C6_EraseAfter_nothing_to_erase heap123 list123 ⟨some 4⟩ (Or.inr (Or.inr rfl))⟩

/-- C7: on every well-formed list, empty or not, `EraseAfter(before_begin())` and
`PopFront()` return in the same heap with the same list object, and the cursor `EraseAfter`
returns is `begin()` of that result. -/
theorem C7_EraseAfter_before_begin_is_PopFront (h : Heap α) (l : SingleLinkedList)
    (hwf : WF h l) :
    ∃ h1 l1 it, l.EraseAfter h l.before_begin = .ok h1 (l1, it) ∧
      l.PopFront h = .ok h1 l1 ∧ l1.begin h1 = some it := by
  obtain ⟨hok, ns, hrep⟩ := hwf
  by_cases hne : ns = []
  · subst hne
    have hsz : l.size_ = 0 := hrep.2.2
    refine ⟨h, l, l.end, ?_, ?_, ?_⟩
    · simp [SingleLinkedList.EraseAfter, SingleLinkedList.IsEmpty, hsz]
    · simp [SingleLinkedList.PopFront, SingleLinkedList.IsEmpty, hsz]
    · rw [repr_begin hrep]
      rfl
  · obtain ⟨h2, r, _, hpop, herase, _, _, _, hrep2, _, _⟩ := PopFront_repr hok hrep hne
    refine ⟨h2, _, _, herase, hpop, ?_⟩
    rw [repr_begin hrep2]
    cases ns with
    | nil => exact absurd rfl hne
    | cons x rest => simp

theorem C7_EraseAfter_before_begin_is_PopFront_witness :
    WF heap123 list123 ∧
      ∃ h1 l1 it, list123.EraseAfter heap123 list123.before_begin = .ok h1 (l1, it) ∧
        list123.PopFront heap123 = .ok h1 l1 ∧ l1.begin h1 = some it :=
  ⟨wf_list123, C7_EraseAfter_before_begin_is_PopFront heap123 list123 wf_list123⟩

/-- C8: `PopFront()` on an empty well-formed list returns without a fault and changes
neither the heap nor the list object: `GetSize()` is still 0, with no wrap-around of the
counter, and `begin()` still equals `end()`. -/
theorem C8_PopFront_empty (h : Heap α) (l : SingleLinkedList) (hwf : WF h l)
    (hempty : l.IsEmpty = true) :
    ∃ h1 l1, l.PopFront h = .ok h1 l1 ∧ h1 = h ∧ l1 = l ∧ l1.GetSize = 0 ∧
      l1.begin h1 = some l1.end ∧ l1.elements h1 = some [] := by
  obtain ⟨_, ns, hrep⟩ := hwf
  have hsz : l.size_ = 0 := by simpa [SingleLinkedList.IsEmpty] using hempty
  have hns : ns = [] := by
    have := hrep.2.2
    rw [hsz] at this
    exact List.length_eq_zero.1 this.symm
  subst hns
  refine ⟨h, l, ?_, rfl, rfl, hsz, ?_, ?_⟩
  · simp [SingleLinkedList.PopFront, hempty]
  · rw [repr_begin hrep]
    rfl
  · rw [repr_elements hrep]
    rfl

theorem C8_PopFront_empty_witness :
    WF heapE listE ∧ listE.IsEmpty = true ∧
      ∃ h1 l1, listE.PopFront heapE = .ok h1 l1 ∧ h1 = heapE ∧ l1 = listE ∧ l1.GetSize = 0 ∧
        l1.begin h1 = some l1.end ∧ l1.elements h1 = some [] :=
  ⟨wf_listE, rfl, C8_PopFront_empty heapE listE wf_listE rfl⟩

/-- C9: on every well-formed list `Clear()` returns, and afterwards `begin()` equals
`end()`, the traversal is empty, `IsEmpty()` is true and `GetSize()` is 0. -/
theorem C9_Clear (h : Heap α) (l : SingleLinkedList) (hwf : WF h l) :
    ∃ h1 l1, l.Clear h = .ok h1 l1 ∧ WF h1 l1 ∧ l1.begin h1 = some l1.end ∧
      l1.elements h1 = some [] ∧ l1.IsEmpty = true ∧ l1.GetSize = 0 := by
  obtain ⟨hok, ns, hrep⟩ := hwf
  obtain ⟨h2, hcall, hok2, _, _, hrep2, _, _⟩ := Clear_repr hok hrep
  refine ⟨h2, _, hcall, ⟨hok2, _, hrep2⟩, ?_, ?_, rfl, rfl⟩
  · rw [repr_begin hrep2]
    rfl
  · rw [repr_elements hrep2]
    rfl

theorem C9_Clear_witness :
    WF heap123 list123 ∧
      ∃ h1 l1, list123.Clear heap123 = .ok h1 l1 ∧ WF h1 l1 ∧ l1.begin h1 = some l1.end ∧
        l1.elements h1 = some [] ∧ l1.IsEmpty = true ∧ l1.GetSize = 0 :=
  ⟨wf_list123, C9_Clear heap123 list123 wf_list123⟩

/-- C10: the copy constructor applied to a well-formed list `a` with element sequence `La`
returns (when the free store has room for the nodes and two more) a well-formed list `b`
with the size of `a` and the element sequence `La`; `a` is well formed with the element
sequence `La` after the copy; and after any finite sequence of `PushFront`, `InsertAfter`,
`PopFront`, `EraseAfter` and `Clear` calls on `b` that return, with cursors into `b`, the
list `a` is still well formed with the element sequence `La` and its size. -/
theorem C10_copy_law [Inhabited α] (h : Heap α) (a : SingleLinkedList) (junk : Nat)
    (La : List α) (hwf : WF h a) (hLa : a.elements h = some La)
    (hroom : h.cells.length + a.GetSize + 2 ≤ h.limit) :
    ∃ h1 b, SingleLinkedList.copy_ctor h junk a = .ok h1 b ∧ WF h1 b ∧
      b.GetSize = a.GetSize ∧ b.elements h1 = some La ∧
      WF h1 a ∧ a.elements h1 = some La ∧
      ∀ h2 b2, Mutates h1 b h2 b2 →
        WF h2 a ∧ a.elements h2 = some La ∧ a.GetSize = La.length := by
  obtain ⟨hok, os, hrep⟩ := hwf
  have hLos : La = os.map Prod.snd := by
    rw [repr_elements hrep] at hLa
    exact (Option.some.inj hLa).symm
  have hsz : a.size_ = os.length := hrep.2.2
  have hroom1 : h.cells.length + os.length + 2 ≤ h.limit := by
    simpa [SingleLinkedList.GetSize, hsz] using hroom
  obtain ⟨h3, ns, hcall, hok3, _, _, hrepb, hval, hgt, hfr⟩ :=
    copy_ctor_spec junk hrep (by omega) (by have := hok.2; omega)
  obtain ⟨⟨av, haseg⟩, hand, _⟩ := id hrep
  have halt := seg_addr_lt _ _ _ haseg
  have hrepa : Repr h3 a os :=
    ⟨⟨av, seg_frame _ _ _ (fun q hq => hfr q (halt q hq)) haseg⟩, hand, hsz⟩
  have hdisj : ∀ q ∈ a.head_ :: os.map Prod.fst,
      q ∉ (SingleLinkedList.mk h.cells.length os.length).head_ :: ns.map Prod.fst := by
    intro q hq
    have hqlt : q < h.cells.length := halt q (by simpa using hq)
    simp only [List.mem_cons, not_or]
    refine ⟨by omega, ?_⟩
    intro hmem
    have := hgt q hmem
    omega
  refine ⟨h3, _, hcall, ⟨hok3, ns, hrepb⟩, by simp [SingleLinkedList.GetSize, hsz], ?_,
    ⟨hok3, os, hrepa⟩, ?_, ?_⟩
  · rw [repr_elements hrepb, hval, hLos]
  · rw [repr_elements hrepa, hLos]
  · intro h2 b2 hm
    obtain ⟨ns2, hok2, _, hrepa2, _⟩ := mutates_frame hm hok3 hrepb hrepa hdisj
    refine ⟨⟨hok2, os, hrepa2⟩, ?_, ?_⟩
    · rw [repr_elements hrepa2, hLos]
    · simp [SingleLinkedList.GetSize, hsz, hLos]

theorem C10_copy_law_witness :
    WF heap123 list123 ∧ list123.elements heap123 = some [1, 2, 3] ∧
      heap123.cells.length + list123.GetSize + 2 ≤ heap123.limit ∧
      ∃ h1 b, SingleLinkedList.copy_ctor heap123 9 list123 = .ok h1 b ∧ WF h1 b ∧
        b.GetSize = list123.GetSize ∧ b.elements h1 = some [1, 2, 3] ∧
        WF h1 list123 ∧ list123.elements h1 = some [1, 2, 3] ∧
        ∀ h2 b2, Mutates h1 b h2 b2 →
          WF h2 list123 ∧ list123.elements h2 = some [1, 2, 3] ∧
            list123.GetSize = [1, 2, 3].length :=
  ⟨wf_list123, rfl, by decide,
    C10_copy_law heap123 list123 9 [1, 2, 3] wf_list123 rfl (by decide)⟩

/-! ## The comparison operators -/

theorem seg_equal (eq : α → α → Bool) {h : Heap α} :
    ∀ (ns ms : List (Nat × α)) (p q : Option Nat) (fuel : Nat),
      Seg h p ns none → Seg h q ms none → ns.length < fuel →
      equal eq h fuel ⟨p⟩ ⟨none⟩ ⟨q⟩ ⟨none⟩
        = some (seq_equal eq (ns.map Prod.snd) (ms.map Prod.snd)) := by
  intro ns
  induction ns with
  | nil =>
    intro ms p q fuel hs1 hs2 hf
    have hp : p = none := hs1
    subst hp
    cases fuel with
    | zero => simp at hf
    | succ k =>
      cases ms with
      | nil =>
        have hq : q = none := hs2
        subst hq
        simp [equal, BasicIterator.ne, BasicIterator.eq, seq_equal]
      | cons y rest2 =>
        obtain ⟨b, w⟩ := y
        obtain ⟨hq, _⟩ := hs2
        subst hq
        simp [equal, BasicIterator.ne, BasicIterator.eq, seq_equal]
  | cons x rest ih =>
    intro ms p q fuel hs1 hs2 hf
    obtain ⟨a, v⟩ := x
    obtain ⟨hp, nx, hr, hrest⟩ := hs1
    subst hp
    cases fuel with
    | zero => simp at hf
    | succ k =>
      have hk : rest.length < k := by simpa using hf
      cases ms with
      | nil =>
        have hq : q = none := hs2
        subst hq
        simp [equal, BasicIterator.ne, BasicIterator.eq, seq_equal]
      | cons y rest2 =>
        obtain ⟨b, w⟩ := y
        obtain ⟨hq, nx2, hr2, hrest2⟩ := hs2
        subst hq
        have hrec := ih rest2 nx nx2 k hrest hrest2 hk
        by_cases he : eq v w = true
        · simp [equal, BasicIterator.ne, BasicIterator.deref, BasicIterator.incr, hr, hr2, he,
            hrec, seq_equal]
        · simp [equal, BasicIterator.ne, BasicIterator.deref, hr, hr2, he, seq_equal]

theorem seg_lexicographical_compare (lt : α → α → Bool) {h : Heap α} :
    ∀ (ns ms : List (Nat × α)) (p q : Option Nat) (fuel : Nat),
      Seg h p ns none → Seg h q ms none → ns.length < fuel →
      lexicographical_compare lt h fuel ⟨p⟩ ⟨none⟩ ⟨q⟩ ⟨none⟩
        = some (seq_less lt (ns.map Prod.snd) (ms.map Prod.snd)) := by
  intro ns
  induction ns with
  | nil =>
    intro ms p q fuel hs1 hs2 hf
    have hp : p = none := hs1
    subst hp
    cases fuel with
    | zero => simp at hf
    | succ k =>
      cases ms with
      | nil =>
        have hq : q = none := hs2
        subst hq
        simp [lexicographical_compare, BasicIterator.ne, BasicIterator.eq, seq_less]
      | cons y rest2 =>
        obtain ⟨b, w⟩ := y
        obtain ⟨hq, _⟩ := hs2
        subst hq
        simp [lexicographical_compare, BasicIterator.ne, BasicIterator.eq, seq_less]
  | cons x rest ih =>
    intro ms p q fuel hs1 hs2 hf
    obtain ⟨a, v⟩ := x
    obtain ⟨hp, nx, hr, hrest⟩ := hs1
    subst hp
    cases fuel with
    | zero => simp at hf
    | succ k =>
      have hk : rest.length < k := by simpa using hf
      cases ms with
      | nil =>
        have hq : q = none := hs2
        subst hq
        simp [lexicographical_compare, BasicIterator.ne, BasicIterator.eq, seq_less]
      | cons y rest2 =>
        obtain ⟨b, w⟩ := y
        obtain ⟨hq, nx2, hr2, hrest2⟩ := hs2
        subst hq
        have hrec := ih rest2 nx nx2 k hrest hrest2 hk
        by_cases h1 : lt v w = true
        · simp [lexicographical_compare, BasicIterator.ne, BasicIterator.deref, hr, hr2, h1,
            seq_less]
        · by_cases h2 : lt w v = true
          · simp [lexicographical_compare, BasicIterator.ne, BasicIterator.deref, hr, hr2, h1,
              h2, seq_less]
          · simp [lexicographical_compare, BasicIterator.ne, BasicIterator.deref,
              BasicIterator.incr, hr, hr2, h1, h2, hrec, seq_less]

theorem repr_cbegin {h : Heap α} {l : SingleLinkedList} {ns : List (Nat × α)}
    (hrep : Repr h l ns) : ∃ nx, l.cbegin h = some ⟨nx⟩ ∧ Seg h nx ns none := by
  obtain ⟨⟨hv, _, nx, hr, hseg⟩, _, _⟩ := hrep
  exact ⟨nx, by simp [SingleLinkedList.cbegin, hr], hseg⟩

theorem operator_eq_repr (eq : α → α → Bool) {h : Heap α} {lhs rhs : SingleLinkedList}
    {ns ms : List (Nat × α)} (h1 : Repr h lhs ns) (h2 : Repr h rhs ms) :
    operator_eq eq h lhs rhs = some (seq_equal eq (ns.map Prod.snd) (ms.map Prod.snd)) := by
  have hlen := repr_length_lt h1
  obtain ⟨nx1, hb1, hs1⟩ := repr_cbegin h1
  obtain ⟨nx2, hb2, hs2⟩ := repr_cbegin h2
  simp only [operator_eq, hb1, hb2, SingleLinkedList.cend]
  exact seg_equal eq ns ms nx1 nx2 _ hs1 hs2 (by omega)

theorem operator_lt_repr (lt : α → α → Bool) {h : Heap α} {lhs rhs : SingleLinkedList}
    {ns ms : List (Nat × α)} (h1 : Repr h lhs ns) (h2 : Repr h rhs ms) :
    operator_lt lt h lhs rhs = some (seq_less lt (ns.map Prod.snd) (ms.map Prod.snd)) := by
  have hlen := repr_length_lt h1
  obtain ⟨nx1, hb1, hs1⟩ := repr_cbegin h1
  obtain ⟨nx2, hb2, hs2⟩ := repr_cbegin h2
  simp only [operator_lt, hb1, hb2, SingleLinkedList.cend]
  exact seg_lexicographical_compare lt ns ms nx1 nx2 _ hs1 hs2 (by omega)

theorem seq_equal_iff (eq : α → α → Bool) :
    ∀ (La Lb : List α), seq_equal eq La Lb = true ↔
      (La.length = Lb.length ∧
        ∀ (i : Nat) (x y : α), La[i]? = some x → Lb[i]? = some y → eq x y = true) := by
  intro La
  induction La with
  | nil =>
    intro Lb
    cases Lb with
    | nil => simp [seq_equal]
    | cons y ys => simp [seq_equal]
  | cons x xs ih =>
    intro Lb
    cases Lb with
    | nil => simp [seq_equal]
    | cons y ys =>
      simp only [seq_equal, Bool.and_eq_true, ih ys, List.length_cons, Nat.add_right_cancel_iff]
      constructor
      · rintro ⟨hxy, hlen, hall⟩
        refine ⟨hlen, ?_⟩
        intro i a b ha hb
        cases i with
        | zero =>
          simp only [List.getElem?_cons_zero, Option.some.injEq] at ha hb
          subst ha; subst hb
          exact hxy
        | succ k =>
          simp only [List.getElem?_cons_succ] at ha hb
          exact hall k a b ha hb
      · rintro ⟨hlen, hall⟩
        refine ⟨hall 0 x y (by simp) (by simp), hlen, ?_⟩
        intro i a b ha hb
        exact hall (i + 1) a b (by simpa using ha) (by simpa using hb)

theorem lexless_cons_iff (lt : α → α → Bool) (x y : α) (xs ys : List α)
    (h1 : lt x y = false) (h2 : lt y x = false) :
    LexLess lt (x :: xs) (y :: ys) ↔ LexLess lt xs ys := by
  constructor
  · rintro ⟨i, hpre, hat⟩
    cases i with
    | zero =>
      rcases hat with ⟨a, b, ha, hb, hab⟩ | ⟨hlen, _⟩
      · simp only [List.getElem?_cons_zero, Option.some.injEq] at ha hb
        subst ha; subst hb
        rw [h1] at hab
        exact absurd hab (by simp)
      · simp at hlen
    | succ k =>
      refine ⟨k, ?_, ?_⟩
      · intro j hj
        obtain ⟨a, b, ha, hb, hab⟩ := hpre (j + 1) (by omega)
        exact ⟨a, b, by simpa using ha, by simpa using hb, hab⟩
      · rcases hat with ⟨a, b, ha, hb, hab⟩ | ⟨hlen, hlt⟩
        · exact Or.inl ⟨a, b, by simpa using ha, by simpa using hb, hab⟩
        · exact Or.inr ⟨by simpa using hlen, by simpa using hlt⟩
  · rintro ⟨i, hpre, hat⟩
    refine ⟨i + 1, ?_, ?_⟩
    · intro j hj
      cases j with
      | zero => exact ⟨x, y, by simp, by simp, h1, h2⟩
      | succ k =>
        obtain ⟨a, b, ha, hb, hab⟩ := hpre k (by omega)
        exact ⟨a, b, by simpa using ha, by simpa using hb, hab⟩
    · rcases hat with ⟨a, b, ha, hb, hab⟩ | ⟨hlen, hlt⟩
      · exact Or.inl ⟨a, b, by simpa using ha, by simpa using hb, hab⟩
      · exact Or.inr ⟨by simpa using hlen, by simpa using hlt⟩

theorem seq_less_iff (lt : α → α → Bool) :
    ∀ (La Lb : List α), seq_less lt La Lb = true ↔ LexLess lt La Lb := by
  intro La
  induction La with
  | nil =>
    intro Lb
    cases Lb with
    | nil =>
      simp only [seq_less]
      constructor
      · intro hc; exact absurd hc (by simp)
      · rintro ⟨i, _, hat⟩
        rcases hat with ⟨a, b, ha, _⟩ | ⟨hi, hlt⟩
        · simp at ha
        · simp at hlt
    | cons y ys =>
      simp only [seq_less, true_iff]
      exact ⟨0, fun j hj => absurd hj (by omega), Or.inr ⟨rfl, by simp⟩⟩
  | cons x xs ih =>
    intro Lb
    cases Lb with
    | nil =>
      simp only [seq_less]
      constructor
      · intro hc; exact absurd hc (by simp)
      · rintro ⟨i, hpre, hat⟩
        rcases hat with ⟨a, b, _, hb, _⟩ | ⟨_, hlt⟩
        · simp at hb
        · simp at hlt
    | cons y ys =>
      by_cases h1 : lt x y = true
      · simp only [seq_less, h1, if_true, true_iff]
        exact ⟨0, fun j hj => absurd hj (by omega), Or.inl ⟨x, y, by simp, by simp, h1⟩⟩
      · have h1f : lt x y = false := by simpa using h1
        by_cases h2 : lt y x = true
        · simp only [seq_less, h1f, h2, if_true, Bool.false_eq_true, if_false, false_iff]
          rintro ⟨i, hpre, hat⟩
          cases i with
          | zero =>
            rcases hat with ⟨a, b, ha, hb, hab⟩ | ⟨hlen, _⟩
            · simp only [List.getElem?_cons_zero, Option.some.injEq] at ha hb
              subst ha; subst hb
              rw [h1f] at hab
              exact absurd hab (by simp)
            · simp at hlen
          | succ k =>
            obtain ⟨a, b, ha, hb, _, hba⟩ := hpre 0 (by omega)
            simp only [List.getElem?_cons_zero, Option.some.injEq] at ha hb
            subst ha; subst hb
            rw [h2] at hba
            exact absurd hba (by simp)
        · have h2f : lt y x = false := by simpa using h2
          simp only [seq_less, h1f, h2f, Bool.false_eq_true, if_false]
          rw [ih ys, lexless_cons_iff lt x y xs ys h1f h2f]

theorem seq_less_irrefl (lt : α → α → Bool) (hirr : ∀ x, lt x x = false) :
    ∀ (La : List α), seq_less lt La La = false := by
  intro La
  induction La with
  | nil => rfl
  | cons x xs ih => simp [seq_less, hirr x, ih]

theorem seq_trichotomy (eq lt : α → α → Bool)
    (hasym : ∀ x y, lt x y = true → lt y x = false)
    (hagree : ∀ x y, eq x y = true ↔ (lt x y = false ∧ lt y x = false)) :
    ∀ (La Lb : List α),
      (seq_less lt La Lb = true ∧ seq_equal eq La Lb = false ∧ seq_less lt Lb La = false) ∨
      (seq_less lt La Lb = false ∧ seq_equal eq La Lb = true ∧ seq_less lt Lb La = false) ∨
      (seq_less lt La Lb = false ∧ seq_equal eq La Lb = false ∧ seq_less lt Lb La = true) := by
  intro La
  induction La with
  | nil =>
    intro Lb
    cases Lb with
    | nil => simp [seq_less, seq_equal]
    | cons y ys => simp [seq_less, seq_equal]
  | cons x xs ih =>
    intro Lb
    cases Lb with
    | nil => simp [seq_less, seq_equal]
    | cons y ys =>
      by_cases h1 : lt x y = true
      · have h2 : lt y x = false := hasym x y h1
        have he : eq x y = false := by
          cases hxy : eq x y with
          | false => rfl
          | true => rw [((hagree x y).1 hxy).1] at h1; exact absurd h1 (by simp)
        simp [seq_less, seq_equal, h1, h2, he]
      · have h1f : lt x y = false := by simpa using h1
        by_cases h2 : lt y x = true
        · have he : eq x y = false := by
            cases hxy : eq x y with
            | false => rfl
            | true => rw [((hagree x y).1 hxy).2] at h2; exact absurd h2 (by simp)
          simp [seq_less, seq_equal, h1f, h2, he]
        · have h2f : lt y x = false := by simpa using h2
          have he : eq x y = true := (hagree x y).2 ⟨h1f, h2f⟩
          simpa [seq_less, seq_equal, h1f, h2f, he] using ih ys

/-! ## Swap and copy assignment -/

theorem set_next_same {h : Heap α} {p : Nat} {n : Node α} (hr : h.read p = some n) :
    h.set_next p n.next_node = some h := by
  obtain ⟨h1, hset, hlim, hlen, hrp, hfr⟩ := set_next_spec n.next_node hr
  have heq : h1 = h := by
    apply heap_ext hlim hlen
    intro q
    by_cases hq : q = p
    · subst hq
      rw [hrp, hr]
    · exact hfr q hq
  rw [hset, heq]

theorem swap_self {h : Heap α} {l : SingleLinkedList} {n : Node α}
    (hr : h.read l.head_ = some n) : l.swap h l = .ok h (l, l) := by
  simp [SingleLinkedList.swap, hr, set_next_same hr]

theorem apart_heads {a b : SingleLinkedList} {nsa nsb : List (Nat × α)}
    (hdisj : ∀ q ∈ a.head_ :: nsa.map Prod.fst, q ∉ b.head_ :: nsb.map Prod.fst) :
    a.head_ ≠ b.head_ ∧ a.head_ ∉ nsb.map Prod.fst ∧ b.head_ ∉ nsa.map Prod.fst ∧
      ∀ q ∈ nsa.map Prod.fst, q ∉ nsb.map Prod.fst := by
  have h0 := hdisj a.head_ (by simp)
  simp only [List.mem_cons, not_or] at h0
  refine ⟨h0.1, h0.2, ?_, ?_⟩
  · intro hmem
    have h1 := hdisj b.head_ (List.mem_cons_of_mem _ hmem)
    simp at h1
  · intro q hq
    have h1 := hdisj q (List.mem_cons_of_mem _ hq)
    simp only [List.mem_cons, not_or] at h1
    exact h1.2

theorem swap_apart {h : Heap α} {a b : SingleLinkedList} {nsa nsb : List (Nat × α)}
    (hok : HeapOK h) (ha : Repr h a nsa) (hb : Repr h b nsb)
    (hdisj : ∀ q ∈ a.head_ :: nsa.map Prod.fst, q ∉ b.head_ :: nsb.map Prod.fst) :
    ∃ h2, a.swap h b = .ok h2 (⟨a.head_, b.size_⟩, ⟨b.head_, a.size_⟩) ∧ HeapOK h2 ∧
      h2.cells.length = h.cells.length ∧
      Repr h2 ⟨a.head_, b.size_⟩ nsb ∧ Repr h2 ⟨b.head_, a.size_⟩ nsa ∧
      (∀ q, q ≠ a.head_ → q ≠ b.head_ → h2.read q = h.read q) := by
  obtain ⟨hab, hanb, hbna, _⟩ := apart_heads hdisj
  obtain ⟨⟨av, _, anx, hra, hsa⟩, hnda, hsza⟩ := ha
  obtain ⟨⟨bv, _, bnx, hrb, hsb⟩, hndb, hszb⟩ := hb
  obtain ⟨h2, hcall, hlen, hlim, hra2, hrb2, hfr⟩ := swap_spec a b hra hrb hab
  simp only at hra2 hrb2
  simp only [List.nodup_cons] at hnda hndb
  refine ⟨h2, hcall, ⟨by have := hok.1; omega, by have := hok.2; omega⟩, hlen,
    ⟨⟨av, rfl, bnx, hra2, ?_⟩, ?_, hszb⟩, ⟨⟨bv, rfl, anx, hrb2, ?_⟩, ?_, hsza⟩, hfr⟩
  · apply seg_frame nsb bnx none _ hsb
    intro q hq
    exact hfr q (by intro heq; subst heq; exact hanb hq)
      (by intro heq; subst heq; exact hndb.1 hq)
  · simp only [List.nodup_cons]
    exact ⟨hanb, hndb.2⟩
  · apply seg_frame nsa anx none _ hsa
    intro q hq
    exact hfr q (by intro heq; subst heq; exact hnda.1 hq)
      (by intro heq; subst heq; exact hbna hq)
  · simp only [List.nodup_cons]
    exact ⟨hbna, hnda.2⟩

theorem operator_assign_apart [Inhabited α] {h : Heap α} {a rhs : SingleLinkedList}
    {nsa os : List (Nat × α)} (junk : Nat) (ha : Repr h a nsa)
    (hr : Repr h rhs os)
    (hdisj : ∀ q ∈ a.head_ :: nsa.map Prod.fst, q ∉ rhs.head_ :: os.map Prod.fst)
    (hroom : h.cells.length + os.length ≤ h.limit)
    (haddr : h.cells.length + os.length + 2 ≤ ADDR_LIMIT) :
    ∃ h5 ns, a.operator_assign h junk rhs = .ok h5 ⟨a.head_, os.length⟩ ∧ HeapOK h5 ∧
      Repr h5 ⟨a.head_, os.length⟩ ns ∧ ns.map Prod.snd = os.map Prod.snd ∧
      Repr h5 rhs os ∧
      (∀ q ∈ a.head_ :: ns.map Prod.fst, q ∉ rhs.head_ :: os.map Prod.fst) := by
  obtain ⟨hab, hano, hrna, hnn⟩ := apart_heads hdisj
  obtain ⟨h3, ns, hcopy, hok3, hlen3, hlim3, hrept, hval, hgt, hfr3⟩ :=
    copy_ctor_spec junk hr hroom haddr
  obtain ⟨⟨av, hasegf⟩, hnda, hsza⟩ := id ha
  have halt := seg_addr_lt _ _ _ hasegf
  obtain ⟨⟨ov, hosegf⟩, hndo, hszo⟩ := id hr
  have holt := seg_addr_lt _ _ _ hosegf
  have ha3 : Repr h3 a nsa :=
    ⟨⟨av, seg_frame _ _ _ (fun q hq => hfr3 q (halt q hq)) hasegf⟩, hnda, hsza⟩
  have hr3 : Repr h3 rhs os :=
    ⟨⟨ov, seg_frame _ _ _ (fun q hq => hfr3 q (holt q hq)) hosegf⟩, hndo, hszo⟩
  have haltq : ∀ q ∈ a.head_ :: nsa.map Prod.fst, q < h.cells.length := by
    intro q hq
    exact halt q (by simpa using hq)
  have holtq : ∀ q ∈ rhs.head_ :: os.map Prod.fst, q < h.cells.length := by
    intro q hq
    exact holt q (by simpa using hq)
  have hdisj3 : ∀ q ∈ a.head_ :: nsa.map Prod.fst,
      q ∉ (SingleLinkedList.mk h.cells.length os.length).head_ :: ns.map Prod.fst := by
    intro q hq
    have h1 := haltq q hq
    simp only [List.mem_cons, not_or]
    refine ⟨by omega, ?_⟩
    intro hmem
    have := hgt q hmem
    omega
  obtain ⟨h4, hswap, hok4, hlen4, hrepa4, hrept4, hfr4⟩ := swap_apart hok3 ha3 hrept hdisj3
  simp only at hrepa4 hrept4 hfr4
  obtain ⟨⟨tv, _, tnx, hrt4, hst4⟩, hndt4, _⟩ := hrept4
  obtain ⟨h5, hdtor, hlen5, hlim5, _, _, hfr5⟩ :=
    dtor_spec ⟨h.cells.length, a.size_⟩ nsa hrt4 hst4 hndt4
  simp only at hfr5
  have hahead : a.head_ < h.cells.length := haltq _ (by simp)
  obtain ⟨⟨av4, _, anx4, hra4, hsa4⟩, hnda4, hsza4⟩ := hrepa4
  simp only at hra4 hnda4 hsza4
  simp only [List.nodup_cons] at hnda hnda4
  refine ⟨h5, ns, ?_, ⟨by have := hok4.1; omega, by have := hok4.2; omega⟩,
    ⟨⟨av4, rfl, anx4, ?_, ?_⟩, ?_, hsza4⟩, hval, ⟨⟨ov, ?_⟩, hndo, hszo⟩, ?_⟩
  · simp [SingleLinkedList.operator_assign, hab, hcopy, hswap, hdtor]
  · simp only
    rw [hfr5 a.head_ (by omega) hnda.1]
    exact hra4
  · apply seg_frame ns anx4 none _ hsa4
    intro q hq
    have h1 := hgt q hq
    refine hfr5 q (by omega) ?_
    intro hmem
    have := haltq q (List.mem_cons_of_mem _ hmem)
    omega
  · simp only [List.nodup_cons]
    exact hnda4
  · apply seg_frame _ _ _ _ hosegf
    intro q hq
    have hq1 : q ∈ rhs.head_ :: os.map Prod.fst := by simpa using hq
    have hlt := holtq q hq1
    have hna : q ∉ a.head_ :: nsa.map Prod.fst := fun hmem => hdisj q hmem hq1
    simp only [List.mem_cons, not_or] at hna
    rw [hfr5 q (by omega) hna.2, hfr4 q hna.1 (by omega), hfr3 q hlt]
  · intro q hq hq2
    have hlt := holtq q hq2
    simp only [List.mem_cons] at hq
    rcases hq with hq | hq
    · subst hq
      exact hdisj _ (by simp) hq2
    · have := hgt q hq
      omega

theorem repr_cells {lim1 lim2 : Nat} {cells : List (Option (Node α))} {l : SingleLinkedList}
    {ns : List (Nat × α)} (hrep : Repr (Heap.mk cells lim1) l ns) :
    Repr (Heap.mk cells lim2) l ns := by
  obtain ⟨⟨hv, hseg⟩, hnd, hsz⟩ := hrep
  exact ⟨⟨hv, @seg_frame α (Heap.mk cells lim1) (Heap.mk cells lim2) _ _ _ (fun _ _ => rfl) hseg⟩,
    hnd, hsz⟩

theorem repr_list123_AB : Repr heapAB list123 [(2, 1), (3, 2), (4, 3)] :=
  ⟨⟨0, rfl, some 2, rfl, rfl, some 3, rfl, rfl, some 4, rfl, rfl, none, rfl, rfl⟩,
    by decide, rfl⟩

theorem repr_list124_AB : Repr heapAB list124 [(6, 1), (7, 2), (8, 4)] :=
  ⟨⟨0, rfl, some 6, rfl, rfl, some 7, rfl, rfl, some 8, rfl, rfl, none, rfl, rfl⟩,
    by decide, rfl⟩

theorem apart_AB (lim : Nat) : Apart (Heap.mk heapAB.cells lim) list123 list124 :=
  ⟨_, _, repr_cells repr_list123_AB, repr_cells repr_list124_AB, by decide⟩

theorem wf_list123_AB : WF heapAB list123 :=
  ⟨⟨by decide, by decide⟩, _, repr_list123_AB⟩

theorem wf_list124_AB : WF heapAB list124 :=
  ⟨⟨by decide, by decide⟩, _, repr_list124_AB⟩

/-! ## The claims on assignment, swap, comparison and failure -/

/-- C11: for two distinct lists `a` and `rhs` in one heap, `a = rhs` returns (when the free
store has room for the nodes of the copy), and afterwards the list object of `a` is at its
old place and is well formed with exactly the element sequence and the size of `rhs`,
whatever `a` held before; `rhs` is well formed with its element sequence as before, and the
two lists share no cell, so that `a` holds copies of its own. The self-assignment `a = a`
returns with the heap and the list object unchanged. -/
theorem C11_copy_assignment [Inhabited α] (h : Heap α) (a rhs : SingleLinkedList)
    (junk : Nat) (Lr : List α) (hsep : Apart h a rhs)
    (hLr : rhs.elements h = some Lr)
    (hroom : h.cells.length + rhs.GetSize ≤ h.limit)
    (haddr : h.cells.length + rhs.GetSize + 2 ≤ ADDR_LIMIT) :
    (∃ h1 a1, a.operator_assign h junk rhs = .ok h1 a1 ∧ a1.head_ = a.head_ ∧ WF h1 a1 ∧
        a1.elements h1 = some Lr ∧ a1.GetSize = rhs.GetSize ∧
        WF h1 rhs ∧ rhs.elements h1 = some Lr ∧ Apart h1 a1 rhs) ∧
      a.operator_assign h junk a = .ok h a := by
  obtain ⟨nsa, os, ha, hr, hdisj⟩ := hsep
  have hLos : Lr = os.map Prod.snd := by
    rw [repr_elements hr] at hLr
    exact (Option.some.inj hLr).symm
  have hsz : rhs.size_ = os.length := hr.2.2
  have hroom1 : h.cells.length + os.length ≤ h.limit := by
    simpa [SingleLinkedList.GetSize, hsz] using hroom
  have haddr1 : h.cells.length + os.length + 2 ≤ ADDR_LIMIT := by
    simpa [SingleLinkedList.GetSize, hsz] using haddr
  obtain ⟨h5, ns, hcall, hok5, hrepa, hval, hrepr, hdisj5⟩ :=
    operator_assign_apart junk ha hr hdisj hroom1 haddr1
  refine ⟨⟨h5, _, hcall, rfl, ⟨hok5, ns, hrepa⟩, ?_, by simp [SingleLinkedList.GetSize, hsz],
    ⟨hok5, os, hrepr⟩, ?_, ⟨ns, os, hrepa, hrepr, hdisj5⟩⟩,
    by simp [SingleLinkedList.operator_assign]⟩
  · rw [repr_elements hrepa, hval, hLos]
  · rw [repr_elements hrepr, hLos]

theorem C11_copy_assignment_witness :
    Apart heapAB list123 list124 ∧
      list124.elements heapAB = some [1, 2, 4] ∧
      heapAB.cells.length + list124.GetSize ≤ heapAB.limit ∧
      heapAB.cells.length + list124.GetSize + 2 ≤ ADDR_LIMIT ∧
      (∃ h1 a1, list123.operator_assign heapAB 7 list124 = .ok h1 a1 ∧
          a1.head_ = list123.head_ ∧ WF h1 a1 ∧
          a1.elements h1 = some [1, 2, 4] ∧ a1.GetSize = list124.GetSize ∧
          WF h1 list124 ∧ list124.elements h1 = some [1, 2, 4] ∧ Apart h1 a1 list124) ∧
        list123.operator_assign heapAB 7 list123 = .ok heapAB list123 :=
  ⟨apart_AB 32, rfl, by decide, by decide,
    C11_copy_assignment heapAB list123 list124 7 [1, 2, 4] (apart_AB 32) rfl (by decide)
      (by decide)⟩

/-- C12: for two distinct lists `a` and `b` in one heap, the member `a.swap(b)` and the free
function `swap(a, b)` return the same result: both list objects are at their old places,
`a` is well formed with the former element sequence and size of `b`, and `b` with the former
element sequence and size of `a`; the two lists share no cell, and every cell other than the
two sentinels, so every node with its element, reads as before. Swapping a list with itself
changes nothing. -/
theorem C12_swap (h : Heap α) (a b : SingleLinkedList) (La Lb : List α) (hok : HeapOK h)
    (hsep : Apart h a b) (hLa : a.elements h = some La) (hLb : b.elements h = some Lb) :
    (∃ h1 a1 b1, a.swap h b = .ok h1 (a1, b1) ∧ swap h a b = .ok h1 (a1, b1) ∧
        a1.head_ = a.head_ ∧ b1.head_ = b.head_ ∧
        WF h1 a1 ∧ WF h1 b1 ∧ Apart h1 a1 b1 ∧
        a1.elements h1 = some Lb ∧ a1.GetSize = b.GetSize ∧
        b1.elements h1 = some La ∧ b1.GetSize = a.GetSize ∧
        (∀ q, q ≠ a.head_ → q ≠ b.head_ → h1.read q = h.read q)) ∧
      a.swap h a = .ok h (a, a) := by
  obtain ⟨nsa, nsb, ha, hb, hdisj⟩ := hsep
  have hLa2 : La = nsa.map Prod.snd := by
    rw [repr_elements ha] at hLa
    exact (Option.some.inj hLa).symm
  have hLb2 : Lb = nsb.map Prod.snd := by
    rw [repr_elements hb] at hLb
    exact (Option.some.inj hLb).symm
  obtain ⟨hab, hanb, hbna, hnn⟩ := apart_heads hdisj
  obtain ⟨h2, hcall, hok2, _, hrepa, hrepb, hfr⟩ := swap_apart hok ha hb hdisj
  obtain ⟨⟨av, _, anx, hra, _⟩, _, _⟩ := id ha
  have hdisj2 : ∀ q ∈ (SingleLinkedList.mk a.head_ b.size_).head_ :: nsb.map Prod.fst,
      q ∉ (SingleLinkedList.mk b.head_ a.size_).head_ :: nsa.map Prod.fst := by
    intro q hq hq2
    simp only [List.mem_cons] at hq hq2
    rcases hq with hq | hq
    · subst hq
      rcases hq2 with hq2 | hq2
      · exact hab hq2
      · exact (List.nodup_cons.1 ha.2.1).1 hq2
    · rcases hq2 with hq2 | hq2
      · subst hq2
        exact (List.nodup_cons.1 hb.2.1).1 hq
      · exact hnn q hq2 hq
  refine ⟨⟨h2, _, _, hcall, hcall, rfl, rfl, ⟨hok2, _, hrepa⟩, ⟨hok2, _, hrepb⟩,
    ⟨nsb, nsa, hrepa, hrepb, hdisj2⟩, ?_, rfl, ?_, rfl, hfr⟩, swap_self hra⟩
  · rw [repr_elements hrepa, hLb2]
  · rw [repr_elements hrepb, hLa2]

theorem C12_swap_witness :
    HeapOK heapAB ∧ Apart heapAB list123 list124 ∧
      list123.elements heapAB = some [1, 2, 3] ∧ list124.elements heapAB = some [1, 2, 4] ∧
      (∃ h1 a1 b1, list123.swap heapAB list124 = .ok h1 (a1, b1) ∧
          swap heapAB list123 list124 = .ok h1 (a1, b1) ∧
          a1.head_ = list123.head_ ∧ b1.head_ = list124.head_ ∧
          WF h1 a1 ∧ WF h1 b1 ∧ Apart h1 a1 b1 ∧
          a1.elements h1 = some [1, 2, 4] ∧ a1.GetSize = list124.GetSize ∧
          b1.elements h1 = some [1, 2, 3] ∧ b1.GetSize = list123.GetSize ∧
          (∀ q, q ≠ list123.head_ → q ≠ list124.head_ → h1.read q = heapAB.read q)) ∧
        list123.swap heapAB list123 = .ok heapAB (list123, list123) :=
  ⟨⟨by decide, by decide⟩, apart_AB 32, rfl, rfl,
    C12_swap heapAB list123 list124 [1, 2, 3] [1, 2, 4] ⟨by decide, by decide⟩
      (apart_AB 32) rfl rfl⟩

/-- C13: for two well-formed lists with element sequences `La` and `Lb`, `lhs == rhs`
returns, and it is true if and only if `La` and `Lb` have the same length and their elements
are equal, under the `operator==` of the element type, at every position; in particular it
is false for sequences of different length; and `lhs != rhs` returns its negation. -/
theorem C13_operator_eq (eq : α → α → Bool) (h : Heap α) (lhs rhs : SingleLinkedList)
    (La Lb : List α) (hl : WF h lhs) (hr : WF h rhs) (hLa : lhs.elements h = some La)
    (hLb : rhs.elements h = some Lb) :
    ∃ r, operator_eq eq h lhs rhs = some r ∧
      (r = true ↔ (La.length = Lb.length ∧
        ∀ (i : Nat) (x y : α), La[i]? = some x → Lb[i]? = some y → eq x y = true)) ∧
      (La.length ≠ Lb.length → r = false) ∧
      operator_ne eq h lhs rhs = some (!r) := by
  obtain ⟨_, ns, h1⟩ := hl
  obtain ⟨_, ms, h2⟩ := hr
  have hLa2 : La = ns.map Prod.snd := by
    rw [repr_elements h1] at hLa
    exact (Option.some.inj hLa).symm
  have hLb2 : Lb = ms.map Prod.snd := by
    rw [repr_elements h2] at hLb
    exact (Option.some.inj hLb).symm
  have hcall := operator_eq_repr eq h1 h2
  rw [← hLa2, ← hLb2] at hcall
  refine ⟨_, hcall, seq_equal_iff eq La Lb, ?_, by simp [operator_ne, hcall]⟩
  intro hne
  cases hs : seq_equal eq La Lb with
  | false => rfl
  | true => exact absurd ((seq_equal_iff eq La Lb).1 hs).1 hne

theorem C13_operator_eq_witness :
    WF heapAB list123 ∧ WF heapAB list124 ∧ list123.elements heapAB = some [1, 2, 3] ∧
      list124.elements heapAB = some [1, 2, 4] ∧
      operator_eq nat_eq heapAB list123 list124 = some false ∧
      operator_eq nat_eq heapAB list123 list123 = some true ∧
      ∃ r, operator_eq nat_eq heapAB list123 list124 = some r ∧
        (r = true ↔ ([1, 2, 3].length = [1, 2, 4].length ∧
          ∀ (i : Nat) (x y : Nat), [1, 2, 3][i]? = some x → [1, 2, 4][i]? = some y →
            nat_eq x y = true)) ∧
        ([1, 2, 3].length ≠ [1, 2, 4].length → r = false) ∧
        operator_ne nat_eq heapAB list123 list124 = some (!r) :=
  ⟨wf_list123_AB, wf_list124_AB, rfl, rfl, rfl, rfl,
    C13_operator_eq nat_eq heapAB list123 list124 [1, 2, 3] [1, 2, 4] wf_list123_AB
      wf_list124_AB rfl rfl⟩

/-- C14: for two well-formed lists with element sequences `La` and `Lb`, `lhs < rhs`
returns, and it is true exactly when `La` is strictly lexicographically smaller than `Lb`
under the `operator<` of the element type: at the first position where the elements differ
the element of `La` is smaller, or `La` is a proper prefix of `Lb`. The empty sequence is
less than every non-empty one, and when no element is less than itself no list is less than
itself. -/
theorem C14_operator_lt (lt : α → α → Bool) (h : Heap α) (lhs rhs : SingleLinkedList)
    (La Lb : List α) (hl : WF h lhs) (hr : WF h rhs) (hLa : lhs.elements h = some La)
    (hLb : rhs.elements h = some Lb) :
    ∃ r, operator_lt lt h lhs rhs = some r ∧ (r = true ↔ LexLess lt La Lb) ∧
      (La = [] → Lb ≠ [] → r = true) ∧
      ((∀ x, lt x x = false) → operator_lt lt h lhs lhs = some false) := by
  obtain ⟨_, ns, h1⟩ := hl
  obtain ⟨_, ms, h2⟩ := hr
  have hLa2 : La = ns.map Prod.snd := by
    rw [repr_elements h1] at hLa
    exact (Option.some.inj hLa).symm
  have hLb2 : Lb = ms.map Prod.snd := by
    rw [repr_elements h2] at hLb
    exact (Option.some.inj hLb).symm
  have hcall := operator_lt_repr lt h1 h2
  have hself := operator_lt_repr lt h1 h1
  rw [← hLa2, ← hLb2] at hcall
  rw [← hLa2] at hself
  refine ⟨_, hcall, seq_less_iff lt La Lb, ?_, ?_⟩
  · intro hA hB
    subst hA
    cases Lb with
    | nil => exact absurd rfl hB
    | cons y ys => rfl
  · intro hirr
    rw [hself, seq_less_irrefl lt hirr La]

theorem C14_operator_lt_witness :
    WF heapAB list123 ∧ WF heapAB list124 ∧ list123.elements heapAB = some [1, 2, 3] ∧
      list124.elements heapAB = some [1, 2, 4] ∧
      operator_lt nat_lt heapAB list123 list124 = some true ∧
      ∃ r, operator_lt nat_lt heapAB list123 list124 = some r ∧
        (r = true ↔ LexLess nat_lt [1, 2, 3] [1, 2, 4]) ∧
        (([1, 2, 3] : List Nat) = [] → ([1, 2, 4] : List Nat) ≠ [] → r = true) ∧
        ((∀ x, nat_lt x x = false) → operator_lt nat_lt heapAB list123 list123 = some false) :=
  ⟨wf_list123_AB, wf_list124_AB, rfl, rfl, rfl,
    C14_operator_lt nat_lt heapAB list123 list124 [1, 2, 3] [1, 2, 4] wf_list123_AB
      wf_list124_AB rfl rfl⟩

/-- C15: for two well-formed lists `a` and `b` all four ordering operators return, and with
`r1` the value of `a < b` and `r2` the value of `b < a`: `a > b` is `r2`, `a <= b` is the
negation of `r2`, `a >= b` is the negation of `r1`; so `a <= b` and `b < a` never both
hold. -/
theorem C15_derived_operators (lt : α → α → Bool) (h : Heap α) (a b : SingleLinkedList)
    (ha : WF h a) (hb : WF h b) :
    ∃ r1 r2, operator_lt lt h a b = some r1 ∧ operator_lt lt h b a = some r2 ∧
      operator_gt lt h a b = some r2 ∧ operator_le lt h a b = some (!r2) ∧
      operator_ge lt h a b = some (!r1) ∧ ¬ ((!r2) = true ∧ r2 = true) := by
  obtain ⟨_, ns, h1⟩ := ha
  obtain ⟨_, ms, h2⟩ := hb
  have hab := operator_lt_repr lt h1 h2
  have hba := operator_lt_repr lt h2 h1
  refine ⟨_, _, hab, hba, ?_, ?_, ?_, ?_⟩
  · simp [operator_gt, hba]
  · simp [operator_le, hba]
  · simp [operator_ge, operator_gt, hab]
  · cases seq_less lt (ms.map Prod.snd) (ns.map Prod.snd) <;> simp

theorem C15_derived_operators_witness :
    WF heapAB list123 ∧ WF heapAB list124 ∧
      operator_le nat_lt heapAB list123 list124 = some true ∧
      operator_gt nat_lt heapAB list123 list124 = some false ∧
      operator_le nat_lt heapAB list124 list123 = some false ∧
      ∃ r1 r2, operator_lt nat_lt heapAB list123 list124 = some r1 ∧
        operator_lt nat_lt heapAB list124 list123 = some r2 ∧
        operator_gt nat_lt heapAB list123 list124 = some r2 ∧
        operator_le nat_lt heapAB list123 list124 = some (!r2) ∧
        operator_ge nat_lt heapAB list123 list124 = some (!r1) ∧
        ¬ ((!r2) = true ∧ r2 = true) :=
  ⟨wf_list123_AB, wf_list124_AB, rfl, rfl, rfl,
    C15_derived_operators nat_lt heapAB list123 list124 wf_list123_AB wf_list124_AB⟩

/-- C16: let the `operator<` of the element type never hold in both directions, and let
its `operator==` hold exactly for the elements of which neither is less than the other, as
for a total order. Then for two well-formed lists `x` and `y` the three comparisons `x < y`,
`x == y` and `y < x` return, and exactly one of them is true. -/
theorem C16_trichotomy (eq lt : α → α → Bool) (h : Heap α) (x y : SingleLinkedList)
    (hx : WF h x) (hy : WF h y)
    (hasym : ∀ u v, lt u v = true → lt v u = false)
    (hagree : ∀ u v, eq u v = true ↔ (lt u v = false ∧ lt v u = false)) :
    ∃ r1 r2 r3, operator_lt lt h x y = some r1 ∧ operator_eq eq h x y = some r2 ∧
      operator_lt lt h y x = some r3 ∧
      ((r1 = true ∧ r2 = false ∧ r3 = false) ∨ (r1 = false ∧ r2 = true ∧ r3 = false) ∨
        (r1 = false ∧ r2 = false ∧ r3 = true)) := by
  obtain ⟨_, ns, h1⟩ := hx
  obtain ⟨_, ms, h2⟩ := hy
  exact ⟨_, _, _, operator_lt_repr lt h1 h2, operator_eq_repr eq h1 h2,
    operator_lt_repr lt h2 h1,
    seq_trichotomy eq lt hasym hagree (ns.map Prod.snd) (ms.map Prod.snd)⟩

theorem C16_trichotomy_witness :
    WF heapAB list123 ∧ WF heapAB list124 ∧
      (∀ u v, nat_lt u v = true → nat_lt v u = false) ∧
      (∀ u v, nat_eq u v = true ↔ (nat_lt u v = false ∧ nat_lt v u = false)) ∧
      ∃ r1 r2 r3, operator_lt nat_lt heapAB list123 list124 = some r1 ∧
        operator_eq nat_eq heapAB list123 list124 = some r2 ∧
        operator_lt nat_lt heapAB list124 list123 = some r3 ∧
        ((r1 = true ∧ r2 = false ∧ r3 = false) ∨ (r1 = false ∧ r2 = true ∧ r3 = false) ∨
          (r1 = false ∧ r2 = false ∧ r3 = true)) :=
  have hasym : ∀ u v, nat_lt u v = true → nat_lt v u = false := by
    intro u v huv
    simp only [nat_lt, decide_eq_true_eq, decide_eq_false_iff_not] at huv ⊢
    omega
  have hagree : ∀ u v, nat_eq u v = true ↔ (nat_lt u v = false ∧ nat_lt v u = false) := by
    intro u v
    simp only [nat_eq, nat_lt, decide_eq_true_eq, decide_eq_false_iff_not]
    omega
  ⟨wf_list123_AB, wf_list124_AB, hasym, hagree,
    C16_trichotomy nat_eq nat_lt heapAB list123 list124 wf_list123_AB wf_list124_AB hasym
      hagree⟩

/-- C17: `InsertAfter` with the end cursor is not stopped by an assertion. On the list
`{1, 2, 3}`, well formed in `heapFull` and in `heapAB`, the call `InsertAfter(end(), 9)`
throws the exception of the failed allocation when the free store is used up, with the heap
and the list object unchanged, and reads through the null cursor when there is room; and so
it is for every heap, list and value. -/
theorem C17_InsertAfter_end_cursor :
    WF heapFull list123 ∧ WF heapAB list123 ∧
      list123.InsertAfter heapFull list123.end 9 = .thrown heapFull list123 ∧
      list123.InsertAfter heapAB list123.end 9 = .fault ∧
      ∀ (h : Heap Nat) (l : SingleLinkedList) (v : Nat),
        l.InsertAfter h l.end v
          = if h.cells.length < h.limit then Outcome.fault else Outcome.thrown h l := by
  refine ⟨⟨⟨by decide, by decide⟩, _, repr_cells repr_list123_AB⟩, wf_list123_AB, rfl, rfl, ?_⟩
  intro h l v
  simp [SingleLinkedList.InsertAfter, SingleLinkedList.end, SingleLinkedList.cend,
    BasicIterator.incr]

/-- C19: on a well-formed list in a heap with room for one node, `InsertAfter` at
`before_begin()` and `PushFront` return in the same heap with the same list object, and the
cursor `InsertAfter` returns is `begin()` of that result and dereferences to `v`. -/
theorem C19_InsertAfter_before_begin_is_PushFront (h : Heap α) (l : SingleLinkedList)
    (v : α) (hwf : WF h l) (hroom : h.cells.length < h.limit) :
    ∃ h1 l1 it, l.InsertAfter h l.before_begin v = .ok h1 (l1, it) ∧
      l.PushFront h v = .ok h1 l1 ∧ l1.begin h1 = some it ∧ it.deref h1 = some v := by
  obtain ⟨hok, ns, hrep⟩ := hwf
  obtain ⟨h2, hcall, _, _, _, hrep2, _, _⟩ :=
    InsertAfter_repr v hok hroom hrep (show (l.head_ :: ns.map Prod.fst)[0]? = some l.head_
      by simp)
  have hrep3 : Repr h2 ⟨l.head_, l.size_ + 1⟩ ((h.cells.length, v) :: ns) := by
    simpa using hrep2
  refine ⟨h2, _, _, hcall, ?_, ?_, ?_⟩
  · rw [PushFront_eq_InsertAfter h l v hroom]
    simp only [SingleLinkedList.before_begin, hcall]
  · rw [repr_begin hrep3]
    simp
  · obtain ⟨⟨hv, _, nx, _, _, nx2, hra, _⟩, _, _⟩ := hrep3
    simp [BasicIterator.deref, hra]

theorem C19_InsertAfter_before_begin_is_PushFront_witness :
    WF heap123 list123 ∧ heap123.cells.length < heap123.limit ∧
      ∃ h1 l1 it, list123.InsertAfter heap123 list123.before_begin 9 = .ok h1 (l1, it) ∧
        list123.PushFront heap123 9 = .ok h1 l1 ∧ l1.begin h1 = some it ∧
        it.deref h1 = some 9 :=
  ⟨wf_list123, by decide,
    C19_InsertAfter_before_begin_is_PushFront heap123 list123 9 wf_list123 (by decide)⟩

/-- C20: let `pos` reference the node of a well-formed list reached from `before_begin()`
by `i` increments. Then `InsertAfter(pos, v)` returns (when the heap has room for one node)
and `EraseAfter(pos)` on its result returns as well; afterwards the list object is the
original one, well formed with the original element sequence and size, and the cursor
`EraseAfter` returns is what followed `pos` before the two calls, the end cursor when
nothing followed. -/
theorem C20_insert_erase_round_trip (h : Heap α) (l : SingleLinkedList)
    (pos : BasicIterator) (v : α) (L : List α) (i : Nat) (hwf : WF h l)
    (hroom : h.cells.length < h.limit) (hL : l.elements h = some L)
    (hpos : advance h i l.before_begin = some pos) (hnode : pos.node_ ≠ none) :
    ∃ h1 l1 it1 h2 l2 it2, l.InsertAfter h pos v = .ok h1 (l1, it1) ∧
      l1.EraseAfter h1 pos = .ok h2 (l2, it2) ∧ l2 = l ∧ WF h2 l2 ∧
      l2.elements h2 = some L ∧ l2.GetSize = l.GetSize ∧ pos.incr h = some it2 := by
  obtain ⟨hok, ns, hrep⟩ := hwf
  have hLns : L = ns.map Prod.snd := by
    rw [repr_elements hrep] at hL
    exact (Option.some.inj hL).symm
  obtain ⟨pn⟩ := pos
  cases pn with
  | none => exact absurd rfl hnode
  | some p =>
    have hidx := repr_cursor hrep hpos rfl
    have hi : i ≤ ns.length := by
      have := (List.getElem?_eq_some.1 hidx).1
      simp at this
      omega
    obtain ⟨h1, hcall1, hok1, _, _, hrep1, _, _⟩ := InsertAfter_repr v hok hroom hrep hidx
    have htake : (ns.take i).length = i := by simp [List.length_take, Nat.min_eq_left hi]
    have hidx1 : (l.head_ :: (ns.take i ++ (h.cells.length, v) :: ns.drop i).map
        Prod.fst)[i]? = some p := by
      cases i with
      | zero => simpa using hidx
      | succ k =>
        simp only [List.getElem?_cons_succ] at hidx ⊢
        simp only [List.map_append, List.map_take]
        rw [List.getElem?_append_left (by simp [List.length_take]; omega)]
        rw [List.getElem?_take]
        simp [hidx]
    have hi1 : i < (ns.take i ++ (h.cells.length, v) :: ns.drop i).length := by
      simp [List.length_take, List.length_drop]
      omega
    obtain ⟨h2, r, _, hcall2, hok2, _, _, hrep2, _, _⟩ :=
      EraseAfter_repr hok1 hrep1 hidx1 hi1
    have hback : (ns.take i ++ (h.cells.length, v) :: ns.drop i).take i
        ++ (ns.take i ++ (h.cells.length, v) :: ns.drop i).drop (i + 1) = ns := by
      rw [List.take_left' htake]
      have hsplit : ns.take i ++ (h.cells.length, v) :: ns.drop i
          = (ns.take i ++ [(h.cells.length, v)]) ++ ns.drop i := by simp
      rw [hsplit, List.drop_left' (by simp [htake])]
      exact List.take_append_drop i ns
    rw [hback] at hrep2
    have hobj : (SingleLinkedList.mk l.head_ (l.size_ + 1 - 1)) = l := by
      cases l
      simp
    simp only at hcall2 hrep2
    rw [hobj] at hcall2 hrep2
    have hnext : ((ns.take i ++ (h.cells.length, v) :: ns.drop i).map Prod.fst)[i + 1]?
        = (l.head_ :: ns.map Prod.fst)[i + 1]? := by
      simp only [List.map_append, List.map_cons, List.map_take, List.map_drop,
        List.getElem?_cons_succ]
      rw [List.getElem?_append_right (by simp [List.length_take])]
      simp [List.length_take, Nat.min_eq_left hi, List.getElem?_drop]
    rw [hnext] at hcall2
    refine ⟨h1, _, _, h2, _, _, hcall1, hcall2, rfl, ⟨hok2, ns, hrep2⟩, ?_, rfl, ?_⟩
    · rw [repr_elements hrep2, hLns]
    · obtain ⟨hv, hseg⟩ := hrep.1
      obtain ⟨pv, hget⟩ := map_fst_get ((l.head_, hv) :: ns) i p (by simpa using hidx)
      have hr := seg_read_next _ _ i p pv hseg hget
      simp [BasicIterator.incr, hr]

theorem C20_insert_erase_round_trip_witness :
    WF heap123 list123 ∧ heap123.cells.length < heap123.limit ∧
      list123.elements heap123 = some [1, 2, 3] ∧
      advance heap123 1 list123.before_begin = some ⟨some 2⟩ ∧
      (BasicIterator.mk (some 2)).node_ ≠ none ∧
      ∃ h1 l1 it1 h2 l2 it2, list123.InsertAfter heap123 ⟨some 2⟩ 9 = .ok h1 (l1, it1) ∧
        l1.EraseAfter h1 ⟨some 2⟩ = .ok h2 (l2, it2) ∧ l2 = list123 ∧ WF h2 l2 ∧
        l2.elements h2 = some [1, 2, 3] ∧ l2.GetSize = list123.GetSize ∧
        (BasicIterator.mk (some 2)).incr heap123 = some it2 :=
  ⟨wf_list123, by decide, rfl, rfl, by decide,
    C20_insert_erase_round_trip heap123 list123 ⟨some 2⟩ 9 [1, 2, 3] 1 wf_list123 (by decide)
      rfl rfl (by decide)⟩

end SingleLinked
